import Mathlib

/-!
# golox: scanner, parser, environment and tree-walking interpreter

A shallow embedding of the Go packages `lexer`, `errors` and `parser`.

Conventions of the embedding.

* A Go `string` is its sequence of bytes; the scanner's `source` is a `List Char`, one
  `Char` per byte. Lexemes are the `String` built from the bytes of a slice.
* Go `int` cursors and line counters only count upwards from `0` or `1`; they are `Nat`,
  and an index or slice expression that Go would reject is a panic of the model.
* A Go `panic` is an outcome of its own. It carries the panic value, whose dynamic type
  (`*ParseError`, `ParseError`, or one of the errors of the Go runtime) is what the
  `recover` handlers of `declaration` and `Interpret` inspect, and the state at the
  moment of the panic (the receivers are pointers, so their mutations persist).
* Loops and the recursive descent are defined by recursion on a fuel argument; running
  out of fuel is a third outcome, distinct from returning and from panicking.
* `float64` and the two library routines that read and print it are a parameter
  (`GoFloat`).
* The standard output of the process is a field `stdout` of each state.
-/

namespace Golox

/-! ## Tokens (`lexer/token.go`) -/

/-- Modelled from the spec: the declaration of `TokenType` and of its constants is in a file
of package `lexer` that is not among the sources. The constants are the names the sources
use (`lexer.LEFT_PAREN`, ..., `lexer.EOF`), taken to be pairwise distinct. -/
inductive TokenType
  | LEFT_PAREN | RIGHT_PAREN | LEFT_BRACE | RIGHT_BRACE
  | COMMA | DOT | MINUS | PLUS | SEMICOLON | SLASH | STAR
  | BANG | BANG_EQUAL | EQUAL | EQUAL_EQUAL
  | GREATER | GREATER_EQUAL | LESS | LESS_EQUAL
  | IDENTIFIER | STRING | NUMBER
  | AND | CLASS | ELSE | FALSE | FUN | FOR | IF | NIL | OR
  | PRINT | RETURN | SUPER | THIS | TRUE | VAR | WHILE
  | EOF
  deriving DecidableEq, Repr

/-- The values of Go type `any` that the program builds: the nil interface, a `bool`,
a `float64` and a `string`. -/
inductive Value (F : Type)
  | nil
  | bool (b : Bool)
  | number (x : F)
  | str (s : String)
  deriving DecidableEq, Repr

/-- The struct `lexer.Token`. -/
structure Token (F : Type) where
  TokenType : TokenType
  Lexeme : String
  Literal : Value F
  Line : Nat
  deriving DecidableEq, Repr

/-- `lexer.NewToken` (the caller dereferences the pointer at once). -/
def NewToken {F : Type} (tokenType : TokenType) (lexeme : String) (literal : Value F)
    (line : Nat) : Token F :=
  ⟨tokenType, lexeme, literal, line⟩

/-! ## float64 -/

/-- The `float64` operations the program uses. `ParseFloat s` is
`strconv.ParseFloat(s, 64)`, with `none` for a non-nil error; `format` is the verb `%v`
of package `fmt` on a `float64`; the others are the operators of Go on `float64`. -/
structure GoFloat (F : Type) where
  ParseFloat : String → Option F
  format : F → String
  neg : F → F
  add : F → F → F
  sub : F → F → F
  mul : F → F → F
  quo : F → F → F
  gt : F → F → Bool
  ge : F → F → Bool
  lt : F → F → Bool
  le : F → F → Bool
  eq : F → F → Bool

/-! ## Panics, outcomes and the standard output -/

/-- The struct `parser.ParseError`. -/
structure ParseError (F : Type) where
  Token : Token F
  Message : String
  deriving DecidableEq, Repr

/-- The value a Go `panic` carries, by dynamic type. -/
inductive PanicValue (F : Type)
  /-- A `*ParseError`: what `NewParseError` and `NewRuntimeError` return. -/
  | ptrParseError (e : ParseError F)
  /-- A `ParseError` held by value: what the assertion `err.(ParseError)` accepts. -/
  | valParseError (e : ParseError F)
  /-- The runtime error of an index expression out of range. -/
  | indexOutOfRange
  /-- The runtime error of a slice expression out of range. -/
  | sliceOutOfRange
  /-- The runtime error of a failed type assertion `x.(T)`. -/
  | interfaceConversion
  /-- The runtime error of a method call on a nil interface. -/
  | nilDereference
  deriving DecidableEq, Repr

/-- One write to the standard output, by the call that makes it. -/
inductive Event (F : Type)
  /-- The call `fmt.Print(s)`. -/
  | print (s : String)
  /-- The call `errors.Report(line, where, message)`. -/
  | report (line : Nat) (where_ : String) (message : String)
  /-- The call `fmt.Printf("%+v", tok)` of `Parser.primary`: its text depends on the
  declaration of `TokenType`. -/
  | tokenDump (tok : Token F)
  deriving DecidableEq, Repr

/-- How a call ends: it returns `a` in state `s`, it panics with `v` in state `s`, or the
model ran out of fuel. -/
inductive Outcome (F σ α : Type)
  | ok (a : α) (s : σ)
  | panic (v : PanicValue F) (s : σ)
  | outOfFuel
  deriving DecidableEq

/-- A method with a receiver of type `σ` and a result of type `α`. -/
def Exec (F σ α : Type) : Type := σ → Outcome F σ α

section Exec

variable {F σ α β : Type}

/-- Return `a`. -/
def Exec.pure (a : α) : Exec F σ α := fun s => .ok a s

/-- Sequencing: a panic of `x` ends the whole call. -/
def Exec.bind (x : Exec F σ α) (f : α → Exec F σ β) : Exec F σ β := fun s =>
  match x s with
  | .ok a s' => f a s'
  | .panic v s' => .panic v s'
  | .outOfFuel => .outOfFuel

instance : Monad (Exec F σ) where
  pure := Exec.pure
  bind := Exec.bind

/-- The receiver. -/
def Exec.get : Exec F σ σ := fun s => .ok s s

/-- An update of the receiver. -/
def Exec.modify (f : σ → σ) : Exec F σ Unit := fun s => .ok () (f s)

/-- The statement `panic(v)`. -/
def Exec.panic (v : PanicValue F) : Exec F σ α := fun s => .panic v s

/-- The loop `for cond { body }`, with fuel for the number of iterations. -/
def forLoop (cond : σ → Bool) (body : Exec F σ Unit) : Nat → Exec F σ Unit
  | 0 => fun s => if cond s then .outOfFuel else .ok () s
  | n + 1 => fun s =>
    if cond s then
      match body s with
      | .ok _ s' => forLoop cond body n s'
      | .panic v s' => .panic v s'
      | .outOfFuel => .outOfFuel
    else .ok () s

end Exec

/-! ## Error reporting (`errors/errors.go`) -/

/-- `errors.LoxErrorFmt`: `fmt.Sprintf("[line %d] Error%s: %s\n", line, where, message)`. -/
def LoxErrorFmt (line : Nat) (where_ : String) (message : String) : String :=
  "[line " ++ toString line ++ "] Error" ++ where_ ++ ": " ++ message ++ "\n"

/-- `errors.Report`: its write to the standard output. -/
def Report {F : Type} (line : Nat) (where_ : String) (message : String) : List (Event F) :=
  [.report line where_ message]

/-- The text of a write, where the sources determine it: `errors.Report` prints
`LoxErrorFmt(line, where, message)`. -/
def Event.written {F : Type} : Event F → Option String
  | .print s => some s
  | .report line where_ message => some (LoxErrorFmt line where_ message)
  | .tokenDump _ => none

/-- `errors.Error`: its write to the standard output. -/
def Error {F : Type} (line : Nat) (message : String) : List (Event F) :=
  Report line "" message

/-! ## Scanner (`lexer/scanner.go`) -/

/-- The entries of the map `keywords`. -/
def keywordTable : List (String × TokenType) :=
  [("and", .AND), ("class", .CLASS), ("else", .ELSE), ("false", .FALSE), ("for", .FOR),
    ("fun", .FUN), ("if", .IF), ("nil", .NIL), ("or", .OR), ("print", .PRINT),
    ("return", .RETURN), ("super", .SUPER), ("this", .THIS), ("true", .TRUE), ("var", .VAR),
    ("while", .WHILE)]

/-- The lookup `keywords[text]`: `none` when the key is absent. -/
def keywords (text : String) : Option TokenType :=
  keywordTable.lookup text

/-- The struct `lexer.Scanner`, and the standard output of the process. -/
structure Scanner (F : Type) where
  source : List Char
  tokens : List (Token F)
  start : Nat
  current : Nat
  line : Nat
  stdout : List (Event F)
  deriving DecidableEq

/-- `lexer.NewScanner`. -/
def NewScanner {F : Type} (source : List Char) : Scanner F :=
  ⟨source, [], 0, 0, 1, []⟩

/-- `isDigit`. -/
def isDigit (char : Char) : Bool :=
  decide ('0' ≤ char) && decide (char ≤ '9')

/-- `isAlpha`. -/
def isAlpha (char : Char) : Bool :=
  let isLowercaseAlpha := decide ('a' ≤ char) && decide (char ≤ 'z')
  let isUppercaseAlpha := decide ('A' ≤ char) && decide (char ≤ 'Z')
  let isUnderscore := decide (char = '_')
  isLowercaseAlpha || isUppercaseAlpha || isUnderscore

/-- `isAlphaNumeric`. -/
def isAlphaNumeric (char : Char) : Bool :=
  isAlpha char || isDigit char

namespace Scanner

variable {F : Type}

/-- `Scanner.isAtEnd`. -/
def isAtEnd (s : Scanner F) : Bool :=
  decide (s.current ≥ s.source.length)

/-- `Scanner.advance`: the index expression `s.source[s.current]` panics out of range. -/
def advance : Exec F (Scanner F) Char := fun s =>
  match s.source[s.current]? with
  | some char => .ok char { s with current := s.current + 1 }
  | none => .panic .indexOutOfRange s

/-- The statement `s.advance()`, its result dropped. -/
def skip : Exec F (Scanner F) Unit := do
  let _ ← advance

/-- `Scanner.peek`. -/
def peek (s : Scanner F) : Char :=
  if s.isAtEnd then Char.ofNat 0 else s.source.getD s.current (Char.ofNat 0)

/-- `Scanner.peekNext`. -/
def peekNext (s : Scanner F) : Char :=
  if s.current + 1 ≥ s.source.length then Char.ofNat 0
  else s.source.getD (s.current + 1) (Char.ofNat 0)

/-- The slice expression `s.source[lo:hi]`, which panics unless `lo ≤ hi ≤ len`. -/
def slice (lo hi : Nat) : Exec F (Scanner F) String := fun s =>
  if lo ≤ hi ∧ hi ≤ s.source.length then
    .ok (String.mk ((s.source.drop lo).take (hi - lo))) s
  else .panic .sliceOutOfRange s

/-- `Scanner.addTokenWithLiteral`. -/
def addTokenWithLiteral (t : TokenType) (literal : Value F) : Exec F (Scanner F) Unit := do
  let s ← Exec.get
  let text ← slice s.start s.current
  Exec.modify fun s => { s with tokens := s.tokens ++ [NewToken t text literal s.line] }

/-- `Scanner.addToken`. -/
def addToken (t : TokenType) : Exec F (Scanner F) Unit :=
  addTokenWithLiteral t .nil

/-- `Scanner.addTokenOnCondition`. -/
def addTokenOnCondition (condition : Bool) (ifTrue ifFalse : TokenType) :
    Exec F (Scanner F) Unit :=
  if condition then addToken ifTrue else addToken ifFalse

/-- `Scanner.match`. -/
def match_ (expected : Char) : Exec F (Scanner F) Bool := fun s =>
  if s.isAtEnd || s.source.getD s.current (Char.ofNat 0) != expected then .ok false s
  else .ok true { s with current := s.current + 1 }

/-- The body of the loop of `Scanner.string`. -/
def stringStep : Exec F (Scanner F) Unit := do
  -- Lox supports multiline strings
  if (← Exec.get).peek = Char.ofNat 10 then
    Exec.modify fun s => { s with line := s.line + 1 }
  skip

/-- `Scanner.string`; the result is the error, `none` for nil. -/
def string : Exec F (Scanner F) (Option String) := do
  let s ← Exec.get
  forLoop (fun s => s.peek != Char.ofNat 34 && !s.isAtEnd) stringStep s.source.length
  if (← Exec.get).isAtEnd then
    return some "unterminated string"
  else
    -- Account for closing quote
    skip
    -- Trim quotes
    let s ← Exec.get
    if s.current = 0 then Exec.panic .sliceOutOfRange
    else
      let text ← slice (s.start + 1) (s.current - 1)
      addTokenWithLiteral .STRING (.str text)
      return none

/-- `Scanner.number`. -/
def number (G : GoFloat F) : Exec F (Scanner F) (Option String) := do
  let s ← Exec.get
  forLoop (fun s => isDigit s.peek) skip s.source.length
  -- Look for a decimal
  let s ← Exec.get
  if s.peek = '.' && isDigit s.peekNext then
    -- discard decimal
    forLoop (fun s => isDigit s.peek) skip s.source.length
  let s ← Exec.get
  let text ← slice s.start s.current
  match G.ParseFloat text with
  | none => return some "unable to parse number"
  | some num =>
    addTokenWithLiteral .NUMBER (.number num)
    return none

/-- `Scanner.identifier`. -/
def identifier : Exec F (Scanner F) (Option String) := do
  let s ← Exec.get
  forLoop (fun s => isAlphaNumeric s.peek) skip s.source.length
  let s ← Exec.get
  let text ← slice s.start s.current
  match keywords text with
  | some tokenType => addToken tokenType
  | none => addToken .IDENTIFIER
  return none

/-- `Scanner.scanToken`; the result is the error, `none` for nil. The cases of the `switch`
are distinct constants, so the chain of tests below takes the same branch. -/
def scanToken (G : GoFloat F) : Exec F (Scanner F) (Option String) := do
  let char ← advance
  if char = '(' then addToken .LEFT_PAREN; return none
  else if char = ')' then addToken .RIGHT_PAREN; return none
  else if char = Char.ofNat 123 then addToken .LEFT_BRACE; return none
  else if char = Char.ofNat 125 then addToken .RIGHT_BRACE; return none
  else if char = ',' then addToken .COMMA; return none
  else if char = '.' then addToken .DOT; return none
  else if char = '-' then addToken .MINUS; return none
  else if char = '+' then addToken .PLUS; return none
  else if char = ';' then addToken .SEMICOLON; return none
  else if char = '*' then addToken .STAR; return none
  else if char = '!' then
    addTokenOnCondition (← match_ '=') .BANG_EQUAL .BANG; return none
  else if char = '=' then
    addTokenOnCondition (← match_ '=') .EQUAL_EQUAL .EQUAL; return none
  else if char = '<' then
    addTokenOnCondition (← match_ '=') .LESS_EQUAL .LESS; return none
  else if char = '>' then
    addTokenOnCondition (← match_ '=') .GREATER_EQUAL .GREATER; return none
  else if char = '/' then
    if (← match_ '/') then
      -- A comment goes until the end of the line.
      let s ← Exec.get
      forLoop (fun s => s.peek != Char.ofNat 10 && !s.isAtEnd) skip s.source.length
      return none
    else
      addToken .SLASH; return none
  else if char = Char.ofNat 10 then
    Exec.modify fun s => { s with line := s.line + 1 }
    return none
  -- Do nothing for whitespace
  else if char = ' ' then return none
  else if char = Char.ofNat 13 then return none
  else if char = Char.ofNat 9 then return none
  else if char = Char.ofNat 34 then
    match (← string) with
    | some err => return some err
    | none => return none
  else if isDigit char then
    match (← number G) with
    | some err => return some err
    | none => return none
  else if isAlpha char then
    match (← identifier) with
    | some err => return some err
    | none => return none
  else
    return some ("unexpected character " ++ String.singleton char)

/-- The loop of `Scanner.ScanTokens`, carrying the local variable `hadErrors`. -/
def scanLoop (G : GoFloat F) : Nat → Bool → Exec F (Scanner F) Bool
  | 0, hadErrors => fun s => if !s.isAtEnd then .outOfFuel else .ok hadErrors s
  | n + 1, hadErrors => fun s =>
    if !s.isAtEnd then
      -- We are at the beginning of the next lexeme.
      match scanToken G { s with start := s.current } with
      | .ok (some err) s' =>
        scanLoop G n true { s' with stdout := s'.stdout ++ Error s'.line err }
      | .ok none s' => scanLoop G n hadErrors s'
      | .panic v s' => .panic v s'
      | .outOfFuel => .outOfFuel
    else .ok hadErrors s

/-- `Scanner.ScanTokens`: the result is the pair `(tokens, hadErrors)` of its `return`. -/
def ScanTokens (G : GoFloat F) : Exec F (Scanner F) (List (Token F) × Bool) := do
  let s ← Exec.get
  let _hadErrors ← scanLoop G s.source.length false
  Exec.modify fun s => { s with tokens := s.tokens ++ [NewToken .EOF "" .nil s.line] }
  let s ← Exec.get
  return (s.tokens, false)

end Scanner

/-! ## Syntax trees (`parser/expr.go`, `parser/stmt.go`) -/

/-- The dynamic types of interface `Expr`. The constructors `New...Expr` return pointers, and
every constructor below but one stands for the pointer type. The dynamic type is observed
at one place only, the assertion `expr.(VariableExpr)` of `Parser.assignment`, so
`VariableExpr` alone also has a constructor for the struct held by value. -/
inductive Expr (F : Type)
  /-- A `*UnaryExpr`. -/
  | Unary (operator : Token F) (right : Expr F)
  /-- A `*BinaryExpr`. -/
  | Binary (left : Expr F) (operator : Token F) (right : Expr F)
  /-- A `*GroupingExpr`. -/
  | Grouping (expression : Expr F)
  /-- A `*LiteralExpr`. -/
  | Literal (value : Value F)
  /-- A `*VariableExpr`, as `NewVariableExpr` returns it. -/
  | Variable (name : Token F)
  /-- A `VariableExpr` held by value. -/
  | VariableVal (name : Token F)
  /-- A `*AssignExpr`. -/
  | Assign (name : Token F) (value : Expr F)
  deriving DecidableEq, Repr

mutual

/-- The dynamic types of interface `Stmt`; a nil `Stmt` is `none` of `Option (Stmt F)`,
and a nil `Initializer` is `none`. -/
inductive Stmt (F : Type)
  /-- A `*BlockStmt`. -/
  | Block (statements : StmtList F)
  /-- A `*ExpressionStmt`. -/
  | Expression (expression : Expr F)
  /-- A `*PrintStmt`. -/
  | Print (expression : Expr F)
  /-- A `*VarStmt`. -/
  | Var (name : Token F) (initializer : Option (Expr F))

/-- The slice `[]Stmt` held by a `BlockStmt`; `consNil` is a nil element. -/
inductive StmtList (F : Type)
  | nil
  | cons (head : Stmt F) (tail : StmtList F)
  | consNil (tail : StmtList F)

end

deriving instance DecidableEq for Stmt, StmtList

/-! ## Parse and runtime errors (`parser/error.go`) -/

/-- `parser.NewParseError`; the result is a `*ParseError`. -/
def NewParseError {F : Type} (token : Token F) (message : String) : ParseError F :=
  { Token := token, Message := message }

/-- `parser.NewRuntimeError`; the result is a `*ParseError` too. -/
def NewRuntimeError {F : Type} (token : Token F) (message : String) : ParseError F :=
  { Token := token, Message := message }

/-- `ParseError.Report`: its write to the standard output. -/
def ParseError.Report {F : Type} (p : ParseError F) : List (Event F) :=
  if p.Token.TokenType = .EOF then
    Golox.Report p.Token.Line " at end" p.Message
  else
    Golox.Report p.Token.Line ("at '" ++ p.Token.Lexeme ++ "'") p.Message

/-! ## Parser (`parser/parser.go`) -/

/-- The struct `parser.Parser`, and the standard output of the process. -/
structure Parser (F : Type) where
  tokens : List (Token F)
  current : Nat
  stdout : List (Event F)
  deriving DecidableEq

/-- `parser.NewParser`. -/
def NewParser {F : Type} (tokens : List (Token F)) : Parser F :=
  ⟨tokens, 0, []⟩

namespace Parser

variable {F : Type}

/-- `Parser.peek`: the index expression panics out of range. -/
def peek : Exec F (Parser F) (Token F) := fun p =>
  match p.tokens[p.current]? with
  | some tok => .ok tok p
  | none => .panic .indexOutOfRange p

/-- `Parser.previous`: the index `p.current-1` is out of range when `p.current` is 0. -/
def previous : Exec F (Parser F) (Token F) := fun p =>
  if p.current = 0 then .panic .indexOutOfRange p
  else
    match p.tokens[p.current - 1]? with
    | some tok => .ok tok p
    | none => .panic .indexOutOfRange p

/-- `Parser.isAtEnd`. -/
def isAtEnd : Exec F (Parser F) Bool := do
  return decide ((← peek).TokenType = .EOF)

/-- `Parser.advance`. -/
def advance : Exec F (Parser F) (Token F) := do
  if !(← isAtEnd) then
    Exec.modify fun p => { p with current := p.current + 1 }
  previous

/-- `Parser.check`. -/
def check (tokenType : TokenType) : Exec F (Parser F) Bool := do
  if (← isAtEnd) then
    return false
  else
    return decide ((← peek).TokenType = tokenType)

/-- `Parser.match`, by recursion on its variadic argument. -/
def match_ : List TokenType → Exec F (Parser F) Bool
  | [] => pure false
  | tokenType :: tokenTypes => do
    if (← check tokenType) then
      let _ ← advance
      return true
    else
      match_ tokenTypes

/-- `Parser.consume`; the panic value is the `*ParseError` of `NewParseError`. -/
def consume (tokenType : TokenType) (message : String) : Exec F (Parser F) (Token F) := do
  if (← check tokenType) then
    advance
  else
    let err := NewParseError (← peek) message
    Exec.panic (.ptrParseError err)

/-- The loop of `Parser.synchronize`. In the `switch` only `case lexer.RETURN` has a body:
a Go `case` does not fall through, so on the other seven keywords control leaves the
`switch` and reaches `p.advance()`. -/
def synchronizeLoop : Nat → Exec F (Parser F) Unit
  | 0 => fun _ => .outOfFuel
  | n + 1 => do
    if !(← isAtEnd) then
      if (← previous).TokenType = .SEMICOLON then
        return ()
      else
        match (← peek).TokenType with
        | .CLASS | .FUN | .VAR | .FOR | .IF | .WHILE | .PRINT =>
          let _ ← advance
          synchronizeLoop n
        | .RETURN => return ()
        | _ =>
          let _ ← advance
          synchronizeLoop n
    else
      return ()

/-- `Parser.synchronize`. -/
def synchronize (fuel : Nat) : Exec F (Parser F) Unit := do
  let _ ← advance
  synchronizeLoop fuel

mutual

/-- `Parser.expression`. -/
def expression : Nat → Exec F (Parser F) (Expr F)
  | 0 => fun _ => .outOfFuel
  | n + 1 => assignment n

/-- `Parser.assignment`. -/
def assignment : Nat → Exec F (Parser F) (Expr F)
  | 0 => fun _ => .outOfFuel
  | n + 1 => do
    let expr ← equality n
    if (← match_ [.EQUAL]) then
      let equals ← previous
      let value ← assignment n
      match expr with
      | .VariableVal name => return .Assign name value
      | _ =>
        -- Don't need to panic here
        let err := NewParseError equals "Invalid assignment target."
        Exec.modify fun p => { p with stdout := p.stdout ++ err.Report }
        return expr
    else
      return expr

/-- `Parser.equality`. -/
def equality : Nat → Exec F (Parser F) (Expr F)
  | 0 => fun _ => .outOfFuel
  | n + 1 => do
    let expr ← comparison n
    equalityLoop n expr

/-- The loop of `Parser.equality`. -/
def equalityLoop : Nat → Expr F → Exec F (Parser F) (Expr F)
  | 0, _ => fun _ => .outOfFuel
  | n + 1, expr => do
    if (← match_ [.BANG_EQUAL, .EQUAL_EQUAL]) then
      let operator ← previous
      let right ← comparison n
      equalityLoop n (.Binary expr operator right)
    else
      return expr

/-- `Parser.comparison`. -/
def comparison : Nat → Exec F (Parser F) (Expr F)
  | 0 => fun _ => .outOfFuel
  | n + 1 => do
    let expr ← term n
    comparisonLoop n expr

/-- The loop of `Parser.comparison`. -/
def comparisonLoop : Nat → Expr F → Exec F (Parser F) (Expr F)
  | 0, _ => fun _ => .outOfFuel
  | n + 1, expr => do
    if (← match_ [.GREATER, .GREATER_EQUAL, .LESS_EQUAL]) then
      let operator ← previous
      let right ← term n
      comparisonLoop n (.Binary expr operator right)
    else
      return expr

/-- `Parser.term`. -/
def term : Nat → Exec F (Parser F) (Expr F)
  | 0 => fun _ => .outOfFuel
  | n + 1 => do
    let expr ← factor n
    termLoop n expr

/-- The loop of `Parser.term`. -/
def termLoop : Nat → Expr F → Exec F (Parser F) (Expr F)
  | 0, _ => fun _ => .outOfFuel
  | n + 1, expr => do
    if (← match_ [.MINUS, .PLUS]) then
      let operator ← previous
      let right ← factor n
      termLoop n (.Binary expr operator right)
    else
      return expr

/-- `Parser.factor`. -/
def factor : Nat → Exec F (Parser F) (Expr F)
  | 0 => fun _ => .outOfFuel
  | n + 1 => do
    let expr ← unary n
    factorLoop n expr

/-- The loop of `Parser.factor`. -/
def factorLoop : Nat → Expr F → Exec F (Parser F) (Expr F)
  | 0, _ => fun _ => .outOfFuel
  | n + 1, expr => do
    if (← match_ [.SLASH, .STAR]) then
      let operator ← previous
      let right ← unary n
      factorLoop n (.Binary expr operator right)
    else
      return expr

/-- `Parser.unary`. -/
def unary : Nat → Exec F (Parser F) (Expr F)
  | 0 => fun _ => .outOfFuel
  | n + 1 => do
    if (← match_ [.BANG, .MINUS]) then
      let operator ← previous
      let right ← unary n
      return .Unary operator right
    else
      primary n

/-- `Parser.primary`. The pointer `err` is never nil, so the token is always printed before
the panic. -/
def primary : Nat → Exec F (Parser F) (Expr F)
  | 0 => fun _ => .outOfFuel
  | n + 1 => do
    if (← match_ [.FALSE]) then
      return .Literal (.bool false)
    else if (← match_ [.TRUE]) then
      return .Literal (.bool true)
    else if (← match_ [.NIL]) then
      return .Literal .nil
    else if (← match_ [.NUMBER, .STRING]) then
      return .Literal (← previous).Literal
    else if (← match_ [.IDENTIFIER]) then
      return .Variable (← previous)
    else if (← match_ [.LEFT_PAREN]) then
      let expr ← expression n
      let _ ← consume .RIGHT_PAREN "Expect ')' after expression."
      return .Grouping expr
    else
      let err := NewParseError (← peek) "Expect expression."
      let tok ← peek
      Exec.modify fun p => { p with stdout := p.stdout ++ [.tokenDump tok] }
      Exec.panic (.ptrParseError err)

end

/-- `Parser.expressionStatement`. -/
def expressionStatement (fuel : Nat) : Exec F (Parser F) (Stmt F) := do
  let expr ← expression fuel
  let _ ← consume .SEMICOLON "Expect ';' after expression."
  return .Expression expr

/-- `Parser.printStatement`. -/
def printStatement (fuel : Nat) : Exec F (Parser F) (Stmt F) := do
  let value ← expression fuel
  let _ ← consume .SEMICOLON "Expect ';' after value."
  return .Print value

/-- `Parser.varDeclaration`. -/
def varDeclaration (fuel : Nat) : Exec F (Parser F) (Stmt F) := do
  let name ← consume .IDENTIFIER "Expect variable name."
  let initializer ← (do
    if (← match_ [.EQUAL]) then
      return some (← expression fuel)
    else
      return none)
  let _ ← consume .SEMICOLON "Expect ';' after variable declaration."
  return .Var name initializer

/-- `Parser.statement`. -/
def statement (fuel : Nat) : Exec F (Parser F) (Stmt F) := do
  if (← match_ [.PRINT]) then
    printStatement fuel
  else
    expressionStatement fuel

/-- `Parser.declaration`. The deferred function recovers a panic and asserts
`err.(ParseError)`, the struct held by value: on success it reports, synchronizes and
returns, so that `declaration` returns the zero value of its unnamed result, the nil
`Stmt`; on any other dynamic type it panics again with the same value. -/
def declaration (fuel : Nat) : Exec F (Parser F) (Option (Stmt F)) := fun p =>
  match (do
      if (← match_ [.VAR]) then
        varDeclaration fuel
      else
        statement fuel : Exec F (Parser F) (Stmt F)) p with
  | .ok stmt p' => .ok (some stmt) p'
  | .panic (.valParseError parseErr) p' =>
    (do
      Exec.modify fun p => { p with stdout := p.stdout ++ parseErr.Report }
      synchronize fuel
      return none : Exec F (Parser F) (Option (Stmt F))) p'
  | .panic err p' => .panic err p'
  | .outOfFuel => .outOfFuel

/-- The loop of `Parser.Parse`. -/
def parseLoop : Nat → List (Option (Stmt F)) → Exec F (Parser F) (List (Option (Stmt F)))
  | 0, _ => fun _ => .outOfFuel
  | n + 1, statements => do
    if !(← isAtEnd) then
      let stmt ← declaration n
      parseLoop n (statements ++ [stmt])
    else
      return statements

/-- `Parser.Parse`: the result is the pair `(statements, hadErrors)` of its `return`. The
fuel is linear in the number of tokens. -/
def Parse : Exec F (Parser F) (List (Option (Stmt F)) × Bool) := do
  let p ← Exec.get
  let statements ← parseLoop (10 * p.tokens.length + 20) []
  return (statements, false)

end Parser

/-! ## Environment (`parser/environment.go`) -/

/-- The struct `parser.Environment`: the Go map `values`, as the partial function it is. -/
structure Environment (F : Type) where
  values : String → Option (Value F)

/-- `parser.NewEnvironment`. -/
def NewEnvironment {F : Type} : Environment F :=
  ⟨fun _ => none⟩

namespace Environment

variable {F : Type}

/-- `Environment.Define`. -/
def Define (e : Environment F) (name : String) (value : Value F) : Environment F :=
  ⟨fun key => if key = name then some value else e.values key⟩

/-- `Environment.Get`: the pair `(any, error)`; the error is a `*ParseError`. -/
def Get (e : Environment F) (name : Token F) : Value F × Option (ParseError F) :=
  match e.values name.Lexeme with
  | some val => (val, none)
  | none => (.nil, some (NewRuntimeError name ("undefined variable '" ++ name.Lexeme ++ "'.")))

/-- `Environment.Assign`: the environment afterwards, and the error. -/
def Assign (e : Environment F) (name : Token F) (value : Value F) :
    Environment F × Option (ParseError F) :=
  match e.values name.Lexeme with
  | some _ => (e.Define name.Lexeme value, none)
  | none => (e, some (NewRuntimeError name ("undefined variable '" ++ name.Lexeme ++ "'.")))

end Environment

/-! ## Interpreter (`parser/interpreter.go`) -/

/-- The struct `parser.Interpreter`, and the standard output of the process. -/
structure Interpreter (F : Type) where
  environment : Environment F
  stdout : List (Event F)

/-- `parser.NewInterpreter`. -/
def NewInterpreter {F : Type} : Interpreter F :=
  ⟨NewEnvironment, []⟩

/-- `isTruthy`. -/
def isTruthy {F : Type} (val : Value F) : Bool :=
  match val with
  | .nil => false
  | .bool v => v
  | _ => true

/-- The comparison `left == right` of two values of type `any`: the dynamic types must be
the same and the values equal. -/
def interfaceEq {F : Type} (G : GoFloat F) (left right : Value F) : Bool :=
  match left, right with
  | .nil, .nil => true
  | .bool a, .bool b => a == b
  | .number a, .number b => G.eq a b
  | .str a, .str b => a == b
  | _, _ => false

/-- The test `val == nil` on a value of type `any`. -/
def Value.isNil {F : Type} (val : Value F) : Bool :=
  match val with
  | .nil => true
  | _ => false

/-- `isEqual`. -/
def isEqual {F : Type} (G : GoFloat F) (left right : Value F) : Bool :=
  if left.isNil && right.isNil then true
  else if left.isNil then false
  else interfaceEq G left right

/-- `stringify`: `"nil"` for nil, else `fmt.Sprintf("%v", val)`. -/
def stringify {F : Type} (G : GoFloat F) (val : Value F) : String :=
  match val with
  | .nil => "nil"
  | .bool b => if b then "true" else "false"
  | .number x => G.format x
  | .str s => s

/-- The type assertion `val.(float64)`, which panics on any other dynamic type. -/
def assertFloat64 {F σ : Type} (val : Value F) : Exec F σ F :=
  match val with
  | .number x => pure x
  | _ => Exec.panic .interfaceConversion

/-- `checkNumberOperands`; the panic value is the `*ParseError` of `NewRuntimeError`. -/
def checkNumberOperands {F σ : Type} (operator : Token F) (left right : Value F) :
    Exec F σ Unit :=
  match left, right with
  | .number _, .number _ => pure ()
  | _, _ => Exec.panic (.ptrParseError (NewRuntimeError operator "operands must be numbers."))

namespace Interpreter

variable {F : Type}

/-- `Interpreter.VisitBinaryExpr`, after the two operands are evaluated. -/
def binaryOp (G : GoFloat F) (operator : Token F) (left right : Value F) :
    Exec F (Interpreter F) (Value F) :=
  match operator.TokenType with
  | .MINUS => do
    checkNumberOperands operator left right
    return .number (G.sub (← assertFloat64 left) (← assertFloat64 right))
  | .SLASH => do
    checkNumberOperands operator left right
    return .number (G.quo (← assertFloat64 left) (← assertFloat64 right))
  | .STAR => do
    checkNumberOperands operator left right
    return .number (G.mul (← assertFloat64 left) (← assertFloat64 right))
  | .PLUS =>
    match left, right with
    | .number l, .number r => return .number (G.add l r)
    | .str l, .str r => return .str (l ++ r)
    | _, _ => Exec.panic (.ptrParseError (NewRuntimeError operator "operands must be numbers."))
  | .GREATER => do
    checkNumberOperands operator left right
    return .bool (G.gt (← assertFloat64 left) (← assertFloat64 right))
  | .GREATER_EQUAL => do
    checkNumberOperands operator left right
    return .bool (G.ge (← assertFloat64 left) (← assertFloat64 right))
  | .LESS => do
    checkNumberOperands operator left right
    return .bool (G.lt (← assertFloat64 left) (← assertFloat64 right))
  | .LESS_EQUAL => do
    checkNumberOperands operator left right
    return .bool (G.le (← assertFloat64 left) (← assertFloat64 right))
  | .BANG_EQUAL => return .bool (!isEqual G left right)
  | .EQUAL_EQUAL => return .bool (isEqual G left right)
  | _ => return .nil

/-- `Interpreter.VisitUnaryExpr`, after the operand is evaluated. -/
def unaryOp (G : GoFloat F) (operator : Token F) (right : Value F) :
    Exec F (Interpreter F) (Value F) :=
  match operator.TokenType with
  | .BANG => return .bool (!isTruthy right)
  | .MINUS => do return .number (G.neg (← assertFloat64 right))
  | _ => return .nil

/-- `Interpreter.VisitVariableExpr`: the panic value is the `error` of `Get`, a
`*ParseError`. -/
def visitVariable (name : Token F) : Exec F (Interpreter F) (Value F) := fun i =>
  match i.environment.Get name with
  | (_, some err) => .panic (.ptrParseError err) i
  | (val, none) => .ok val i

/-- `Interpreter.evaluate`, with the `Visit...Expr` method that `Accept` dispatches to
in each case. In `VisitAssignExpr` the error that `Assign` returns is dropped. -/
def evaluate (G : GoFloat F) : Expr F → Exec F (Interpreter F) (Value F)
  | .Literal value => return value
  | .Grouping expression => evaluate G expression
  | .Unary operator right => do
    let right ← evaluate G right
    unaryOp G operator right
  | .Binary left operator right => do
    let left ← evaluate G left
    let right ← evaluate G right
    binaryOp G operator left right
  | .Variable name => visitVariable name
  | .VariableVal name => visitVariable name
  | .Assign name value => do
    let value ← evaluate G value
    Exec.modify fun i => { i with environment := (i.environment.Assign name value).1 }
    return value

/-- `Interpreter.execute`, with the `Visit...Stmt` method that `Accept` dispatches to in
each case; the call of `Accept` on a nil `Stmt` is a runtime error. -/
def execute (G : GoFloat F) : Option (Stmt F) → Exec F (Interpreter F) Unit
  | none => Exec.panic .nilDereference
  | some (.Expression expression) => do
    let _ ← evaluate G expression
  | some (.Print expression) => do
    let value ← evaluate G expression
    Exec.modify fun i => { i with stdout := i.stdout ++ [.print (stringify G value)] }
  | some (.Block _) => return ()
  | some (.Var name initializer) => do
    let val ← (match initializer with
      | some init => evaluate G init
      | none => pure .nil)
    Exec.modify fun i => { i with environment := i.environment.Define name.Lexeme val }

/-- The loop `for _, stmt := range statements` of `Interpreter.Interpret`. -/
def executeAll (G : GoFloat F) : List (Option (Stmt F)) → Exec F (Interpreter F) Unit
  | [] => return ()
  | stmt :: statements => do
    execute G stmt
    executeAll G statements

/-- `Interpreter.Interpret`: the result is `hadErrors`. The deferred function recovers a
panic and asserts `err.(ParseError)`, the struct held by value: on success it reports and
sets the result to true; on any other dynamic type it panics again with the same value. -/
def Interpret (G : GoFloat F) (statements : List (Option (Stmt F))) :
    Exec F (Interpreter F) Bool := fun i =>
  match executeAll G statements i with
  | .ok _ i' => .ok false i'
  | .panic (.valParseError pe) i' => .ok true { i' with stdout := i'.stdout ++ pe.Report }
  | .panic err i' => .panic err i'
  | .outOfFuel => .outOfFuel

end Interpreter

/-! ## A concrete float64 -/

/-- The value of a string of decimal digits. -/
def digitsValue (digits : List Char) : Nat :=
  digits.foldl (fun acc c => 10 * acc + (c.toNat - 48)) 0

/-- An instance of `GoFloat` on the rationals, to run the definitions on concrete programs.
It reads strings of decimal digits, the only lexemes `Scanner.number` passes to
`ParseFloat`, and agrees with `float64` as long as the numbers involved are integers below
`2 ^ 53` in magnitude and no division is inexact. -/
def ratFloat : GoFloat ℚ where
  ParseFloat s := if s.data ≠ [] ∧ s.data.all isDigit then some (digitsValue s.data : ℚ) else none
  format x := if x.den = 1 then toString x.num else toString x
  neg x := -x
  add x y := x + y
  sub x y := x - y
  mul x y := x * y
  quo x y := x / y
  gt x y := decide (x > y)
  ge x y := decide (x ≥ y)
  lt x y := decide (x < y)
  le x y := decide (x ≤ y)
  eq x y := decide (x = y)

/-! ## The pipeline (`main.go`) -/

/-- The function `run` of `main.go`: scan, parse, interpret with a fresh interpreter. The
state is the standard output, handed from one phase to the next; the result is the
error, `none` for nil. -/
def run {F : Type} (G : GoFloat F) (source : List Char) :
    Outcome F (List (Event F)) (Option String) :=
  match Scanner.ScanTokens G (NewScanner source) with
  | .outOfFuel => .outOfFuel
  | .panic v s => .panic v s.stdout
  | .ok (tokens, hadErrors) s =>
    if hadErrors then .ok (some "encountered errors while scanning") s.stdout
    else
      match Parser.Parse { NewParser tokens with stdout := s.stdout } with
      | .outOfFuel => .outOfFuel
      | .panic v p => .panic v p.stdout
      | .ok (statements, hadErrors) p =>
        if hadErrors then .ok (some "encountered errors while parsing") p.stdout
        else
          match Interpreter.Interpret G statements
              { NewInterpreter with stdout := p.stdout } with
          | .outOfFuel => .outOfFuel
          | .panic v i => .panic v i.stdout
          | .ok hadErrors i =>
            if hadErrors then .ok (some "encountered runtime errors") i.stdout
            else .ok none i.stdout

/-! ## Programs used as examples -/

/-- A token on line 1 that has no literal. -/
def tok (tokenType : TokenType) (lexeme : String) : Token ℚ :=
  ⟨tokenType, lexeme, .nil, 1⟩

/-- The NUMBER token on line 1 of a numeral. -/
def numTok (lexeme : String) (value : ℚ) : Token ℚ :=
  ⟨.NUMBER, lexeme, .number value, 1⟩

/-- The tokens of `var ; print 1;`. -/
def recoveryTokens : List (Token ℚ) :=
  [tok .VAR "var", tok .SEMICOLON ";", tok .PRINT "print", numTok "1" 1, tok .SEMICOLON ";",
    tok .EOF ""]

/-- The statements of `var a = 1; print 1 + "a"; var b = 2;`. -/
def faultStatements : List (Option (Stmt ℚ)) :=
  [some (.Var (tok .IDENTIFIER "a") (some (.Literal (.number 1)))),
    some (.Print (.Binary (.Literal (.number 1)) (tok .PLUS "+") (.Literal (.str "a")))),
    some (.Var (tok .IDENTIFIER "b") (some (.Literal (.number 2))))]

/-- The tokens of `x = 10;`. -/
def assignTokens : List (Token ℚ) :=
  [tok .IDENTIFIER "x", tok .EQUAL "=", numTok "10" 10, tok .SEMICOLON ";", tok .EOF ""]

/-- An outcome with its final state replaced by what `f` reads from it. -/
def Outcome.observe {F σ τ α : Type} (f : σ → τ) : Outcome F σ α → Outcome F τ α
  | .ok a s => .ok a (f s)
  | .panic v s => .panic v (f s)
  | .outOfFuel => .outOfFuel

/-- What is read from an interpreter: the values of the given names, and the output. -/
def Interpreter.read {F : Type} (names : List String) (i : Interpreter F) :
    List (Option (Value F)) × List (Event F) :=
  (names.map i.environment.values, i.stdout)

/-! ## Predicates of the proofs -/

/-- A call that leaves the receiver as it found it when it returns. -/
def Exec.Readonly {F σ α : Type} (x : Exec F σ α) : Prop :=
  ∀ s a s', x s = .ok a s' → s' = s

/-- The number of newline bytes in a stretch of source. -/
def newlines (cs : List Char) : Nat :=
  cs.count (Char.ofNat 10)

/-- How a scanner state `s` relates to an earlier state `s0` of the same scan: the source,
the start of the lexeme and the output are the same, the cursor has not moved back and is
within the source, every newline the cursor has passed is counted in `line`, and only
tokens other than EOF have been appended. -/
structure Scanner.Moved {F : Type} (s0 s : Scanner F) : Prop where
  source_eq : s.source = s0.source
  start_eq : s.start = s0.start
  stdout_eq : s.stdout = s0.stdout
  current_ge : s0.current ≤ s.current
  current_le : s.current ≤ s.source.length
  line_eq : s.line + newlines (s.source.drop s.current)
    = s0.line + newlines (s0.source.drop s0.current)
  tokens_eq : ∃ added, s.tokens = s0.tokens ++ added ∧ ∀ t ∈ added, t.TokenType ≠ .EOF

/-- What one call of `scanToken` from `s` does when it returns the error `err` in `s'`: it
moves the cursor forward, and an unterminated string takes it to the end of the source
and adds no token. -/
def Scanner.Lexed {F : Type} (s : Scanner F) (err : Option String) (s' : Scanner F) : Prop :=
  Scanner.Moved s s' ∧ s.current < s'.current ∧
    (err = some "unterminated string" → s'.source.length ≤ s'.current ∧ s'.tokens = s.tokens)

/-- The invariant of the loop of `ScanTokens` on the source `src`: the cursor is within the
source, `line` is 1 plus the number of newlines passed, no token so far is EOF, and an
unterminated string has been reported only if the cursor is at the end. -/
def Scanner.Scanned {F : Type} (src : List Char) (s : Scanner F) : Prop :=
  s.source = src ∧ s.current ≤ src.length ∧
    s.line + newlines (src.drop s.current) = 1 + newlines src ∧
    (∀ t ∈ s.tokens, t.TokenType ≠ .EOF) ∧
    (∀ ev ∈ s.stdout, ∀ line where_, ev = Event.report line where_ "unterminated string" →
      src.length ≤ s.current)

/-- One turn of the loop of `ScanTokens`, from a state that is not at the end: the state
at the beginning of the next lexeme. -/
def Scanner.turn {F : Type} (G : GoFloat F) (s : Scanner F) : Option (Scanner F) :=
  if s.isAtEnd then none
  else
    match Scanner.scanToken G { s with start := s.current } with
    | .ok (some err) s' => some { s' with stdout := s'.stdout ++ Error s'.line err }
    | .ok none s' => some s'
    | _ => none

/-- The state at the beginning of lexeme number `n` (from 0), `n` turns of the loop after
`s`. -/
def Scanner.lexemeStart {F : Type} (G : GoFloat F) : Nat → Scanner F → Option (Scanner F)
  | 0, s => some s
  | n + 1, s =>
    match Scanner.turn G s with
    | some s' => Scanner.lexemeStart G n s'
    | none => none

/-- The source `"a`, newline, `b`: a string that is opened on line 1 and never closed. -/
def unterminatedSource : List Char :=
  [Char.ofNat 34, 'a', Char.ofNat 10, 'b']

/-- The source `print "a`, newline, `b`: the string is opened at the third lexeme. -/
def printUnterminatedSource : List Char :=
  ['p', 'r', 'i', 'n', 't', ' ', Char.ofNat 34, 'a', Char.ofNat 10, 'b']

/-- The scanner at the quote of `printUnterminatedSource`, after the lexemes `print` and
the blank. -/
def printUnterminatedAtQuote : Scanner ℚ :=
  ⟨printUnterminatedSource, [tok .PRINT "print"], 5, 6, 1, []⟩

/-- A call never panics with a `ParseError` held by value, and every result it returns
satisfies `post`. -/
def Exec.Ensures {F σ α : Type} (x : Exec F σ α) (post : α → Prop) : Prop :=
  (∀ s e s', x s ≠ .panic (.valParseError e) s') ∧ ∀ s a s', x s = .ok a s' → post a

/-- A node that is neither a `VariableExpr` held by value nor an `AssignExpr`. -/
def Expr.plain {F : Type} : Expr F → Prop
  | .VariableVal _ => False
  | .Assign _ _ => False
  | _ => True

/-- The four dynamic types of a runtime value. -/
inductive ValueKind
  | nil | bool | number | string
  deriving DecidableEq, Repr

/-- The dynamic type of a runtime value. -/
def Value.kind {F : Type} : Value F → ValueKind
  | .nil => .nil
  | .bool _ => .bool
  | .number _ => .number
  | .str _ => .string

/-- The tokens of `+ + print 1 ; print 2 ;`. -/
def resyncTokens : List (Token ℚ) :=
  [tok .PLUS "+", tok .PLUS "+", tok .PRINT "print", numTok "1" 1, tok .SEMICOLON ";",
    tok .PRINT "print", numTok "2" 2, tok .SEMICOLON ";", tok .EOF ""]

/-- Whether `primary` parses an operand from this token alone: `NUMBER | STRING | "true" |
"false" | "nil" | IDENTIFIER`. -/
def isOperand {F : Type} (t : Token F) : Bool :=
  decide (t.TokenType ∈
    [TokenType.FALSE, .TRUE, .NIL, .NUMBER, .STRING, .IDENTIFIER])

/-- The node of an operand token. -/
def operandExpr {F : Type} (t : Token F) : Expr F :=
  match t.TokenType with
  | .FALSE => .Literal (.bool false)
  | .TRUE => .Literal (.bool true)
  | .NIL => .Literal .nil
  | .IDENTIFIER => .Variable t
  | _ => .Literal t.Literal

/-- The left-nested tree `Binary(...Binary(Binary(first, op1, e1), op2, e2)..., opn, en)`. -/
def leftNested {F : Type} (first : Expr F) (rest : List (Token F × Expr F)) : Expr F :=
  rest.foldl (fun left pair => .Binary left pair.1 pair.2) first

/-- A run of tokens with the tree it stands for. -/
structure Operand (F : Type) where
  tokens : List (Token F)
  expr : Expr F

/-- The operand is a primary expression: wherever its tokens stand, `primary` with fuel `k`
or more consumes exactly them and returns its tree. -/
def Operand.Parsed {F : Type} (k : Nat) (x : Operand F) : Prop :=
  ∀ (p : Parser F) (more : List (Token F)) (n : Nat),
    p.tokens.drop p.current = x.tokens ++ more → k ≤ n →
    Parser.primary n p = .ok x.expr { p with current := p.current + x.tokens.length }

/-- The operand of one token. -/
def tokenOperand {F : Type} (t : Token F) : Operand F :=
  ⟨[t], operandExpr t⟩

/-- The tokens `op1 p1 ... opn pn` of a list of operators with their right operands. -/
def operandTokens {F : Type} : List (Token F × Operand F) → List (Token F)
  | [] => []
  | pair :: rest => pair.1 :: (pair.2.tokens ++ operandTokens rest)

/-- A sequence `p0 op1 p1 ... opn pn` of operands joined by operators, `/` and `*` when well
formed. -/
structure FactorChain (F : Type) where
  first : Operand F
  rest : List (Token F × Operand F)

/-- The tokens of a factor chain. -/
def FactorChain.tokens {F : Type} (x : FactorChain F) : List (Token F) :=
  x.first.tokens ++ operandTokens x.rest

/-- The left-nested tree of a factor chain. -/
def FactorChain.expr {F : Type} (x : FactorChain F) : Expr F :=
  leftNested x.first.expr (x.rest.map fun pair => (pair.1, pair.2.expr))

/-- The operands of a factor chain are primary expressions, and its operators are `/` or
`*`. -/
def FactorChain.WellFormed {F : Type} (k : Nat) (x : FactorChain F) : Prop :=
  x.first.Parsed k ∧
    ∀ pair ∈ x.rest, pair.1.TokenType ∈ [TokenType.SLASH, .STAR] ∧ pair.2.Parsed k

/-- The tokens `op1 f1 ... opn fn` of a list of operators with factor chains as right
operands. -/
def chainTokens {F : Type} : List (Token F × FactorChain F) → List (Token F)
  | [] => []
  | pair :: rest => pair.1 :: (pair.2.tokens ++ chainTokens rest)

/-- A sequence `f0 op1 f1 ... opn fn` of factor chains joined by operators, `-` and `+` when
well formed. -/
structure TermChain (F : Type) where
  first : FactorChain F
  rest : List (Token F × FactorChain F)

/-- The tokens of a term chain. -/
def TermChain.tokens {F : Type} (x : TermChain F) : List (Token F) :=
  x.first.tokens ++ chainTokens x.rest

/-- The left-nested tree of a term chain, over the trees of its factor chains. -/
def TermChain.expr {F : Type} (x : TermChain F) : Expr F :=
  leftNested x.first.expr (x.rest.map fun pair => (pair.1, pair.2.expr))

/-- The factor chains of a term chain are well formed, and its operators are `-` or `+`. -/
def TermChain.WellFormed {F : Type} (k : Nat) (x : TermChain F) : Prop :=
  x.first.WellFormed k ∧
    ∀ pair ∈ x.rest, pair.1.TokenType ∈ [TokenType.MINUS, .PLUS] ∧ pair.2.WellFormed k

/-- The operand `( x )` of a term chain between parentheses. -/
def groupOperand {F : Type} (left right : Token F) (x : TermChain F) : Operand F :=
  ⟨left :: (x.tokens ++ [right]), .Grouping x.expr⟩

/-- The operators that continue an expression after a term chain, and `=`. -/
def continuations : List TokenType :=
  [.MINUS, .PLUS, .SLASH, .STAR, .GREATER, .GREATER_EQUAL, .LESS_EQUAL, .BANG_EQUAL,
    .EQUAL_EQUAL, .EQUAL]

/-- The tokens of `1 + 2 * 3`. -/
def sumProductTokens : List (Token ℚ) :=
  [numTok "1" 1, tok .PLUS "+", numTok "2" 2, tok .STAR "*", numTok "3" 3, tok .EOF ""]

/-- The tokens of `1 - 2 - 3`. -/
def differenceTokens : List (Token ℚ) :=
  [numTok "1" 1, tok .MINUS "-", numTok "2" 2, tok .MINUS "-", numTok "3" 3, tok .EOF ""]

/-- The term chain of `1 + 2 * 3`: the factor chain `1`, then `+` with the factor chain
`2 * 3`. -/
def sumProductChain : TermChain ℚ :=
  ⟨⟨tokenOperand (numTok "1" 1), []⟩,
    [(tok .PLUS "+", ⟨tokenOperand (numTok "2" 2), [(tok .STAR "*", tokenOperand (numTok "3" 3))]⟩)]⟩

/-- The term chain of `1 - 2 - 3`: three factor chains of one operand each. -/
def differenceChain : TermChain ℚ :=
  ⟨⟨tokenOperand (numTok "1" 1), []⟩,
    [(tok .MINUS "-", ⟨tokenOperand (numTok "2" 2), []⟩),
      (tok .MINUS "-", ⟨tokenOperand (numTok "3" 3), []⟩)]⟩

/-- The tokens of `(1 + 2) * 3 / 4`. -/
def groupedTokens : List (Token ℚ) :=
  [tok .LEFT_PAREN "(", numTok "1" 1, tok .PLUS "+", numTok "2" 2, tok .RIGHT_PAREN ")",
    tok .STAR "*", numTok "3" 3, tok .SLASH "/", numTok "4" 4, tok .EOF ""]

/-- The term chain of `1 + 2`. -/
def sumChain : TermChain ℚ :=
  ⟨⟨tokenOperand (numTok "1" 1), []⟩, [(tok .PLUS "+", ⟨tokenOperand (numTok "2" 2), []⟩)]⟩

/-- The term chain of `(1 + 2) * 3 / 4`: one factor chain, whose first operand is the
group. -/
def groupedChain : TermChain ℚ :=
  ⟨⟨groupOperand (tok .LEFT_PAREN "(") (tok .RIGHT_PAREN ")") sumChain,
    [(tok .STAR "*", tokenOperand (numTok "3" 3)),
      (tok .SLASH "/", tokenOperand (numTok "4" 4))]⟩, []⟩

/-- The operator tokens of the `Binary` nodes of an expression, at any depth. -/
def Expr.binaryOperators {F : Type} : Expr F → List (Token F)
  | .Unary _ right => right.binaryOperators
  | .Binary left operator right => left.binaryOperators ++ operator :: right.binaryOperators
  | .Grouping expression => expression.binaryOperators
  | .Literal _ => []
  | .Variable _ => []
  | .VariableVal _ => []
  | .Assign _ value => value.binaryOperators

mutual

/-- The operator tokens of the `Binary` nodes in the expressions of a statement. -/
def Stmt.binaryOperators {F : Type} : Stmt F → List (Token F)
  | .Block statements => statements.binaryOperators
  | .Expression expression => expression.binaryOperators
  | .Print expression => expression.binaryOperators
  | .Var _ (some initializer) => initializer.binaryOperators
  | .Var _ none => []

/-- The operator tokens of the `Binary` nodes in the statements of a block. -/
def StmtList.binaryOperators {F : Type} : StmtList F → List (Token F)
  | .nil => []
  | .cons head tail => head.binaryOperators ++ tail.binaryOperators
  | .consNil tail => tail.binaryOperators

end

/-- No `Binary` node of the expression has an operator token of kind LESS. -/
def Expr.LessFree {F : Type} (e : Expr F) : Prop :=
  ∀ op ∈ e.binaryOperators, op.TokenType ≠ .LESS

/-- The tokens of `1 < 2;`. -/
def lessTokens : List (Token ℚ) :=
  [numTok "1" 1, tok .LESS "<", numTok "2" 2, tok .SEMICOLON ";", tok .EOF ""]

/-- The tokens of `print 1 <= 2 * 3;`. -/
def lessEqualTokens : List (Token ℚ) :=
  [tok .PRINT "print", numTok "1" 1, tok .LESS_EQUAL "<=", numTok "2" 2, tok .STAR "*",
    numTok "3" 3, tok .SEMICOLON ";", tok .EOF ""]

/-- The last token of the list is an EOF token. -/
def EndsInEOF {F : Type} (tokens : List (Token F)) : Prop :=
  ∃ t, tokens.getLast? = some t ∧ t.TokenType = .EOF

/-- The cursor is an index of the token list, and no token before it is an EOF token: the
cursor has not moved past the first EOF. -/
def Parser.InBounds {F : Type} (p : Parser F) : Prop :=
  p.current < p.tokens.length ∧
    ∀ i t, i < p.current → p.tokens[i]? = some t → t.TokenType ≠ .EOF

/-- A parser over a token list that ends in EOF, with its cursor in bounds. -/
def Parser.Valid {F : Type} (p : Parser F) : Prop :=
  EndsInEOF p.tokens ∧ p.InBounds

/-- The state `p` has the tokens of `p0`, its cursor is not before the cursor of `p0`, and
it is valid. -/
def Parser.From {F : Type} (p0 p : Parser F) : Prop :=
  p.tokens = p0.tokens ∧ p0.current ≤ p.current ∧ p.Valid

/-- The number of tokens from the cursor on. -/
def Parser.remaining {F : Type} (p : Parser F) : Nat :=
  p.tokens.length - p.current

/-- What the call `x` does from state `p`: it returns a result and a state that satisfy
`post`, or it panics with a `*ParseError` in a state that satisfies `fail`, or it runs out of
fuel and `starved` holds. It raises no other panic: no index of `peek` or `previous` is out
of range. -/
def Parser.Runs {F α : Type} (x : Exec F (Parser F) α) (p : Parser F)
    (post : α → Parser F → Prop) (fail : Parser F → Prop) (starved : Prop) : Prop :=
  match x p with
  | .ok a p' => post a p'
  | .panic v p' => (∃ e, v = .ptrParseError e) ∧ fail p'
  | .outOfFuel => starved

/-- The tokens of `print 1; print 2;`. -/
def printTwiceTokens : List (Token ℚ) :=
  [tok .PRINT "print", numTok "1" 1, tok .SEMICOLON ";", tok .PRINT "print", numTok "2" 2,
    tok .SEMICOLON ";", tok .EOF ""]

/-! ## Sequencing lemmas -/

section ExecLemmas

variable {F σ α β : Type}

theorem Exec.bind_ok {x : Exec F σ α} {f : α → Exec F σ β} {s s' : σ} {a : α}
    (h : x s = .ok a s') : (x >>= f) s = f a s' := by
  show Exec.bind x f s = f a s'
  simp [Exec.bind, h]

theorem Exec.bind_panic {x : Exec F σ α} {f : α → Exec F σ β} {s s' : σ} {v : PanicValue F}
    (h : x s = .panic v s') : (x >>= f) s = .panic v s' := by
  show Exec.bind x f s = .panic v s'
  simp [Exec.bind, h]

theorem Exec.bind_outOfFuel {x : Exec F σ α} {f : α → Exec F σ β} {s : σ}
    (h : x s = .outOfFuel) : (x >>= f) s = .outOfFuel := by
  show Exec.bind x f s = .outOfFuel
  simp [Exec.bind, h]

theorem Exec.pure_apply (a : α) (s : σ) : (Pure.pure a : Exec F σ α) s = .ok a s := rfl

theorem Exec.bind_apply (x : Exec F σ α) (f : α → Exec F σ β) (s : σ) :
    (x >>= f) s = Exec.bind x f s := rfl

end ExecLemmas

/-! ## The environment -/

/-- C5. `Environment.Assign` fails exactly when the name is undefined: it returns the
undefined-variable error for the token iff the lexeme is not a key, and then the map is
unchanged; otherwise it returns no error, the map afterwards maps the lexeme to the value,
and every other key keeps its value. -/
theorem Environment.assign_spec {F : Type} (e : Environment F) (t : Token F) (v : Value F) :
    ((e.Assign t v).2 =
        some (NewRuntimeError t ("undefined variable '" ++ t.Lexeme ++ "'.")) ↔
      e.values t.Lexeme = none) ∧
    ((e.Assign t v).2 = none ↔ e.values t.Lexeme ≠ none) ∧
    (e.values t.Lexeme = none → (e.Assign t v).1 = e) ∧
    (e.values t.Lexeme ≠ none →
      (e.Assign t v).1.values t.Lexeme = some v ∧
      ∀ key, key ≠ t.Lexeme → (e.Assign t v).1.values key = e.values key) := by
  unfold Environment.Assign
  cases h : e.values t.Lexeme with
  | none => simp
  | some w =>
    simp only [Environment.Define]
    refine ⟨by simp, by simp, by simp, fun _ => ⟨by simp, ?_⟩⟩
    intro key hkey
    simp [hkey]

/-- C6. After `Define(n, v)` a `Get` of a token with lexeme `n` returns `v` and no error,
whatever was defined before; `Define` leaves the value of every other name unchanged; and
`Get` of a token whose lexeme is not a key returns the undefined-variable error carrying
that token. -/
theorem Environment.define_get_spec {F : Type} (e : Environment F) (n : String) (v : Value F)
    (t : Token F) :
    (t.Lexeme = n → (e.Define n v).Get t = (v, none)) ∧
    (∀ key, key ≠ n → (e.Define n v).values key = e.values key) ∧
    (e.values t.Lexeme = none →
      e.Get t =
        (.nil, some (NewRuntimeError t ("undefined variable '" ++ t.Lexeme ++ "'.")))) ∧
    (NewRuntimeError t ("undefined variable '" ++ t.Lexeme ++ "'.")).Token = t := by
  refine ⟨?_, ?_, ?_, rfl⟩
  · intro h
    simp [Environment.Get, Environment.Define, h]
  · intro key hkey
    simp [Environment.Define, hkey]
  · intro h
    simp [Environment.Get, h]

/-! ## The examples, from source text to tokens and statements -/

/-- The scanner yields `recoveryTokens` on `var ; print 1;`. -/
theorem scan_recovery_source :
    Scanner.ScanTokens ratFloat (NewScanner "var ; print 1;".data) =
      .ok (recoveryTokens, false) ⟨"var ; print 1;".data, recoveryTokens, 13, 14, 1, []⟩ := by
  decide!

/-- The scanner yields `assignTokens` on `x = 10;`. -/
theorem scan_assign_source :
    Scanner.ScanTokens ratFloat (NewScanner "x = 10;".data) =
      .ok (assignTokens, false) ⟨"x = 10;".data, assignTokens, 6, 7, 1, []⟩ := by
  decide!

/-! ## Recovery from a parse error -/

/-- C1. On the tokens of `var ; print 1;` the call of `Parse` does not return: `consume`
panics with the `*ParseError` for "Expect variable name." at the `;`, the deferred
function of `declaration` recovers it, its assertion `err.(ParseError)` fails on the
pointer and it panics again. Nothing is reported, no statement is returned, and the
cursor stands after `var`. -/
theorem Parser.parse_recovery_panics :
    Parser.Parse (NewParser recoveryTokens) =
      .panic (.ptrParseError ⟨tok .SEMICOLON ";", "Expect variable name."⟩)
        ⟨recoveryTokens, 1, []⟩ := by
  decide!

/-! ## Runtime faults -/

/-- C2. On the statements of `var a = 1; print 1 + "a"; var b = 2;` the call of `Interpret`
does not return: the fault of `+` is a panic with a `*ParseError`, the deferred function
recovers it, its assertion `err.(ParseError)` fails on the pointer and it panics again,
so `hadErrors` is never set. At the panic `a` is defined, `b` is not, and nothing was
written. -/
theorem Interpreter.interpret_fault_panics :
    (Interpreter.Interpret ratFloat faultStatements NewInterpreter).observe
        (Interpreter.read ["a", "b"]) =
      .panic (.ptrParseError ⟨tok .PLUS "+", "operands must be numbers."⟩)
        ([some (.number 1), none], []) := by
  decide!

/-! ## Assignment -/

/-- C3. On the tokens of `x = 10;` the rule `assignment` returns the variable `x`, not an
`Assign` node, and reports "Invalid assignment target." at the `=`: the left-hand side is
the `*VariableExpr` of `NewVariableExpr`, and the assertion `expr.(VariableExpr)` fails on
the pointer. So `Parse` yields the expression statement of the variable `x`, and the program
`var x = 5; x = 10; print x;` writes that report and then prints `5`. -/
theorem Parser.assignment_yields_variable :
    Parser.assignment (10 * assignTokens.length + 20) (NewParser assignTokens) =
        .ok (.Variable (tok .IDENTIFIER "x"))
          ⟨assignTokens, 3, [.report 1 "at '='" "Invalid assignment target."]⟩ ∧
      Parser.Parse (NewParser assignTokens) =
        .ok ([some (.Expression (.Variable (tok .IDENTIFIER "x")))], false)
          ⟨assignTokens, 4, [.report 1 "at '='" "Invalid assignment target."]⟩ ∧
      run ratFloat "var x = 5; x = 10; print x;".data =
        .ok none [.report 1 "at '='" "Invalid assignment target.", .print "5"] := by
  decide!

/-! ## Fractional literals -/

/-- C7. On the source `1.5` the scanner yields four tokens, NUMBER `1`, DOT, NUMBER `5` and
EOF: `number` sees the `.` followed by a digit, but its second loop tests `isDigit` on the
`.` itself, which was not consumed, and consumes nothing. -/
theorem Scanner.scan_fraction :
    Scanner.ScanTokens ratFloat (NewScanner "1.5".data) =
      .ok ([numTok "1" 1, tok .DOT ".", numTok "5" 5, tok .EOF ""], false)
        ⟨"1.5".data, [numTok "1" 1, tok .DOT ".", numTok "5" 5, tok .EOF ""], 2, 3, 1, []⟩ := by
  decide!

/-! ## The text of a parse error -/

/-- C10. The text that `ParseError.Report` writes for a token `t` and a message `m`: one
write, `[line N] Error at end: m` and a newline when `t` is the EOF token, and
`[line N] Errorat 'lexeme': m` and a newline otherwise, with no space between `Error` and
`at`. -/
theorem ParseError.report_text {F : Type} (t : Golox.Token F) (m : String) :
    (ParseError.Report ⟨t, m⟩).map Event.written =
      [some (if t.TokenType = .EOF then
          "[line " ++ toString t.Line ++ "] Error at end: " ++ m ++ "\n"
        else
          "[line " ++ toString t.Line ++ "] Errorat '" ++ t.Lexeme ++ "': " ++ m ++ "\n")] := by
  have hat : ∀ rest : String, "] Error" ++ ("at '" ++ rest) = "] Errorat '" ++ rest := by
    intro rest
    rw [← String.append_assoc]
    rfl
  have hend : ∀ rest : String, "] Error" ++ (" at end" ++ rest) = "] Error at end" ++ rest := by
    intro rest
    rw [← String.append_assoc]
    rfl
  unfold ParseError.Report Golox.Report
  split <;> simp [Event.written, LoxErrorFmt, String.append_assoc, hat, hend]

/-! ## Assignment to an undefined name -/

section AssignUndefined

variable {F : Type}

theorem Exec.readonly_pure {σ α : Type} (a : α) : (Pure.pure a : Exec F σ α).Readonly := by
  intro s b s' h
  simp only [Exec.pure_apply, Outcome.ok.injEq] at h
  exact h.2.symm

theorem Exec.readonly_panic {σ α : Type} (v : PanicValue F) : (Exec.panic v : Exec F σ α).Readonly := by
  intro s b s' h
  simp [Exec.panic] at h

theorem Exec.readonly_bind {σ α β : Type} {x : Exec F σ α} {f : α → Exec F σ β}
    (hx : x.Readonly) (hf : ∀ a, (f a).Readonly) : (x >>= f).Readonly := by
  intro s b s' h
  rw [Exec.bind_apply] at h
  unfold Exec.bind at h
  cases hxs : x s with
  | ok a s1 =>
    rw [hxs] at h
    have := hx s a s1 hxs
    subst this
    exact hf a _ _ _ h
  | panic v s1 => rw [hxs] at h; simp at h
  | outOfFuel => rw [hxs] at h; simp at h

theorem assertFloat64_readonly {σ : Type} (val : Value F) : (assertFloat64 val : Exec F σ F).Readonly := by
  unfold assertFloat64
  split
  · exact Exec.readonly_pure _
  · exact Exec.readonly_panic _

theorem checkNumberOperands_readonly {σ : Type} (op : Token F) (l r : Value F) :
    (checkNumberOperands op l r : Exec F σ Unit).Readonly := by
  unfold checkNumberOperands
  split
  · exact Exec.readonly_pure _
  · exact Exec.readonly_panic _

theorem Interpreter.binaryOp_readonly (G : GoFloat F) (op : Token F) (l r : Value F) :
    (Interpreter.binaryOp G op l r).Readonly := by
  unfold Interpreter.binaryOp
  split <;>
    first
      | exact Exec.readonly_pure _
      | (split <;> first | exact Exec.readonly_pure _ | exact Exec.readonly_panic _)
      | (refine Exec.readonly_bind (checkNumberOperands_readonly _ _ _) (fun _ => ?_)
         refine Exec.readonly_bind (assertFloat64_readonly _) (fun _ => ?_)
         refine Exec.readonly_bind (assertFloat64_readonly _) (fun _ => ?_)
         exact Exec.readonly_pure _)

theorem Interpreter.unaryOp_readonly (G : GoFloat F) (op : Token F) (r : Value F) :
    (Interpreter.unaryOp G op r).Readonly := by
  unfold Interpreter.unaryOp
  split <;>
    first
      | exact Exec.readonly_pure _
      | (refine Exec.readonly_bind (assertFloat64_readonly _) (fun _ => ?_)
         exact Exec.readonly_pure _)

theorem Interpreter.visitVariable_readonly (name : Token F) :
    (Interpreter.visitVariable name).Readonly := by
  intro s a s' h
  unfold Interpreter.visitVariable at h
  split at h <;> simp at h
  exact h.2.symm

/-- Evaluating an expression defines no name. -/
theorem Interpreter.evaluate_undefined (G : GoFloat F) (key : String) :
    ∀ (e : Expr F) (i i' : Interpreter F) (v : Value F),
      Interpreter.evaluate G e i = .ok v i' → i.environment.values key = none →
      i'.environment.values key = none := by
  intro e
  induction e with
  | Literal value =>
    intro i i' v h hk
    simp only [Interpreter.evaluate, Exec.pure_apply, Outcome.ok.injEq] at h
    rw [← h.2]; exact hk
  | Grouping expression ih =>
    intro i i' v h hk
    simp only [Interpreter.evaluate] at h
    exact ih i i' v h hk
  | Unary operator right ih =>
    intro i i' v h hk
    simp only [Interpreter.evaluate] at h
    cases hr : Interpreter.evaluate G right i with
    | ok a s1 =>
      rw [Exec.bind_ok hr] at h
      rw [Interpreter.unaryOp_readonly G operator a s1 v i' h]
      exact ih i s1 a hr hk
    | panic v s1 => rw [Exec.bind_panic hr] at h; cases h
    | outOfFuel => rw [Exec.bind_outOfFuel hr] at h; cases h
  | Binary left operator right ihl ihr =>
    intro i i' v h hk
    simp only [Interpreter.evaluate] at h
    cases hl : Interpreter.evaluate G left i with
    | ok a s1 =>
      rw [Exec.bind_ok hl] at h
      cases hr : Interpreter.evaluate G right s1 with
      | ok b s2 =>
        rw [Exec.bind_ok hr] at h
        rw [Interpreter.binaryOp_readonly G operator a b s2 v i' h]
        exact ihr s1 s2 b hr (ihl i s1 a hl hk)
      | panic v s2 => rw [Exec.bind_panic hr] at h; cases h
      | outOfFuel => rw [Exec.bind_outOfFuel hr] at h; cases h
    | panic v s1 => rw [Exec.bind_panic hl] at h; cases h
    | outOfFuel => rw [Exec.bind_outOfFuel hl] at h; cases h
  | Variable name =>
    intro i i' v h hk
    simp only [Interpreter.evaluate] at h
    rw [Interpreter.visitVariable_readonly name i v i' h]; exact hk
  | VariableVal name =>
    intro i i' v h hk
    simp only [Interpreter.evaluate] at h
    rw [Interpreter.visitVariable_readonly name i v i' h]; exact hk
  | Assign name value ih =>
    intro i i' v h hk
    simp only [Interpreter.evaluate] at h
    cases hr : Interpreter.evaluate G value i with
    | ok a s1 =>
      rw [Exec.bind_ok hr, Exec.bind_ok (show Exec.modify _ s1 = .ok () _ from rfl),
        Exec.pure_apply] at h
      simp only [Outcome.ok.injEq] at h
      have h1 := ih i s1 a hr hk
      rw [← h.2]
      simp only [Environment.Assign]
      split
      · simp only [Environment.Define]
        split
        · rename_i hsome hkey
          rw [hkey] at h1; rw [h1] at hsome; cases hsome
        · exact h1
      · exact h1
    | panic v s1 => rw [Exec.bind_panic hr] at h; cases h
    | outOfFuel => rw [Exec.bind_outOfFuel hr] at h; cases h

/-- C4. In an environment in which the name `n` is not defined, when the value expression
`e` evaluates to `v` without fault, the evaluation of `Assign(n, e)` raises nothing: it
yields `v`, in the state the evaluation of `e` left, and `n` stays undefined.
`VisitAssignExpr` drops the error that `Environment.Assign` returns. -/
theorem Interpreter.assign_undefined_yields_value (G : GoFloat F) (n : Token F) (e : Expr F)
    (i i' : Interpreter F) (v : Value F)
    (hundef : i.environment.values n.Lexeme = none)
    (heval : Interpreter.evaluate G e i = .ok v i') :
    Interpreter.evaluate G (.Assign n e) i = .ok v i' ∧
      i'.environment.values n.Lexeme = none := by
  have h1 := Interpreter.evaluate_undefined G n.Lexeme e i i' v heval hundef
  refine ⟨?_, h1⟩
  simp only [Interpreter.evaluate]
  rw [Exec.bind_ok heval, Exec.bind_ok (show Exec.modify _ i' = .ok () _ from rfl),
    Exec.pure_apply]
  simp only [Environment.Assign, h1]

/-- C4, at a concrete input: in the fresh interpreter `x` is not defined, the literal `1`
evaluates to `1`, and `x = 1` yields `1` and raises nothing. -/
theorem Interpreter.assign_undefined_witness :
    ((NewInterpreter : Interpreter ℚ).environment.values (tok .IDENTIFIER "x").Lexeme = none ∧
      Interpreter.evaluate ratFloat (.Literal (.number 1)) NewInterpreter =
        .ok (.number 1) NewInterpreter) ∧
    Interpreter.evaluate ratFloat (.Assign (tok .IDENTIFIER "x") (.Literal (.number 1)))
        NewInterpreter = .ok (.number 1) NewInterpreter ∧
      (NewInterpreter : Interpreter ℚ).environment.values (tok .IDENTIFIER "x").Lexeme = none :=
  ⟨⟨rfl, rfl⟩,
    Interpreter.assign_undefined_yields_value ratFloat (tok .IDENTIFIER "x")
      (.Literal (.number 1)) NewInterpreter NewInterpreter (.number 1) rfl rfl⟩

end AssignUndefined

/-! ## The scanner, one lexeme at a time -/

section ScannerLemmas

variable {F : Type}

theorem drop_of_getElem? {α : Type} {l : List α} {n : Nat} {c : α} (h : l[n]? = some c) :
    l.drop n = c :: l.drop (n + 1) := by
  have hlt : n < l.length := by
    by_contra hge
    rw [List.getElem?_eq_none (by omega)] at h
    cases h
  rw [List.getElem?_eq_getElem hlt] at h
  cases h
  exact List.drop_eq_getElem_cons hlt

theorem newlines_cons (c : Char) (cs : List Char) :
    newlines (c :: cs) = newlines cs + (if c = Char.ofNat 10 then 1 else 0) := by
  unfold newlines
  rw [List.count_cons]
  by_cases h : c = Char.ofNat 10
  · simp [h]
  · have : (c == Char.ofNat 10) = false := by simp [h]
    simp [this, h]

theorem forLoop_spec {σ : Type} (cond : σ → Bool) (body : Exec F σ Unit) (inv : σ → Prop)
    (m : σ → Nat)
    (hbody : ∀ s, inv s → cond s = true → ∃ s', body s = .ok () s' ∧ inv s' ∧ m s' < m s) :
    ∀ (fuel : Nat) (s : σ), inv s → m s ≤ fuel →
      ∃ s', forLoop cond body fuel s = .ok () s' ∧ inv s' ∧ cond s' = false := by
  intro fuel
  induction fuel with
  | zero =>
    intro s hinv hm
    cases hc : cond s with
    | false => exact ⟨s, by simp [forLoop, hc], hinv, hc⟩
    | true =>
      obtain ⟨s', _, _, hlt⟩ := hbody s hinv hc
      omega
  | succ n ih =>
    intro s hinv hm
    cases hc : cond s with
    | false => exact ⟨s, by simp [forLoop, hc], hinv, hc⟩
    | true =>
      obtain ⟨s', hb, hinv', hlt⟩ := hbody s hinv hc
      obtain ⟨s'', hl, hinv'', hc''⟩ := ih s' hinv' (by omega)
      exact ⟨s'', by simp [forLoop, hc, hb, hl], hinv'', hc''⟩

namespace Scanner

theorem Moved.refl (s : Scanner F) (h : s.current ≤ s.source.length) : Moved s s :=
  ⟨rfl, rfl, rfl, Nat.le_refl _, h, rfl, [], by simp, by simp⟩

theorem Moved.trans {s0 s1 s2 : Scanner F} (h1 : Moved s0 s1) (h2 : Moved s1 s2) :
    Moved s0 s2 := by
  obtain ⟨a1, ht1, hn1⟩ := h1.tokens_eq
  obtain ⟨a2, ht2, hn2⟩ := h2.tokens_eq
  refine ⟨h2.source_eq.trans h1.source_eq, h2.start_eq.trans h1.start_eq,
    h2.stdout_eq.trans h1.stdout_eq, Nat.le_trans h1.current_ge h2.current_ge,
    h2.current_le, h2.line_eq.trans h1.line_eq, a1 ++ a2, ?_, ?_⟩
  · rw [ht2, ht1, List.append_assoc]
  · intro t ht
    rcases List.mem_append.mp ht with h | h
    · exact hn1 t h
    · exact hn2 t h

theorem isAtEnd_eq_false {s : Scanner F} (h : s.current < s.source.length) :
    s.isAtEnd = false := by
  simp [isAtEnd, h]

theorem isAtEnd_eq_true {s : Scanner F} (h : s.source.length ≤ s.current) :
    s.isAtEnd = true := by
  simp [isAtEnd, h]

theorem getElem?_of_lt {s : Scanner F} (h : s.current < s.source.length) :
    ∃ c, s.source[s.current]? = some c :=
  ⟨_, List.getElem?_eq_getElem h⟩

theorem peek_eq {s : Scanner F} {c : Char} (h : s.source[s.current]? = some c) :
    s.peek = c := by
  have hlt : s.current < s.source.length := by
    by_contra hge
    rw [List.getElem?_eq_none (by omega)] at h
    cases h
  simp [peek, isAtEnd_eq_false hlt, List.getD, h]

theorem peek_atEnd {s : Scanner F} (h : s.source.length ≤ s.current) :
    s.peek = Char.ofNat 0 := by
  simp [peek, isAtEnd_eq_true h]

theorem advance_ok {s : Scanner F} {c : Char} (h : s.source[s.current]? = some c) :
    advance s = .ok c { s with current := s.current + 1 } := by
  simp [advance, h]

/-- Stepping over a byte that is not a newline. -/
theorem Moved.step {s : Scanner F} {c : Char} (h : s.source[s.current]? = some c)
    (hc : c ≠ Char.ofNat 10) : Moved s { s with current := s.current + 1 } := by
  have hlt : s.current < s.source.length := by
    by_contra hge
    rw [List.getElem?_eq_none (by omega)] at h
    cases h
  refine ⟨rfl, rfl, rfl, Nat.le_succ _, hlt, ?_, [], by simp, by simp⟩
  show s.line + newlines (s.source.drop (s.current + 1)) = _
  rw [drop_of_getElem? h, newlines_cons]
  simp [hc]

/-- Stepping over a newline and counting it. -/
theorem Moved.newline {s : Scanner F} (h : s.source[s.current]? = some (Char.ofNat 10)) :
    Moved s { s with current := s.current + 1, line := s.line + 1 } := by
  have hlt : s.current < s.source.length := by
    by_contra hge
    rw [List.getElem?_eq_none (by omega)] at h
    cases h
  refine ⟨rfl, rfl, rfl, Nat.le_succ _, hlt, ?_, [], by simp, by simp⟩
  show s.line + 1 + newlines (s.source.drop (s.current + 1)) = _
  rw [drop_of_getElem? h, newlines_cons]
  simp
  omega

end Scanner

end ScannerLemmas

/-! ## The scanner, lexeme by lexeme -/

section ScannerLexemes
variable {F : Type}
namespace Scanner

theorem skip_ok {s : Scanner F} {c : Char} (h : s.source[s.current]? = some c) :
    skip s = .ok () { s with current := s.current + 1 } := by
  unfold skip
  rw [Exec.bind_ok (advance_ok h)]
  rfl

theorem peek_cases (s : Scanner F) :
    (s.source.length ≤ s.current ∧ s.peek = Char.ofNat 0) ∨
      ∃ c, s.source[s.current]? = some c ∧ s.peek = c := by
  by_cases h : s.current < s.source.length
  · obtain ⟨c, hc⟩ := getElem?_of_lt h
    exact Or.inr ⟨c, hc, peek_eq hc⟩
  · exact Or.inl ⟨by omega, peek_atEnd (by omega)⟩

theorem addTokenWithLiteral_ok (t : TokenType) (lit : Value F) {s : Scanner F}
    (h1 : s.start ≤ s.current) (h2 : s.current ≤ s.source.length) :
    addTokenWithLiteral t lit s = .ok ()
      { s with tokens := s.tokens ++
          [NewToken t (String.mk ((s.source.drop s.start).take (s.current - s.start))) lit
            s.line] } := by
  unfold addTokenWithLiteral
  rw [Exec.bind_ok (show Exec.get s = .ok s s from rfl),
    Exec.bind_ok (show slice s.start s.current s =
      .ok (String.mk ((s.source.drop s.start).take (s.current - s.start))) s by
        simp [slice, h1, h2])]
  rfl

theorem addTokenWithLiteral_spec (t : TokenType) (lit : Value F) (ht : t ≠ .EOF)
    {s : Scanner F} (h1 : s.start ≤ s.current) (h2 : s.current ≤ s.source.length) :
    ∃ s', addTokenWithLiteral t lit s = .ok () s' ∧ Moved s s' ∧ s'.current = s.current := by
  refine ⟨_, addTokenWithLiteral_ok t lit h1 h2, ?_, rfl⟩
  refine ⟨rfl, rfl, rfl, Nat.le_refl _, h2, rfl, _, rfl, ?_⟩
  intro tk htk
  rw [List.mem_singleton] at htk
  rw [htk]
  exact ht

theorem match_spec (expected : Char) (hne : expected ≠ Char.ofNat 10) {s : Scanner F}
    (hle : s.current ≤ s.source.length) :
    ∃ b s', match_ expected s = .ok b s' ∧ Moved s s' ∧ s'.tokens = s.tokens := by
  unfold match_
  split
  · exact ⟨false, s, rfl, Moved.refl s hle, rfl⟩
  · rename_i hcond
    simp only [Bool.or_eq_true, bne_iff_ne, ne_eq, not_or, Decidable.not_not] at hcond
    have hlt : s.current < s.source.length := by
      have := hcond.1
      simp [isAtEnd] at this
      exact this
    obtain ⟨c, hc⟩ := getElem?_of_lt hlt
    have hce : c = expected := by
      have := hcond.2
      simpa [List.getD, hc] using this
    exact ⟨true, _, rfl, Moved.step hc (hce ▸ hne), rfl⟩

/-- A loop that steps over bytes that are not newlines. -/
theorem skipLoop_spec (cond : Scanner F → Bool)
    (hcond : ∀ s, cond s = true → ∃ c, s.source[s.current]? = some c ∧ c ≠ Char.ofNat 10)
    (s0 : Scanner F) (h0 : s0.current ≤ s0.source.length) :
    ∃ s', forLoop cond skip s0.source.length s0 = .ok () s' ∧ Moved s0 s' ∧
      s'.tokens = s0.tokens ∧ cond s' = false := by
  have key := forLoop_spec (F := F) cond skip
    (fun s => Moved s0 s ∧ s.tokens = s0.tokens) (fun s => s.source.length - s.current)
    (by
      intro s ⟨hm, ht⟩ hc
      obtain ⟨c, hget, hcn⟩ := hcond s hc
      have hstep := Moved.step hget hcn
      refine ⟨_, skip_ok hget, ⟨hm.trans hstep, ht⟩, ?_⟩
      have := hstep.current_le
      simp only at this ⊢
      omega)
    s0.source.length s0 ⟨Moved.refl s0 h0, rfl⟩
    (by show s0.source.length - s0.current ≤ s0.source.length; omega)
  obtain ⟨s', h1, ⟨h2, h3⟩, h4⟩ := key
  exact ⟨s', h1, h2, h3, h4⟩

theorem isDigit_cond (s : Scanner F) (h : isDigit s.peek = true) :
    ∃ c, s.source[s.current]? = some c ∧ c ≠ Char.ofNat 10 := by
  rcases peek_cases s with ⟨_, hp⟩ | ⟨c, hc, hp⟩
  · rw [hp] at h
    exact absurd h (by decide)
  · refine ⟨c, hc, ?_⟩
    intro hcn
    rw [hp, hcn] at h
    exact absurd h (by decide)

theorem isAlphaNumeric_cond (s : Scanner F) (h : isAlphaNumeric s.peek = true) :
    ∃ c, s.source[s.current]? = some c ∧ c ≠ Char.ofNat 10 := by
  rcases peek_cases s with ⟨_, hp⟩ | ⟨c, hc, hp⟩
  · rw [hp] at h
    exact absurd h (by decide)
  · refine ⟨c, hc, ?_⟩
    intro hcn
    rw [hp, hcn] at h
    exact absurd h (by decide)

theorem comment_cond (s : Scanner F) (h : (s.peek != Char.ofNat 10 && !s.isAtEnd) = true) :
    ∃ c, s.source[s.current]? = some c ∧ c ≠ Char.ofNat 10 := by
  simp only [Bool.and_eq_true, bne_iff_ne, ne_eq, Bool.not_eq_true'] at h
  rcases peek_cases s with ⟨hle, _⟩ | ⟨c, hc, hp⟩
  · rw [isAtEnd_eq_true hle] at h
    exact absurd h.2 (by simp)
  · exact ⟨c, hc, hp ▸ h.1⟩

end Scanner
end ScannerLexemes

section ScannerLexemes2
variable {F : Type}
namespace Scanner

theorem stringStep_spec {s : Scanner F} {c : Char} (h : s.source[s.current]? = some c) :
    ∃ s', stringStep s = .ok () s' ∧ Moved s s' ∧ s'.tokens = s.tokens ∧
      s'.current = s.current + 1 := by
  unfold stringStep
  rw [Exec.bind_ok (show Exec.get s = .ok s s from rfl)]
  dsimp only
  rw [peek_eq h]
  split
  · rename_i hc
    rw [Exec.bind_ok (show Exec.modify _ s = .ok () _ from rfl)]
    rw [skip_ok (c := c) (by exact h)]
    exact ⟨_, rfl, Moved.newline (hc ▸ h), rfl, rfl⟩
  · rename_i hc
    rw [Exec.bind_ok (show (Pure.pure PUnit.unit : Exec F (Scanner F) PUnit) s = .ok _ s from rfl)]
    rw [skip_ok h]
    exact ⟨_, rfl, Moved.step h hc, rfl, rfl⟩

theorem stringLoop_spec (s0 : Scanner F) (h0 : s0.current ≤ s0.source.length) :
    ∃ s', forLoop (fun s => s.peek != Char.ofNat 34 && !s.isAtEnd) stringStep
        s0.source.length s0 = .ok () s' ∧ Moved s0 s' ∧ s'.tokens = s0.tokens ∧
      (s'.source.length ≤ s'.current ∨ s'.source[s'.current]? = some (Char.ofNat 34)) ∧
      (Char.ofNat 34 ∉ s0.source.drop s0.current → s'.source.length ≤ s'.current) := by
  have key := forLoop_spec (F := F) (fun s => s.peek != Char.ofNat 34 && !s.isAtEnd) stringStep
    (fun s => Moved s0 s ∧ s.tokens = s0.tokens) (fun s => s.source.length - s.current)
    (by
      intro s ⟨hm, ht⟩ hc
      simp only [Bool.and_eq_true, bne_iff_ne, ne_eq, Bool.not_eq_true'] at hc
      rcases peek_cases s with ⟨hle, _⟩ | ⟨c, hget, _⟩
      · rw [isAtEnd_eq_true hle] at hc
        exact absurd hc.2 (by simp)
      · obtain ⟨s', h1, h2, h3, h4⟩ := stringStep_spec hget
        refine ⟨s', h1, ⟨hm.trans h2, h3.trans ht⟩, ?_⟩
        have h5 := h2.current_le
        have h6 := h2.source_eq
        show s'.source.length - s'.current < s.source.length - s.current
        rw [h6] at h5 ⊢
        omega)
    s0.source.length s0 ⟨Moved.refl s0 h0, rfl⟩
    (by show s0.source.length - s0.current ≤ s0.source.length; omega)
  obtain ⟨s', h1, ⟨h2, h3⟩, h4⟩ := key
  have hend : s'.source.length ≤ s'.current ∨ s'.source[s'.current]? = some (Char.ofNat 34) := by
    rcases peek_cases s' with ⟨hle, _⟩ | ⟨c, hget, hp⟩
    · exact Or.inl hle
    · right
      have hlt : s'.current < s'.source.length := by
        by_contra hge
        rw [List.getElem?_eq_none (by omega)] at hget
        cases hget
      simp only [isAtEnd_eq_false hlt, Bool.not_false, Bool.and_true, bne_eq_false_iff_eq] at h4
      rw [hget, ← hp, h4]
  refine ⟨s', h1, h2, h3, hend, ?_⟩
  intro hno
  rcases hend with hle | hq
  · exact hle
  · exfalso
    apply hno
    have hmem : Char.ofNat 34 ∈ s'.source.drop s'.current := by
      rw [drop_of_getElem? hq]
      exact List.mem_cons_self _ _
    rw [h2.source_eq] at hmem
    have hsplit : s0.source.drop s'.current
        = (s0.source.drop s0.current).drop (s'.current - s0.current) := by
      rw [List.drop_drop]
      congr 1
      have := h2.current_ge
      omega
    rw [hsplit] at hmem
    exact List.mem_of_mem_drop hmem

end Scanner
end ScannerLexemes2

section ScannerLexemes3
variable {F : Type}
namespace Scanner

theorem string_spec {s : Scanner F} (hs : s.start < s.current)
    (hle : s.current ≤ s.source.length) :
    ∃ err s', string s = .ok err s' ∧ Moved s s' ∧
      ((err = some "unterminated string" ∧ s'.source.length ≤ s'.current ∧
          s'.tokens = s.tokens) ∨ (err = none ∧ s.current < s'.current)) ∧
      (Char.ofNat 34 ∉ s.source.drop s.current → err = some "unterminated string") := by
  obtain ⟨s1, h1, hm1, ht1, hend1, hno1⟩ := stringLoop_spec s hle
  unfold string
  rw [Exec.bind_ok (show Exec.get s = .ok s s from rfl), Exec.bind_ok h1,
    Exec.bind_ok (show Exec.get s1 = .ok s1 s1 from rfl)]
  by_cases hat : s1.isAtEnd = true
  · rw [if_pos hat]
    have hle1 : s1.source.length ≤ s1.current := by simpa [isAtEnd] using hat
    exact ⟨_, s1, rfl, hm1, Or.inl ⟨rfl, hle1, ht1⟩, fun _ => rfl⟩
  · rw [if_neg hat]
    have hlt1 : s1.current < s1.source.length := by
      simp only [isAtEnd, ge_iff_le, decide_eq_true_eq, not_le] at hat
      exact hat
    have hq : s1.source[s1.current]? = some (Char.ofNat 34) := by
      rcases hend1 with h | h
      · omega
      · exact h
    have hstep := Moved.step hq (by decide)
    rw [Exec.bind_ok (skip_ok hq), Exec.bind_ok (show Exec.get _ = .ok _ _ from rfl)]
    dsimp only
    rw [if_neg (by omega)]
    have hst : s1.start = s.start := hm1.start_eq
    have hcur : s.current ≤ s1.current := hm1.current_ge
    rw [Exec.bind_ok (show slice (s1.start + 1) (s1.current + 1 - 1)
        { s1 with current := s1.current + 1 } =
      .ok (String.mk ((s1.source.drop (s1.start + 1)).take
        (s1.current + 1 - 1 - (s1.start + 1)))) _ by
        simp only [slice]
        rw [if_pos]
        constructor
        · omega
        · show s1.current + 1 - 1 ≤ s1.source.length
          omega)]
    obtain ⟨s2, h2, hm2, hc2⟩ := addTokenWithLiteral_spec (F := F) .STRING
      (.str (String.mk ((s1.source.drop (s1.start + 1)).take
        (s1.current + 1 - 1 - (s1.start + 1))))) (by decide)
      (s := { s1 with current := s1.current + 1 })
      (by show s1.start ≤ s1.current + 1; omega)
      (by show s1.current + 1 ≤ s1.source.length; omega)
    rw [Exec.bind_ok h2]
    refine ⟨none, s2, rfl, (hm1.trans hstep).trans hm2, Or.inr ⟨rfl, ?_⟩, ?_⟩
    · rw [hc2]
      show s.current < s1.current + 1
      omega
    · intro hno
      have := hno1 hno
      omega

theorem number_spec (G : GoFloat F) {s : Scanner F} (hs : s.start ≤ s.current)
    (hle : s.current ≤ s.source.length) :
    ∃ err s', number G s = .ok err s' ∧ Moved s s' ∧
      (err = none ∨ err = some "unable to parse number") := by
  obtain ⟨s1, h1, hm1, _, _⟩ := skipLoop_spec (fun s => isDigit s.peek) isDigit_cond s hle
  have key : ∀ s2 : Scanner F, Moved s s2 →
      ∃ err s', (do
          let s ← Exec.get
          let text ← slice s.start s.current
          match G.ParseFloat text with
          | none => return some "unable to parse number"
          | some num =>
            addTokenWithLiteral .NUMBER (.number num)
            return none : Exec F (Scanner F) (Option String)) s2 = .ok err s' ∧ Moved s s' ∧
        (err = none ∨ err = some "unable to parse number") := by
    intro s2 hm2
    have hst : s2.start ≤ s2.current := by
      have := hm2.start_eq
      have := hm2.current_ge
      omega
    rw [Exec.bind_ok (show Exec.get s2 = .ok s2 s2 from rfl),
      Exec.bind_ok (show slice s2.start s2.current s2 =
        .ok (String.mk ((s2.source.drop s2.start).take (s2.current - s2.start))) s2 by
          simp [slice, hst, hm2.current_le])]
    cases G.ParseFloat (String.mk ((s2.source.drop s2.start).take (s2.current - s2.start))) with
    | none => exact ⟨_, s2, rfl, hm2, Or.inr rfl⟩
    | some num =>
      obtain ⟨s3, h3, hm3, _⟩ := addTokenWithLiteral_spec (F := F) .NUMBER
        (.number num) (by decide) hst hm2.current_le
      dsimp only
      rw [Exec.bind_ok h3]
      exact ⟨_, s3, rfl, hm2.trans hm3, Or.inl rfl⟩
  unfold number
  rw [Exec.bind_ok (show Exec.get s = .ok s s from rfl), Exec.bind_ok h1,
    Exec.bind_ok (show Exec.get s1 = .ok s1 s1 from rfl)]
  dsimp only
  split
  · obtain ⟨s2, h2, hm2, _, _⟩ :=
      skipLoop_spec (fun s => isDigit s.peek) isDigit_cond s1 hm1.current_le
    rw [Exec.bind_ok h2]
    exact key s2 (hm1.trans hm2)
  · rw [Exec.bind_ok (show (Pure.pure PUnit.unit : Exec F (Scanner F) PUnit) s1 = .ok _ s1
      from rfl)]
    exact key s1 hm1

theorem lookup_mem {α β : Type} [BEq α] (a : α) (b : β) :
    ∀ l : List (α × β), l.lookup a = some b → b ∈ l.map Prod.snd := by
  intro l
  induction l with
  | nil => intro h; cases h
  | cons p l ih =>
    intro h
    obtain ⟨k, v⟩ := p
    rw [List.lookup_cons] at h
    cases hk : (a == k) with
    | true =>
      rw [hk] at h
      cases h
      exact List.mem_cons_self _ _
    | false =>
      rw [hk] at h
      exact List.mem_cons_of_mem _ (ih h)

theorem keywords_ne_EOF (text : String) (t : TokenType) (h : keywords text = some t) :
    t ≠ .EOF := by
  have hmem := lookup_mem text t keywordTable h
  have hall : ∀ x ∈ keywordTable.map Prod.snd, x ≠ TokenType.EOF := by decide
  exact hall t hmem

theorem identifier_spec {s : Scanner F} (hs : s.start ≤ s.current)
    (hle : s.current ≤ s.source.length) :
    ∃ s', identifier s = .ok none s' ∧ Moved s s' := by
  obtain ⟨s1, h1, hm1, _, _⟩ :=
    skipLoop_spec (fun s => isAlphaNumeric s.peek) isAlphaNumeric_cond s hle
  have hst : s1.start ≤ s1.current := by
    have := hm1.start_eq
    have := hm1.current_ge
    omega
  unfold identifier
  rw [Exec.bind_ok (show Exec.get s = .ok s s from rfl), Exec.bind_ok h1,
    Exec.bind_ok (show Exec.get s1 = .ok s1 s1 from rfl),
    Exec.bind_ok (show slice s1.start s1.current s1 =
      .ok (String.mk ((s1.source.drop s1.start).take (s1.current - s1.start))) s1 by
        simp [slice, hst, hm1.current_le])]
  cases hk : keywords (String.mk ((s1.source.drop s1.start).take (s1.current - s1.start))) with
  | some tokenType =>
    obtain ⟨s2, h2, hm2, _⟩ := addTokenWithLiteral_spec (F := F) tokenType .nil
      (keywords_ne_EOF _ _ hk) hst hm1.current_le
    dsimp only
    rw [Exec.bind_ok (show addToken tokenType s1 = .ok () s2 from h2)]
    exact ⟨s2, rfl, hm1.trans hm2⟩
  | none =>
    obtain ⟨s2, h2, hm2, _⟩ := addTokenWithLiteral_spec (F := F) .IDENTIFIER .nil
      (by decide) hst hm1.current_le
    dsimp only
    rw [Exec.bind_ok (show addToken .IDENTIFIER s1 = .ok () s2 from h2)]
    exact ⟨s2, rfl, hm1.trans hm2⟩

end Scanner
end ScannerLexemes3

section ScannerLexemes4
variable {F : Type}
namespace Scanner

theorem unexpected_ne (c : Char) :
    "unexpected character " ++ String.singleton c ≠ "unterminated string" := by
  intro h
  have := congrArg String.length h
  simp [String.length_append, String.singleton] at this
  revert this
  decide

theorem scanToken_spec (G : GoFloat F) {s : Scanner F} (hstart : s.start = s.current)
    (hlt : s.current < s.source.length) :
    ∃ err s', scanToken G s = .ok err s' ∧ Lexed s err s' := by
  obtain ⟨c, hget⟩ := getElem?_of_lt hlt
  unfold scanToken
  rw [Exec.bind_ok (advance_ok hget)]
  -- the state after the first byte
  have hst1 : ({ s with current := s.current + 1 } : Scanner F).start ≤
      ({ s with current := s.current + 1 } : Scanner F).current := by
    show s.start ≤ s.current + 1
    omega
  have hle1 : ({ s with current := s.current + 1 } : Scanner F).current ≤
      ({ s with current := s.current + 1 } : Scanner F).source.length := by
    show s.current + 1 ≤ s.source.length
    omega
  have punct : c ≠ Char.ofNat 10 → ∀ t : TokenType, t ≠ .EOF →
      ∃ err s', (addToken t >>= fun _ => (Pure.pure none : Exec F (Scanner F) (Option String)))
        { s with current := s.current + 1 } = .ok err s' ∧ Lexed s err s' := by
    intro hc t ht
    obtain ⟨s2, h2, hm2, hc2⟩ := addTokenWithLiteral_spec (F := F) t .nil ht hst1 hle1
    rw [Exec.bind_ok (show addToken t _ = .ok () s2 from h2)]
    refine ⟨none, s2, rfl, (Moved.step hget hc).trans hm2, ?_, ?_⟩
    · rw [hc2]; exact Nat.lt_succ_self _
    · intro h; cases h
  have twochar : c ≠ Char.ofNat 10 → ∀ a b : TokenType, a ≠ .EOF → b ≠ .EOF →
      ∃ err s', (match_ '=' >>= fun cond => addTokenOnCondition cond a b >>= fun _ =>
          (Pure.pure none : Exec F (Scanner F) (Option String)))
        { s with current := s.current + 1 } = .ok err s' ∧ Lexed s err s' := by
    intro hc a b ha hb
    obtain ⟨cond, s2, h2, hm2, _⟩ := match_spec (F := F) '=' (by decide) hle1
    have hst2 : s2.start ≤ s2.current := by
      have h3 := hm2.start_eq
      have h4 := hm2.current_ge
      have h5 : s2.start = s.start := h3
      have h6 : s.current + 1 ≤ s2.current := h4
      omega
    rw [Exec.bind_ok h2]
    cases cond with
    | true =>
      obtain ⟨s3, h3, hm3, hc3⟩ := addTokenWithLiteral_spec (F := F) a .nil ha hst2
        hm2.current_le
      rw [Exec.bind_ok (show addTokenOnCondition true a b s2 = .ok () s3 from h3)]
      refine ⟨none, s3, rfl, ((Moved.step hget hc).trans hm2).trans hm3, ?_, ?_⟩
      · rw [hc3]
        have h6 : s.current + 1 ≤ s2.current := hm2.current_ge
        omega
      · intro h; cases h
    | false =>
      obtain ⟨s3, h3, hm3, hc3⟩ := addTokenWithLiteral_spec (F := F) b .nil hb hst2
        hm2.current_le
      rw [Exec.bind_ok (show addTokenOnCondition false a b s2 = .ok () s3 from h3)]
      refine ⟨none, s3, rfl, ((Moved.step hget hc).trans hm2).trans hm3, ?_, ?_⟩
      · rw [hc3]
        have h6 : s.current + 1 ≤ s2.current := hm2.current_ge
        omega
      · intro h; cases h
  have blank : c ≠ Char.ofNat 10 →
      ∃ err s', (Pure.pure none : Exec F (Scanner F) (Option String))
        { s with current := s.current + 1 } = .ok err s' ∧ Lexed s err s' := by
    intro hc
    exact ⟨none, _, rfl, Moved.step hget hc, Nat.lt_succ_self _, fun h => by cases h⟩
  by_cases h1 : c = '('
  · rw [if_pos h1]; exact punct (by rw [h1]; decide) _ (by decide)
  rw [if_neg h1]
  by_cases h2 : c = ')'
  · rw [if_pos h2]; exact punct (by rw [h2]; decide) _ (by decide)
  rw [if_neg h2]
  by_cases h3 : c = Char.ofNat 123
  · rw [if_pos h3]; exact punct (by rw [h3]; decide) _ (by decide)
  rw [if_neg h3]
  by_cases h4 : c = Char.ofNat 125
  · rw [if_pos h4]; exact punct (by rw [h4]; decide) _ (by decide)
  rw [if_neg h4]
  by_cases h5 : c = ','
  · rw [if_pos h5]; exact punct (by rw [h5]; decide) _ (by decide)
  rw [if_neg h5]
  by_cases h6 : c = '.'
  · rw [if_pos h6]; exact punct (by rw [h6]; decide) _ (by decide)
  rw [if_neg h6]
  by_cases h7 : c = '-'
  · rw [if_pos h7]; exact punct (by rw [h7]; decide) _ (by decide)
  rw [if_neg h7]
  by_cases h8 : c = '+'
  · rw [if_pos h8]; exact punct (by rw [h8]; decide) _ (by decide)
  rw [if_neg h8]
  by_cases h9 : c = ';'
  · rw [if_pos h9]; exact punct (by rw [h9]; decide) _ (by decide)
  rw [if_neg h9]
  by_cases h10 : c = '*'
  · rw [if_pos h10]; exact punct (by rw [h10]; decide) _ (by decide)
  rw [if_neg h10]
  by_cases h11 : c = '!'
  · rw [if_pos h11]; exact twochar (by rw [h11]; decide) _ _ (by decide) (by decide)
  rw [if_neg h11]
  by_cases h12 : c = '='
  · rw [if_pos h12]; exact twochar (by rw [h12]; decide) _ _ (by decide) (by decide)
  rw [if_neg h12]
  by_cases h13 : c = '<'
  · rw [if_pos h13]; exact twochar (by rw [h13]; decide) _ _ (by decide) (by decide)
  rw [if_neg h13]
  by_cases h14 : c = '>'
  · rw [if_pos h14]; exact twochar (by rw [h14]; decide) _ _ (by decide) (by decide)
  rw [if_neg h14]
  by_cases h15 : c = '/'
  · rw [if_pos h15]
    have hc : c ≠ Char.ofNat 10 := by rw [h15]; decide
    obtain ⟨cond, s2, h2, hm2, ht2⟩ := match_spec (F := F) '/' (by decide) hle1
    rw [Exec.bind_ok h2]
    have hge2 : s.current + 1 ≤ s2.current := hm2.current_ge
    cases cond with
    | true =>
      rw [if_pos rfl, Exec.bind_ok (show Exec.get s2 = .ok s2 s2 from rfl)]
      obtain ⟨s3, h3, hm3, _, _⟩ := skipLoop_spec
        (fun s => s.peek != Char.ofNat 10 && !s.isAtEnd) comment_cond s2 hm2.current_le
      rw [Exec.bind_ok h3]
      refine ⟨none, s3, rfl, ((Moved.step hget hc).trans hm2).trans hm3, ?_, ?_⟩
      · have := hm3.current_ge
        omega
      · intro h; cases h
    | false =>
      rw [if_neg (by simp)]
      have hst2 : s2.start ≤ s2.current := by
        have h5 : s2.start = s.start := hm2.start_eq
        omega
      obtain ⟨s3, h3, hm3, hc3⟩ := addTokenWithLiteral_spec (F := F) .SLASH .nil (by decide)
        hst2 hm2.current_le
      rw [Exec.bind_ok (show addToken .SLASH s2 = .ok () s3 from h3)]
      refine ⟨none, s3, rfl, ((Moved.step hget hc).trans hm2).trans hm3, ?_, ?_⟩
      · rw [hc3]; omega
      · intro h; cases h
  rw [if_neg h15]
  by_cases h16 : c = Char.ofNat 10
  · rw [if_pos h16, Exec.bind_ok (show Exec.modify _ _ = .ok () _ from rfl)]
    exact ⟨none, _, rfl, Moved.newline (h16 ▸ hget), Nat.lt_succ_self _, fun h => by cases h⟩
  rw [if_neg h16]
  by_cases h17 : c = ' '
  · rw [if_pos h17]; exact blank h16
  rw [if_neg h17]
  by_cases h18 : c = Char.ofNat 13
  · rw [if_pos h18]; exact blank h16
  rw [if_neg h18]
  by_cases h19 : c = Char.ofNat 9
  · rw [if_pos h19]; exact blank h16
  rw [if_neg h19]
  have hm1 := Moved.step hget h16
  by_cases h20 : c = Char.ofNat 34
  · rw [if_pos h20]
    obtain ⟨err, s2, h2, hm2, hcase, _⟩ := string_spec (F := F)
      (s := { s with current := s.current + 1 }) (by show s.start < s.current + 1; omega) hle1
    rw [Exec.bind_ok h2]
    have hge2 : s.current + 1 ≤ s2.current := hm2.current_ge
    rcases hcase with ⟨he, hend, htok⟩ | ⟨he, _⟩
    · subst he
      exact ⟨_, s2, rfl, hm1.trans hm2, by omega, fun _ => ⟨hend, htok⟩⟩
    · subst he
      exact ⟨_, s2, rfl, hm1.trans hm2, by omega, fun h => by cases h⟩
  rw [if_neg h20]
  by_cases h21 : isDigit c = true
  · rw [if_pos h21]
    obtain ⟨err, s2, h2, hm2, hcase⟩ := number_spec G hst1 hle1
    rw [Exec.bind_ok h2]
    have hge2 : s.current + 1 ≤ s2.current := hm2.current_ge
    rcases hcase with he | he
    · subst he
      exact ⟨_, s2, rfl, hm1.trans hm2, by omega, fun h => by cases h⟩
    · subst he
      exact ⟨_, s2, rfl, hm1.trans hm2, by omega,
        fun h => absurd h (by decide)⟩
  rw [if_neg h21]
  by_cases h22 : isAlpha c = true
  · rw [if_pos h22]
    obtain ⟨s2, h2, hm2⟩ := identifier_spec (F := F) hst1 hle1
    rw [Exec.bind_ok h2]
    have hge2 : s.current + 1 ≤ s2.current := hm2.current_ge
    exact ⟨_, s2, rfl, hm1.trans hm2, by omega, fun h => by cases h⟩
  rw [if_neg h22]
  refine ⟨_, _, rfl, hm1, Nat.lt_succ_self _, ?_⟩
  intro h
  exact absurd (Option.some.inj h) (unexpected_ne c)

end Scanner
end ScannerLexemes4

section ScannerLoop
variable {F : Type}
namespace Scanner

theorem Scanned.fresh (src : List Char) : Scanned src (NewScanner src : Scanner F) := by
  refine ⟨rfl, Nat.zero_le _, ?_, ?_, ?_⟩
  · show 1 + newlines (src.drop 0) = 1 + newlines src
    rw [List.drop_zero]
  · intro t ht; cases ht
  · intro ev hev; cases hev

/-- One turn of the loop keeps the invariant, moves the cursor forward and is what
`scanLoop` does with one unit of fuel. -/
theorem turn_spec (G : GoFloat F) {src : List Char} {s : Scanner F} (hs : Scanned src s)
    (hlt : s.current < src.length) :
    ∃ s', turn G s = some s' ∧ Scanned src s' ∧ s.current < s'.current ∧
      ∀ fuel b, ∃ b', scanLoop G (fuel + 1) b s = scanLoop G fuel b' s' := by
  obtain ⟨hsrc, hle, hline, htok, hout⟩ := hs
  have hlt' : s.current < s.source.length := by rw [hsrc]; exact hlt
  obtain ⟨err, s1, h1, hm1, hcur1, hunt1⟩ := scanToken_spec G
    (s := { s with start := s.current }) rfl hlt'
  have hatend : s.isAtEnd = false := isAtEnd_eq_false hlt'
  have hsrc1 : s1.source = src := hm1.source_eq.trans hsrc
  have hle1 : s1.current ≤ src.length := by
    have := hm1.current_le
    rw [hsrc1] at this
    exact this
  have hline1 : s1.line + newlines (src.drop s1.current) = 1 + newlines src := by
    have := hm1.line_eq
    rw [hsrc1] at this
    rw [this, ← hline]
    show s.line + newlines (s.source.drop s.current) = _
    rw [hsrc]
  have htok1 : ∀ t ∈ s1.tokens, t.TokenType ≠ .EOF := by
    obtain ⟨added, hadd, hne⟩ := hm1.tokens_eq
    intro t ht
    rw [hadd] at ht
    rcases List.mem_append.mp ht with h | h
    · exact htok t h
    · exact hne t h
  have hout1 : s1.stdout = s.stdout := hm1.stdout_eq
  have hnone : ∀ ev ∈ s.stdout, ∀ line where_,
      ev ≠ Event.report line where_ "unterminated string" := by
    intro ev hev line where_ h
    have := hout ev hev line where_ h
    omega
  cases err with
  | none =>
    refine ⟨s1, by simp [turn, hatend, h1], ⟨hsrc1, hle1, hline1, htok1, ?_⟩, hcur1, ?_⟩
    · intro ev hev line where_ h
      rw [hout1] at hev
      exact absurd h (hnone ev hev line where_)
    · intro fuel b
      exact ⟨b, by simp [scanLoop, hatend, h1]⟩
  | some msg =>
    refine ⟨{ s1 with stdout := s1.stdout ++ Error s1.line msg },
      by simp [turn, hatend, h1], ⟨hsrc1, hle1, hline1, htok1, ?_⟩, hcur1, ?_⟩
    · intro ev hev line where_ h
      show src.length ≤ s1.current
      rcases List.mem_append.mp hev with hev | hev
      · rw [hout1] at hev
        exact absurd h (hnone ev hev line where_)
      · simp only [Error, Report, List.mem_singleton] at hev
        rw [hev] at h
        simp only [Event.report.injEq] at h
        have := (hunt1 (by rw [h.2.2])).1
        rw [hsrc1] at this
        exact this
    · intro fuel b
      exact ⟨true, by simp [scanLoop, hatend, h1]⟩

theorem scanLoop_atEnd (G : GoFloat F) {s : Scanner F} (h : s.source.length ≤ s.current)
    (fuel : Nat) (b : Bool) : scanLoop G fuel b s = .ok b s := by
  cases fuel <;> simp [scanLoop, isAtEnd_eq_true h]

/-- The loop of `ScanTokens` returns, at the end of the source, with the invariant. -/
theorem scanLoop_spec (G : GoFloat F) (src : List Char) :
    ∀ (fuel : Nat) (s : Scanner F) (b : Bool), Scanned src s → src.length - s.current ≤ fuel →
      ∃ b' s', scanLoop G fuel b s = .ok b' s' ∧ Scanned src s' ∧ src.length ≤ s'.current := by
  intro fuel
  induction fuel with
  | zero =>
    intro s b hs hfuel
    have hend : s.source.length ≤ s.current := by rw [hs.1]; omega
    exact ⟨b, s, scanLoop_atEnd G hend 0 b, hs, by omega⟩
  | succ n ih =>
    intro s b hs hfuel
    by_cases hlt : s.current < src.length
    · obtain ⟨s1, _, hs1, hcur, hstep⟩ := turn_spec G hs hlt
      obtain ⟨b1, hb1⟩ := hstep n b
      obtain ⟨b2, s2, h2, hs2, hend2⟩ := ih s1 b1 hs1 (by omega)
      exact ⟨b2, s2, by rw [hb1, h2], hs2, hend2⟩
    · have hend : s.source.length ≤ s.current := by rw [hs.1]; omega
      exact ⟨b, s, scanLoop_atEnd G hend _ b, hs, by omega⟩

/-- The beginning of a lexeme is reached by the loop of `ScanTokens`. -/
theorem lexemeStart_spec (G : GoFloat F) (src : List Char) :
    ∀ (n : Nat) (s0 s : Scanner F), Scanned src s0 → lexemeStart G n s0 = some s →
      Scanned src s ∧ s0.current + n ≤ s.current ∧
      ∀ fuel b, ∃ b', scanLoop G (fuel + n) b s0 = scanLoop G fuel b' s := by
  intro n
  induction n with
  | zero =>
    intro s0 s hs0 h
    simp only [lexemeStart, Option.some.injEq] at h
    subst h
    exact ⟨hs0, Nat.le_refl _, fun fuel b => ⟨b, rfl⟩⟩
  | succ n ih =>
    intro s0 s hs0 h
    simp only [lexemeStart] at h
    by_cases hlt : s0.current < src.length
    · obtain ⟨s1, ht1, hs1, hcur, hstep⟩ := turn_spec G hs0 hlt
      rw [ht1] at h
      obtain ⟨hs, hn, hloop⟩ := ih s1 s hs1 h
      refine ⟨hs, by omega, ?_⟩
      intro fuel b
      obtain ⟨b1, hb1⟩ := hstep (fuel + n) b
      obtain ⟨b2, hb2⟩ := hloop fuel b1
      exact ⟨b2, by rw [show fuel + (n + 1) = fuel + n + 1 from rfl, hb1, hb2]⟩
    · have hend : s0.isAtEnd = true := isAtEnd_eq_true (by rw [hs0.1]; omega)
      simp [turn, hend] at h

/-- C9. For every source, `ScanTokens` on a fresh scanner returns a token sequence that
ends in one EOF token with empty lexeme, no literal and line 1 + the number of newlines in
the source, and holds no other EOF token. -/
theorem scanTokens_eof (G : GoFloat F) (src : List Char) :
    ∃ (body : List (Token F)) (final : Scanner F),
      ScanTokens G (NewScanner src) =
        .ok (body ++ [NewToken .EOF "" .nil (1 + newlines src)], false) final ∧
      ∀ t ∈ body, t.TokenType ≠ .EOF := by
  obtain ⟨b, s1, h1, hs1, hend⟩ := scanLoop_spec G src src.length (NewScanner src) false
    (Scanned.fresh src) (by show src.length - 0 ≤ src.length; omega)
  obtain ⟨hsrc, hle, hline, htok, _⟩ := hs1
  have hl : s1.line = 1 + newlines src := by
    rw [List.drop_eq_nil_of_le hend] at hline
    simpa [newlines] using hline
  refine ⟨s1.tokens, { s1 with tokens := s1.tokens ++ [NewToken .EOF "" .nil s1.line] }, ?_,
    htok⟩
  unfold ScanTokens
  rw [Exec.bind_ok (show Exec.get (NewScanner src) = .ok _ _ from rfl),
    Exec.bind_ok (show scanLoop G (NewScanner src : Scanner F).source.length false
      (NewScanner src) = .ok b s1 from h1),
    Exec.bind_ok (show Exec.modify _ s1 = .ok () _ from rfl),
    Exec.bind_ok (show Exec.get _ = .ok _ _ from rfl), Exec.pure_apply, hl]

end Scanner
end ScannerLoop

section Unterminated
variable {F : Type}
namespace Scanner

/-- At a quote that no later quote closes, `scanToken` returns "unterminated string". -/
theorem scanToken_quote (G : GoFloat F) {s : Scanner F} (hstart : s.start = s.current)
    (hq : s.source[s.current]? = some (Char.ofNat 34))
    (hno : Char.ofNat 34 ∉ s.source.drop (s.current + 1)) :
    ∃ s', scanToken G s = .ok (some "unterminated string") s' ∧
      Lexed s (some "unterminated string") s' := by
  have hlt : s.current < s.source.length := by
    by_contra hge
    rw [List.getElem?_eq_none (by omega)] at hq
    cases hq
  obtain ⟨err, s', h, hlex⟩ := scanToken_spec G hstart hlt
  suffices herr : err = some "unterminated string" by
    subst herr
    exact ⟨s', h, hlex⟩
  obtain ⟨e2, s2, h2, _, _, hno2⟩ := string_spec (F := F)
    (s := { s with current := s.current + 1 }) (by show s.start < s.current + 1; omega)
    (by show s.current + 1 ≤ s.source.length; omega)
  have he2 : e2 = some "unterminated string" := hno2 hno
  subst he2
  have hcomp : scanToken G s = .ok (some "unterminated string") s2 := by
    unfold scanToken
    rw [Exec.bind_ok (advance_ok hq)]
    rw [if_neg (show ¬ Char.ofNat 34 = '(' by decide),
      if_neg (show ¬ Char.ofNat 34 = ')' by decide),
      if_neg (show ¬ Char.ofNat 34 = Char.ofNat 123 by decide),
      if_neg (show ¬ Char.ofNat 34 = Char.ofNat 125 by decide),
      if_neg (show ¬ Char.ofNat 34 = ',' by decide),
      if_neg (show ¬ Char.ofNat 34 = '.' by decide),
      if_neg (show ¬ Char.ofNat 34 = '-' by decide),
      if_neg (show ¬ Char.ofNat 34 = '+' by decide),
      if_neg (show ¬ Char.ofNat 34 = ';' by decide),
      if_neg (show ¬ Char.ofNat 34 = '*' by decide),
      if_neg (show ¬ Char.ofNat 34 = '!' by decide),
      if_neg (show ¬ Char.ofNat 34 = '=' by decide),
      if_neg (show ¬ Char.ofNat 34 = '<' by decide),
      if_neg (show ¬ Char.ofNat 34 = '>' by decide),
      if_neg (show ¬ Char.ofNat 34 = '/' by decide),
      if_neg (show ¬ Char.ofNat 34 = Char.ofNat 10 by decide),
      if_neg (show ¬ Char.ofNat 34 = ' ' by decide),
      if_neg (show ¬ Char.ofNat 34 = Char.ofNat 13 by decide),
      if_neg (show ¬ Char.ofNat 34 = Char.ofNat 9 by decide),
      if_pos rfl, Exec.bind_ok h2]
    rfl
  rw [hcomp] at h
  simp only [Outcome.ok.injEq] at h
  exact h.1.symm

/-- C8, as amended. Whenever the loop of `ScanTokens` on a source `src` reaches, at the
beginning of a lexeme, a quote that no later quote closes, `ScanTokens` reports
"unterminated string" exactly once, as its last write, and the line of that report is the
line reached at the end of the input, 1 + the number of newlines in the whole source: the
line of the opening quote plus the number of newlines in the unterminated text. -/
theorem unterminated_string_report (G : GoFloat F) (src : List Char) (n : Nat)
    (s : Scanner F) (hreach : lexemeStart G n (NewScanner src) = some s)
    (hquote : s.source[s.current]? = some (Char.ofNat 34))
    (hopen : Char.ofNat 34 ∉ s.source.drop (s.current + 1)) :
    ∃ final : Scanner F,
      ScanTokens G (NewScanner src) =
        .ok (s.tokens ++ [NewToken .EOF "" .nil (1 + newlines src)], false) final ∧
      final.stdout = s.stdout ++ [.report (1 + newlines src) "" "unterminated string"] ∧
      (∀ ev ∈ s.stdout, ∀ line where_, ev ≠ Event.report line where_ "unterminated string") ∧
      s.line = 1 + newlines (src.take s.current) ∧
      1 + newlines src = s.line + newlines (src.drop (s.current + 1)) := by
  obtain ⟨hs, hn, hloop⟩ := lexemeStart_spec G src n (NewScanner src) s (Scanned.fresh src)
    hreach
  obtain ⟨hsrc, hle, hline, htok, hout⟩ := hs
  have hlt : s.current < s.source.length := by
    by_contra hge
    rw [List.getElem?_eq_none (by omega)] at hquote
    cases hquote
  have hlt' : s.current < src.length := by rw [← hsrc]; exact hlt
  have hn' : n ≤ s.current := by
    have : (NewScanner src : Scanner F).current = 0 := rfl
    omega
  -- the turn of the loop at the quote
  obtain ⟨s1, h1, hm1, hcur1, hunt1⟩ := scanToken_quote G
    (s := { s with start := s.current }) rfl hquote hopen
  obtain ⟨hend1, htok1⟩ := hunt1 rfl
  have hsrc1 : s1.source = src := hm1.source_eq.trans hsrc
  have hend1' : s1.source.length ≤ s1.current := hend1
  have hline1 : s1.line = 1 + newlines src := by
    have h := hm1.line_eq
    rw [List.drop_eq_nil_of_le hend1'] at h
    have h' : s1.line = s.line + newlines (s.source.drop s.current) := by
      simpa [newlines] using h
    rw [h', hsrc, hline]
  -- the fuel of `ScanTokens` is the length of the source
  obtain ⟨k, hk⟩ : ∃ k, src.length = k + 1 + n := ⟨src.length - 1 - n, by omega⟩
  obtain ⟨b1, hb1⟩ := hloop (k + 1) false
  have hturn : scanLoop G (k + 1) b1 s = .ok true
      { s1 with stdout := s1.stdout ++ Error s1.line "unterminated string" } := by
    have hatend : s.isAtEnd = false := isAtEnd_eq_false hlt
    simp only [scanLoop, hatend, Bool.not_false, if_true, h1]
    exact scanLoop_atEnd G (s := { s1 with stdout := s1.stdout ++ Error s1.line "unterminated string" })
      hend1' k true
  have hnl : newlines (src.drop s.current) = newlines (src.drop (s.current + 1)) := by
    rw [hsrc] at hquote
    rw [drop_of_getElem? hquote, newlines_cons, if_neg (by decide)]
    rfl
  have htake : newlines src = newlines (src.take s.current) + newlines (src.drop s.current) := by
    unfold newlines
    rw [← List.count_append, List.take_append_drop]
  refine ⟨{ s1 with
      stdout := s1.stdout ++ Error s1.line "unterminated string"
      tokens := s1.tokens ++ [NewToken .EOF "" .nil s1.line] }, ?_, ?_, ?_, ?_, ?_⟩
  · unfold ScanTokens
    rw [Exec.bind_ok (show Exec.get (NewScanner src) = .ok _ _ from rfl),
      Exec.bind_ok (show scanLoop G (NewScanner src : Scanner F).source.length false
        (NewScanner src) = .ok true _ by
          show scanLoop G src.length false (NewScanner src) = _
          rw [hk, hb1, hturn]),
      Exec.bind_ok (show Exec.modify _ _ = .ok () _ from rfl),
      Exec.bind_ok (show Exec.get _ = .ok _ _ from rfl), Exec.pure_apply]
    have htk : s1.tokens = s.tokens := htok1
    simp only [htk, hline1]
  · show s1.stdout ++ Error s1.line "unterminated string" = _
    rw [hm1.stdout_eq, hline1]
    rfl
  · intro ev hev line where_ h
    have := hout ev hev line where_ h
    omega
  · omega
  · omega

end Scanner

/-- C8, at a concrete input: in the source `print "a`, newline, `b` the loop reaches the
quote at the beginning of its third lexeme, no later quote closes it, and the one report
carries line 2. -/
theorem Scanner.unterminated_string_witness :
    (Scanner.lexemeStart ratFloat 2 (NewScanner printUnterminatedSource) =
        some printUnterminatedAtQuote ∧
      printUnterminatedAtQuote.source[printUnterminatedAtQuote.current]? =
        some (Char.ofNat 34) ∧
      Char.ofNat 34 ∉
        printUnterminatedAtQuote.source.drop (printUnterminatedAtQuote.current + 1)) ∧
    ∃ final : Scanner ℚ,
      Scanner.ScanTokens ratFloat (NewScanner printUnterminatedSource) =
        .ok (printUnterminatedAtQuote.tokens ++
          [NewToken .EOF "" .nil (1 + newlines printUnterminatedSource)], false) final ∧
      final.stdout = printUnterminatedAtQuote.stdout ++
        [.report (1 + newlines printUnterminatedSource) "" "unterminated string"] ∧
      (∀ ev ∈ printUnterminatedAtQuote.stdout, ∀ line where_,
        ev ≠ Event.report line where_ "unterminated string") ∧
      printUnterminatedAtQuote.line =
        1 + newlines (printUnterminatedSource.take printUnterminatedAtQuote.current) ∧
      1 + newlines printUnterminatedSource = printUnterminatedAtQuote.line +
        newlines (printUnterminatedSource.drop (printUnterminatedAtQuote.current + 1)) :=
  ⟨⟨by decide!, by decide!, by decide!⟩,
    Scanner.unterminated_string_report ratFloat printUnterminatedSource 2
      printUnterminatedAtQuote (by decide!) (by decide!) (by decide!)⟩

/-- C8, the claim as stated fails: on the source `"a`, newline, `b` the opening quote is
the first byte, on line 1, and the one "unterminated string" report carries line 2, which
is not 1 + the number of newlines before the quote. -/
theorem Scanner.unterminated_string_line :
    Scanner.ScanTokens ratFloat (NewScanner unterminatedSource) =
      .ok ([⟨.EOF, "", .nil, 2⟩], false)
        ⟨unterminatedSource, [⟨.EOF, "", .nil, 2⟩], 0, 4, 2,
          [.report 2 "" "unterminated string"]⟩ ∧
    unterminatedSource[0]? = some (Char.ofNat 34) ∧
    2 ≠ 1 + newlines (unterminatedSource.take 0) := by
  decide!

end Unterminated

/-! ## The dynamic type of panic values and of parsed nodes -/

section Ensures

variable {F σ α β : Type}

theorem Exec.ensures_pure {post : α → Prop} {a : α} (h : post a) :
    (Pure.pure a : Exec F σ α).Ensures post := by
  refine ⟨fun s e s' h => (by cases h), ?_⟩
  intro s b s' hb
  simp only [Exec.pure_apply, Outcome.ok.injEq] at hb
  exact hb.1 ▸ h

theorem Exec.ensures_bind {x : Exec F σ α} {f : α → Exec F σ β} {M : α → Prop}
    {P : β → Prop} (hx : x.Ensures M) (hf : ∀ a, M a → (f a).Ensures P) :
    (x >>= f).Ensures P := by
  constructor
  · intro s e s' h
    cases hxs : x s with
    | ok a s1 =>
      rw [Exec.bind_ok hxs] at h
      exact (hf a (hx.2 s a s1 hxs)).1 s1 e s' h
    | panic v s1 =>
      rw [Exec.bind_panic hxs] at h
      simp only [Outcome.panic.injEq] at h
      exact hx.1 s e s1 (by rw [hxs, h.1])
    | outOfFuel =>
      rw [Exec.bind_outOfFuel hxs] at h
      cases h
  · intro s b s' h
    cases hxs : x s with
    | ok a s1 =>
      rw [Exec.bind_ok hxs] at h
      exact (hf a (hx.2 s a s1 hxs)).2 s1 b s' h
    | panic v s1 =>
      rw [Exec.bind_panic hxs] at h
      cases h
    | outOfFuel =>
      rw [Exec.bind_outOfFuel hxs] at h
      cases h

theorem Exec.ensures_modify (f : σ → σ) : (Exec.modify f : Exec F σ Unit).Ensures (fun _ => True) :=
  ⟨fun s e s' h => (by cases h), fun _ _ _ _ => trivial⟩

theorem Exec.ensures_outOfFuel {post : α → Prop} :
    Exec.Ensures (fun _ => Outcome.outOfFuel : Exec F σ α) post :=
  ⟨fun s e s' h => (by cases h), fun s a s' h => by cases h⟩

theorem Exec.ensures_panic_ptr {post : α → Prop} (e : ParseError F) :
    (Exec.panic (.ptrParseError e) : Exec F σ α).Ensures post :=
  ⟨fun s e s' h => (by cases h), fun s a s' h => by cases h⟩

theorem Exec.ensures_panic_conversion {post : α → Prop} :
    (Exec.panic .interfaceConversion : Exec F σ α).Ensures post :=
  ⟨fun s e s' h => (by cases h), fun s a s' h => by cases h⟩

theorem Exec.ensures_panic_nil {post : α → Prop} :
    (Exec.panic .nilDereference : Exec F σ α).Ensures post :=
  ⟨fun s e s' h => (by cases h), fun s a s' h => by cases h⟩

end Ensures

section InterpreterPanics

variable {F : Type}

theorem assertFloat64_ensures {σ : Type} (val : Value F) :
    (assertFloat64 val : Exec F σ F).Ensures (fun _ => True) := by
  unfold assertFloat64
  split
  · exact Exec.ensures_pure trivial
  · exact Exec.ensures_panic_conversion

theorem checkNumberOperands_ensures {σ : Type} (op : Token F) (l r : Value F) :
    (checkNumberOperands op l r : Exec F σ Unit).Ensures (fun _ => True) := by
  unfold checkNumberOperands
  split
  · exact Exec.ensures_pure trivial
  · exact Exec.ensures_panic_ptr _

theorem Interpreter.binaryOp_ensures (G : GoFloat F) (op : Token F) (l r : Value F) :
    (Interpreter.binaryOp G op l r).Ensures (fun _ => True) := by
  unfold Interpreter.binaryOp
  split <;>
    first
      | exact Exec.ensures_pure trivial
      | (split <;> first | exact Exec.ensures_pure trivial | exact Exec.ensures_panic_ptr _)
      | (refine Exec.ensures_bind (checkNumberOperands_ensures _ _ _) (fun _ _ => ?_)
         refine Exec.ensures_bind (assertFloat64_ensures _) (fun _ _ => ?_)
         refine Exec.ensures_bind (assertFloat64_ensures _) (fun _ _ => ?_)
         exact Exec.ensures_pure trivial)

theorem Interpreter.unaryOp_ensures (G : GoFloat F) (op : Token F) (r : Value F) :
    (Interpreter.unaryOp G op r).Ensures (fun _ => True) := by
  unfold Interpreter.unaryOp
  split <;>
    first
      | exact Exec.ensures_pure trivial
      | (refine Exec.ensures_bind (assertFloat64_ensures _) (fun _ _ => ?_)
         exact Exec.ensures_pure trivial)

theorem Interpreter.visitVariable_ensures (name : Token F) :
    (Interpreter.visitVariable name).Ensures (fun _ => True) := by
  refine ⟨?_, fun _ _ _ _ => trivial⟩
  intro s e s' h
  unfold Interpreter.visitVariable at h
  split at h <;> cases h

theorem Interpreter.evaluate_ensures (G : GoFloat F) :
    ∀ e : Expr F, (Interpreter.evaluate G e).Ensures (fun _ => True) := by
  intro e
  induction e with
  | Literal value =>
    simp only [Interpreter.evaluate]
    exact Exec.ensures_pure trivial
  | Grouping expression ih =>
    simp only [Interpreter.evaluate]
    exact ih
  | Unary operator right ih =>
    simp only [Interpreter.evaluate]
    exact Exec.ensures_bind ih (fun _ _ => Interpreter.unaryOp_ensures G _ _)
  | Binary left operator right ihl ihr =>
    simp only [Interpreter.evaluate]
    exact Exec.ensures_bind ihl (fun _ _ =>
      Exec.ensures_bind ihr (fun _ _ => Interpreter.binaryOp_ensures G _ _ _))
  | Variable name =>
    simp only [Interpreter.evaluate]
    exact Interpreter.visitVariable_ensures name
  | VariableVal name =>
    simp only [Interpreter.evaluate]
    exact Interpreter.visitVariable_ensures name
  | Assign name value ih =>
    simp only [Interpreter.evaluate]
    exact Exec.ensures_bind ih (fun _ _ =>
      Exec.ensures_bind (Exec.ensures_modify _) (fun _ _ => Exec.ensures_pure trivial))

theorem Interpreter.execute_ensures (G : GoFloat F) (stmt : Option (Stmt F)) :
    (Interpreter.execute G stmt).Ensures (fun _ => True) := by
  unfold Interpreter.execute
  split
  · exact Exec.ensures_panic_nil
  · exact Exec.ensures_bind (Interpreter.evaluate_ensures G _)
      (fun _ _ => Exec.ensures_pure trivial)
  · exact Exec.ensures_bind (Interpreter.evaluate_ensures G _)
      (fun _ _ => Exec.ensures_modify _)
  · exact Exec.ensures_pure trivial
  · refine Exec.ensures_bind (M := fun _ => True) ?_ (fun _ _ => Exec.ensures_modify _)
    split
    · exact Interpreter.evaluate_ensures G _
    · exact Exec.ensures_pure trivial

theorem Interpreter.executeAll_ensures (G : GoFloat F) :
    ∀ statements : List (Option (Stmt F)),
      (Interpreter.executeAll G statements).Ensures (fun _ => True) := by
  intro statements
  induction statements with
  | nil =>
    simp only [Interpreter.executeAll]
    exact Exec.ensures_pure trivial
  | cons stmt rest ih =>
    simp only [Interpreter.executeAll]
    exact Exec.ensures_bind (Interpreter.execute_ensures G stmt) (fun _ _ => ih)

/-- The defect behind C2, for every statement list: `Interpret` never returns true, and
whatever panic the execution of the statements raises leaves `Interpret` as a panic. -/
theorem Interpreter.interpret_never_recovers (G : GoFloat F)
    (statements : List (Option (Stmt F))) (i : Interpreter F) :
    (∀ i', Interpreter.Interpret G statements i ≠ .ok true i') ∧
    (∀ v i', Interpreter.executeAll G statements i = .panic v i' →
      Interpreter.Interpret G statements i = .panic v i') := by
  have hno := (Interpreter.executeAll_ensures G statements).1 i
  constructor
  · intro i' h
    unfold Interpreter.Interpret at h
    split at h
    · cases h
    · rename_i pe i1 heq
      exact hno pe i1 heq
    · cases h
    · cases h
  · intro v i' h
    unfold Interpreter.Interpret
    rw [h]
    cases v with
    | valParseError e => exact absurd h (hno e i')
    | _ => rfl

end InterpreterPanics
section ParserPanics

variable {F : Type}

namespace Parser

theorem peek_ensures : (peek : Exec F (Parser F) (Token F)).Ensures (fun _ => True) := by
  refine ⟨?_, fun _ _ _ _ => trivial⟩
  intro s e s' h
  unfold peek at h
  split at h <;> cases h

theorem previous_ensures : (previous : Exec F (Parser F) (Token F)).Ensures (fun _ => True) := by
  refine ⟨?_, fun _ _ _ _ => trivial⟩
  intro s e s' h
  unfold previous at h
  split at h
  · cases h
  · split at h <;> cases h

theorem isAtEnd_ensures : (isAtEnd : Exec F (Parser F) Bool).Ensures (fun _ => True) := by
  unfold isAtEnd
  exact Exec.ensures_bind peek_ensures (fun _ _ => Exec.ensures_pure trivial)

theorem advance_ensures : (advance : Exec F (Parser F) (Token F)).Ensures (fun _ => True) := by
  unfold advance
  refine Exec.ensures_bind isAtEnd_ensures (fun b _ => ?_)
  split
  · exact Exec.ensures_bind (Exec.ensures_modify _) (fun _ _ => previous_ensures)
  · exact Exec.ensures_bind (M := fun _ => True) (Exec.ensures_pure trivial)
      (fun _ _ => previous_ensures)

theorem check_ensures (t : TokenType) :
    (check t : Exec F (Parser F) Bool).Ensures (fun _ => True) := by
  unfold check
  refine Exec.ensures_bind isAtEnd_ensures (fun b _ => ?_)
  split
  · exact Exec.ensures_pure trivial
  · exact Exec.ensures_bind peek_ensures (fun _ _ => Exec.ensures_pure trivial)

theorem match_ensures : ∀ ts : List TokenType,
    (match_ ts : Exec F (Parser F) Bool).Ensures (fun _ => True) := by
  intro ts
  induction ts with
  | nil =>
    simp only [match_]
    exact Exec.ensures_pure trivial
  | cons t ts ih =>
    simp only [match_]
    refine Exec.ensures_bind (check_ensures t) (fun b _ => ?_)
    split
    · exact Exec.ensures_bind advance_ensures (fun _ _ => Exec.ensures_pure trivial)
    · exact ih

theorem consume_ensures (t : TokenType) (message : String) :
    (consume t message : Exec F (Parser F) (Token F)).Ensures (fun _ => True) := by
  unfold consume
  refine Exec.ensures_bind (check_ensures t) (fun b _ => ?_)
  split
  · exact advance_ensures
  · exact Exec.ensures_bind peek_ensures (fun _ _ => Exec.ensures_panic_ptr _)

/-- No rule of the grammar panics with a `ParseError` held by value, and none returns a
`VariableExpr` held by value or an `AssignExpr`. -/
theorem rules_ensure : ∀ n : Nat,
    (expression n : Exec F (Parser F) (Expr F)).Ensures Expr.plain ∧
    (assignment n : Exec F (Parser F) (Expr F)).Ensures Expr.plain ∧
    (equality n : Exec F (Parser F) (Expr F)).Ensures Expr.plain ∧
    (∀ e : Expr F, e.plain → (equalityLoop n e).Ensures Expr.plain) ∧
    (comparison n : Exec F (Parser F) (Expr F)).Ensures Expr.plain ∧
    (∀ e : Expr F, e.plain → (comparisonLoop n e).Ensures Expr.plain) ∧
    (term n : Exec F (Parser F) (Expr F)).Ensures Expr.plain ∧
    (∀ e : Expr F, e.plain → (termLoop n e).Ensures Expr.plain) ∧
    (factor n : Exec F (Parser F) (Expr F)).Ensures Expr.plain ∧
    (∀ e : Expr F, e.plain → (factorLoop n e).Ensures Expr.plain) ∧
    (unary n : Exec F (Parser F) (Expr F)).Ensures Expr.plain ∧
    (primary n : Exec F (Parser F) (Expr F)).Ensures Expr.plain := by
  intro n
  induction n with
  | zero =>
    refine ⟨?_, ?_, ?_, fun e _ => ?_, ?_, fun e _ => ?_, ?_, fun e _ => ?_, ?_,
      fun e _ => ?_, ?_, ?_⟩
    all_goals first
      | (simp only [expression]; exact Exec.ensures_outOfFuel)
      | (simp only [assignment]; exact Exec.ensures_outOfFuel)
      | (simp only [equality]; exact Exec.ensures_outOfFuel)
      | (simp only [equalityLoop]; exact Exec.ensures_outOfFuel)
      | (simp only [comparison]; exact Exec.ensures_outOfFuel)
      | (simp only [comparisonLoop]; exact Exec.ensures_outOfFuel)
      | (simp only [term]; exact Exec.ensures_outOfFuel)
      | (simp only [termLoop]; exact Exec.ensures_outOfFuel)
      | (simp only [factor]; exact Exec.ensures_outOfFuel)
      | (simp only [factorLoop]; exact Exec.ensures_outOfFuel)
      | (simp only [unary]; exact Exec.ensures_outOfFuel)
      | (simp only [primary]; exact Exec.ensures_outOfFuel)
  | succ n ih =>
    obtain ⟨hexpr, hassign, heq, heqL, hcmp, hcmpL, hterm, htermL, hfac, hfacL, hun, hprim⟩ := ih
    refine ⟨?_, ?_, ?_, fun e he => ?_, ?_, fun e he => ?_, ?_, fun e he => ?_, ?_,
      fun e he => ?_, ?_, ?_⟩
    · simp only [expression]
      exact hassign
    · simp only [assignment]
      refine Exec.ensures_bind heq (fun expr hplain => ?_)
      refine Exec.ensures_bind (match_ensures _) (fun b _ => ?_)
      split
      · refine Exec.ensures_bind previous_ensures (fun equals _ => ?_)
        refine Exec.ensures_bind hassign (fun value _ => ?_)
        split
        · exact hplain.elim
        · exact Exec.ensures_bind (Exec.ensures_modify _)
            (fun _ _ => Exec.ensures_pure hplain)
      · exact Exec.ensures_pure hplain
    · simp only [equality]
      exact Exec.ensures_bind hcmp (fun expr hplain => heqL expr hplain)
    · simp only [equalityLoop]
      refine Exec.ensures_bind (match_ensures _) (fun b _ => ?_)
      split
      · refine Exec.ensures_bind previous_ensures (fun operator _ => ?_)
        exact Exec.ensures_bind hcmp (fun right _ => heqL _ trivial)
      · exact Exec.ensures_pure he
    · simp only [comparison]
      exact Exec.ensures_bind hterm (fun expr hplain => hcmpL expr hplain)
    · simp only [comparisonLoop]
      refine Exec.ensures_bind (match_ensures _) (fun b _ => ?_)
      split
      · refine Exec.ensures_bind previous_ensures (fun operator _ => ?_)
        exact Exec.ensures_bind hterm (fun right _ => hcmpL _ trivial)
      · exact Exec.ensures_pure he
    · simp only [term]
      exact Exec.ensures_bind hfac (fun expr hplain => htermL expr hplain)
    · simp only [termLoop]
      refine Exec.ensures_bind (match_ensures _) (fun b _ => ?_)
      split
      · refine Exec.ensures_bind previous_ensures (fun operator _ => ?_)
        exact Exec.ensures_bind hfac (fun right _ => htermL _ trivial)
      · exact Exec.ensures_pure he
    · simp only [factor]
      exact Exec.ensures_bind hun (fun expr hplain => hfacL expr hplain)
    · simp only [factorLoop]
      refine Exec.ensures_bind (match_ensures _) (fun b _ => ?_)
      split
      · refine Exec.ensures_bind previous_ensures (fun operator _ => ?_)
        exact Exec.ensures_bind hun (fun right _ => hfacL _ trivial)
      · exact Exec.ensures_pure he
    · simp only [unary]
      refine Exec.ensures_bind (match_ensures _) (fun b _ => ?_)
      split
      · refine Exec.ensures_bind previous_ensures (fun operator _ => ?_)
        exact Exec.ensures_bind hun (fun right _ => Exec.ensures_pure trivial)
      · exact hprim
    · simp only [primary]
      refine Exec.ensures_bind (match_ensures _) (fun b _ => ?_)
      split
      · exact Exec.ensures_pure trivial
      refine Exec.ensures_bind (match_ensures _) (fun b _ => ?_)
      split
      · exact Exec.ensures_pure trivial
      refine Exec.ensures_bind (match_ensures _) (fun b _ => ?_)
      split
      · exact Exec.ensures_pure trivial
      refine Exec.ensures_bind (match_ensures _) (fun b _ => ?_)
      split
      · exact Exec.ensures_bind previous_ensures (fun _ _ => Exec.ensures_pure trivial)
      refine Exec.ensures_bind (match_ensures _) (fun b _ => ?_)
      split
      · exact Exec.ensures_bind previous_ensures (fun _ _ => Exec.ensures_pure trivial)
      refine Exec.ensures_bind (match_ensures _) (fun b _ => ?_)
      split
      · refine Exec.ensures_bind hexpr (fun expr _ => ?_)
        exact Exec.ensures_bind (consume_ensures _ _) (fun _ _ => Exec.ensures_pure trivial)
      · refine Exec.ensures_bind peek_ensures (fun _ _ => ?_)
        refine Exec.ensures_bind peek_ensures (fun _ _ => ?_)
        exact Exec.ensures_bind (Exec.ensures_modify _) (fun _ _ => Exec.ensures_panic_ptr _)

end Parser

end ParserPanics
section ParserRecovery

variable {F : Type}

namespace Parser

/-- The defect behind C3, for every token list and cursor: whatever `assignment` returns
is not an `Assign` node. -/
theorem assignment_never_assign (fuel : Nat) (p p' : Parser F) (e : Expr F)
    (h : assignment fuel p = .ok e p') : ∀ name value, e ≠ .Assign name value := by
  intro name value he
  have hplain := (rules_ensure (F := F) fuel).2.1.2 p e p' h
  rw [he] at hplain
  exact hplain

theorem expressionStatement_ensures (fuel : Nat) :
    (expressionStatement fuel : Exec F (Parser F) (Stmt F)).Ensures (fun _ => True) := by
  unfold expressionStatement
  refine Exec.ensures_bind (rules_ensure fuel).1 (fun _ _ => ?_)
  exact Exec.ensures_bind (consume_ensures _ _) (fun _ _ => Exec.ensures_pure trivial)

theorem printStatement_ensures (fuel : Nat) :
    (printStatement fuel : Exec F (Parser F) (Stmt F)).Ensures (fun _ => True) := by
  unfold printStatement
  refine Exec.ensures_bind (rules_ensure fuel).1 (fun _ _ => ?_)
  exact Exec.ensures_bind (consume_ensures _ _) (fun _ _ => Exec.ensures_pure trivial)

theorem varDeclaration_ensures (fuel : Nat) :
    (varDeclaration fuel : Exec F (Parser F) (Stmt F)).Ensures (fun _ => True) := by
  unfold varDeclaration
  refine Exec.ensures_bind (consume_ensures _ _) (fun _ _ => ?_)
  refine Exec.ensures_bind (M := fun _ => True) ?_ (fun _ _ => ?_)
  · refine Exec.ensures_bind (match_ensures _) (fun b _ => ?_)
    split
    · exact Exec.ensures_bind (rules_ensure fuel).1 (fun _ _ => Exec.ensures_pure trivial)
    · exact Exec.ensures_pure trivial
  · exact Exec.ensures_bind (consume_ensures _ _) (fun _ _ => Exec.ensures_pure trivial)

theorem statement_ensures (fuel : Nat) :
    (statement fuel : Exec F (Parser F) (Stmt F)).Ensures (fun _ => True) := by
  unfold statement
  refine Exec.ensures_bind (match_ensures _) (fun b _ => ?_)
  split
  · exact printStatement_ensures fuel
  · exact expressionStatement_ensures fuel

/-- The defect behind C1, for every token list and cursor: `declaration` never takes its
recovery path. It never returns the nil statement, and whatever panic its body raises
leaves it as a panic. -/
theorem declaration_never_recovers (fuel : Nat) (p : Parser F) :
    (∀ p', declaration fuel p ≠ .ok none p') ∧
    (∀ v p', (do
        if (← match_ [.VAR]) then
          varDeclaration fuel
        else
          statement fuel : Exec F (Parser F) (Stmt F)) p = .panic v p' →
      declaration fuel p = .panic v p') := by
  have hbody : (do
      if (← match_ [.VAR]) then
        varDeclaration fuel
      else
        statement fuel : Exec F (Parser F) (Stmt F)).Ensures (fun _ => True) := by
    refine Exec.ensures_bind (match_ensures _) (fun b _ => ?_)
    split
    · exact varDeclaration_ensures fuel
    · exact statement_ensures fuel
  constructor
  · intro p' h
    unfold declaration at h
    split at h
    · cases h
    · rename_i parseErr p1 heq
      exact hbody.1 p parseErr p1 heq
    · cases h
    · cases h
  · intro v p' h
    unfold declaration
    rw [h]
    cases v with
    | valParseError e => exact absurd h (hbody.1 p e p')
    | _ => rfl

end Parser

end ParserRecovery

/-! ## The operators of the interpreter -/

section Operators

variable {F : Type}

/-- C12. Binary `+` never coerces. When the operands evaluate to `l` and `r`, the
evaluation of `Binary(l, +, r)` yields the concatenation when both are strings, the number
`l + r` when both are numbers, and in every other case panics with the `*ParseError` of
`NewRuntimeError` that carries the operator token and the message
"operands must be numbers.". -/
theorem Interpreter.plus_never_coerces (G : GoFloat F) (op : Token F) (el er : Expr F)
    (l r : Value F) (i i1 i2 : Interpreter F) (hop : op.TokenType = .PLUS)
    (hl : Interpreter.evaluate G el i = .ok l i1)
    (hr : Interpreter.evaluate G er i1 = .ok r i2) :
    Interpreter.evaluate G (.Binary el op er) i =
      match l, r with
      | .str a, .str b => .ok (.str (a ++ b)) i2
      | .number a, .number b => .ok (.number (G.add a b)) i2
      | _, _ => .panic (.ptrParseError ⟨op, "operands must be numbers."⟩) i2 := by
  simp only [Interpreter.evaluate]
  rw [Exec.bind_ok hl, Exec.bind_ok hr]
  unfold Interpreter.binaryOp
  rw [hop]
  cases l <;> cases r <;> rfl

/-- C12, at concrete inputs: `"a" + "b"` yields `ab`, and `1 + "a"` faults. -/
theorem Interpreter.plus_never_coerces_witness :
    ((tok .PLUS "+").TokenType = .PLUS ∧
      Interpreter.evaluate ratFloat (.Literal (.str "a")) NewInterpreter =
        .ok (.str "a") NewInterpreter ∧
      Interpreter.evaluate ratFloat (.Literal (.str "b")) NewInterpreter =
        .ok (.str "b") NewInterpreter) ∧
    Interpreter.evaluate ratFloat
        (.Binary (.Literal (.str "a")) (tok .PLUS "+") (.Literal (.str "b"))) NewInterpreter =
      .ok (.str "ab") NewInterpreter ∧
    Interpreter.evaluate ratFloat
        (.Binary (.Literal (.number 1)) (tok .PLUS "+") (.Literal (.str "a"))) NewInterpreter =
      .panic (.ptrParseError ⟨tok .PLUS "+", "operands must be numbers."⟩) NewInterpreter :=
  ⟨⟨rfl, rfl, rfl⟩,
    Interpreter.plus_never_coerces ratFloat (tok .PLUS "+") (.Literal (.str "a"))
      (.Literal (.str "b")) (.str "a") (.str "b") NewInterpreter NewInterpreter NewInterpreter
      rfl rfl rfl,
    Interpreter.plus_never_coerces ratFloat (tok .PLUS "+") (.Literal (.number 1))
      (.Literal (.str "a")) (.number 1) (.str "a") NewInterpreter NewInterpreter NewInterpreter
      rfl rfl rfl⟩

/-- C13. When the operand evaluates to a value that is not a number, the evaluation of
`Unary(-, operand)` panics with the runtime error of the failed type assertion
`right.(float64)`: `VisitUnaryExpr` has no operand check, and the panic value is not a
`*ParseError`, carries no token and no message. -/
theorem Interpreter.minus_operand_not_number (G : GoFloat F) (op : Token F) (e : Expr F)
    (v : Value F) (i i1 : Interpreter F) (hop : op.TokenType = .MINUS)
    (hv : v.kind ≠ .number) (he : Interpreter.evaluate G e i = .ok v i1) :
    Interpreter.evaluate G (.Unary op e) i = .panic .interfaceConversion i1 := by
  simp only [Interpreter.evaluate]
  rw [Exec.bind_ok he]
  unfold Interpreter.unaryOp
  rw [hop]
  cases v with
  | number x => exact absurd rfl hv
  | _ => rfl

/-- C13, at a concrete input: `-nil` panics with the runtime error of the type assertion. -/
theorem Interpreter.minus_operand_witness :
    ((tok .MINUS "-").TokenType = .MINUS ∧ (Value.nil : Value ℚ).kind ≠ .number ∧
      Interpreter.evaluate ratFloat (.Literal .nil) NewInterpreter = .ok .nil NewInterpreter) ∧
    Interpreter.evaluate ratFloat (.Unary (tok .MINUS "-") (.Literal .nil)) NewInterpreter =
      .panic .interfaceConversion NewInterpreter :=
  ⟨⟨rfl, by decide, rfl⟩,
    Interpreter.minus_operand_not_number ratFloat (tok .MINUS "-") (.Literal .nil) .nil
      NewInterpreter NewInterpreter rfl (by decide) rfl⟩

/-- C14. Equality is total and never coerces. When the operands evaluate to `l` and `r`,
the evaluation of `Binary(l, ==, r)` yields a boolean `b` and that of `Binary(l, !=, r)`
yields its negation, neither raises a fault, nil is equal to nil and to nothing else in
either position, and two values of different dynamic types are not equal. -/
theorem Interpreter.equality_total (G : GoFloat F) (eq ne : Token F) (el er : Expr F)
    (l r : Value F) (i i1 i2 : Interpreter F) (heq : eq.TokenType = .EQUAL_EQUAL)
    (hne : ne.TokenType = .BANG_EQUAL) (hl : Interpreter.evaluate G el i = .ok l i1)
    (hr : Interpreter.evaluate G er i1 = .ok r i2) :
    Interpreter.evaluate G (.Binary el eq er) i = .ok (.bool (isEqual G l r)) i2 ∧
    Interpreter.evaluate G (.Binary el ne er) i = .ok (.bool (!isEqual G l r)) i2 ∧
    (l = .nil → (isEqual G l r = true ↔ r = .nil)) ∧
    (r = .nil → (isEqual G l r = true ↔ l = .nil)) ∧
    (l.kind ≠ r.kind → isEqual G l r = false) := by
  refine ⟨?_, ?_, ?_, ?_, ?_⟩
  · simp only [Interpreter.evaluate]
    rw [Exec.bind_ok hl, Exec.bind_ok hr]
    unfold Interpreter.binaryOp
    rw [heq]
    rfl
  · simp only [Interpreter.evaluate]
    rw [Exec.bind_ok hl, Exec.bind_ok hr]
    unfold Interpreter.binaryOp
    rw [hne]
    rfl
  · intro h
    subst h
    cases r <;> simp [isEqual, Value.isNil]
  · intro h
    subst h
    cases l <;> simp [isEqual, Value.isNil, interfaceEq]
  · intro h
    cases l <;> cases r <;> first | exact absurd rfl h | rfl

/-- C14, at concrete inputs: `nil == false` is false and `"1" == 1` is false. -/
theorem Interpreter.equality_total_witness :
    ((tok .EQUAL_EQUAL "==").TokenType = .EQUAL_EQUAL ∧
      (tok .BANG_EQUAL "!=").TokenType = .BANG_EQUAL) ∧
    (Interpreter.evaluate ratFloat
        (.Binary (.Literal .nil) (tok .EQUAL_EQUAL "==") (.Literal (.bool false)))
        NewInterpreter = .ok (.bool (isEqual ratFloat .nil (.bool false))) NewInterpreter ∧
      isEqual ratFloat .nil (.bool false) = false) ∧
    (Interpreter.evaluate ratFloat
        (.Binary (.Literal (.str "1")) (tok .EQUAL_EQUAL "==") (.Literal (.number 1)))
        NewInterpreter = .ok (.bool (isEqual ratFloat (.str "1") (.number 1))) NewInterpreter ∧
      isEqual ratFloat (.str "1") (.number 1) = false) :=
  ⟨⟨rfl, rfl⟩,
    ⟨(Interpreter.equality_total ratFloat (tok .EQUAL_EQUAL "==") (tok .BANG_EQUAL "!=")
        (.Literal .nil) (.Literal (.bool false)) .nil (.bool false) NewInterpreter
        NewInterpreter NewInterpreter rfl rfl rfl rfl).1, rfl⟩,
    ⟨(Interpreter.equality_total ratFloat (tok .EQUAL_EQUAL "==") (tok .BANG_EQUAL "!=")
        (.Literal (.str "1")) (.Literal (.number 1)) (.str "1") (.number 1) NewInterpreter
        NewInterpreter NewInterpreter rfl rfl rfl rfl).1, rfl⟩⟩

/-- C15. The numeric-operand check. For an operator among `-`, `/`, `*`, `>`, `>=`, `<`,
`<=`, when the operands evaluate to `l` and `r`, the evaluation of `Binary(l, op, r)`
yields the number (for `-`, `/`, `*`) or the boolean (for the comparisons) of the operator
when both are numbers, and raises nothing; otherwise it panics with the `*ParseError` of
`NewRuntimeError` that carries the operator token and the message
"operands must be numbers.". -/
theorem Interpreter.numeric_operands (G : GoFloat F) (op : Token F) (el er : Expr F)
    (l r : Value F) (i i1 i2 : Interpreter F)
    (hop : op.TokenType ∈ [TokenType.MINUS, .SLASH, .STAR, .GREATER, .GREATER_EQUAL, .LESS,
      .LESS_EQUAL])
    (hl : Interpreter.evaluate G el i = .ok l i1)
    (hr : Interpreter.evaluate G er i1 = .ok r i2) :
    Interpreter.evaluate G (.Binary el op er) i =
      match l, r with
      | .number a, .number b =>
        .ok (match op.TokenType with
          | .MINUS => .number (G.sub a b)
          | .SLASH => .number (G.quo a b)
          | .STAR => .number (G.mul a b)
          | .GREATER => .bool (G.gt a b)
          | .GREATER_EQUAL => .bool (G.ge a b)
          | .LESS => .bool (G.lt a b)
          | _ => .bool (G.le a b)) i2
      | _, _ => .panic (.ptrParseError ⟨op, "operands must be numbers."⟩) i2 := by
  simp only [Interpreter.evaluate]
  rw [Exec.bind_ok hl, Exec.bind_ok hr]
  unfold Interpreter.binaryOp
  simp only [List.mem_cons, List.mem_singleton, List.not_mem_nil, or_false] at hop
  rcases hop with h | h | h | h | h | h | h <;> rw [h] <;> cases l <;> cases r <;> rfl

/-- C15, at concrete inputs: `3 - 1` yields the number of the subtraction, `1 < 2` the boolean
of the comparison, and `1 * "a"` faults. -/
theorem Interpreter.numeric_operands_witness :
    ((tok .MINUS "-").TokenType ∈ [TokenType.MINUS, .SLASH, .STAR, .GREATER, .GREATER_EQUAL,
        .LESS, .LESS_EQUAL] ∧
      Interpreter.evaluate ratFloat (.Literal (.number 3)) NewInterpreter =
        .ok (.number 3) NewInterpreter ∧
      Interpreter.evaluate ratFloat (.Literal (.number 1)) NewInterpreter =
        .ok (.number 1) NewInterpreter) ∧
    Interpreter.evaluate ratFloat
        (.Binary (.Literal (.number 3)) (tok .MINUS "-") (.Literal (.number 1)))
        NewInterpreter = .ok (.number (ratFloat.sub 3 1)) NewInterpreter ∧
    Interpreter.evaluate ratFloat
        (.Binary (.Literal (.number 1)) (tok .LESS "<") (.Literal (.number 2)))
        NewInterpreter = .ok (.bool (ratFloat.lt 1 2)) NewInterpreter ∧
    Interpreter.evaluate ratFloat
        (.Binary (.Literal (.number 1)) (tok .STAR "*") (.Literal (.str "a")))
        NewInterpreter =
      .panic (.ptrParseError ⟨tok .STAR "*", "operands must be numbers."⟩) NewInterpreter :=
  ⟨⟨by decide, rfl, rfl⟩,
    Interpreter.numeric_operands ratFloat (tok .MINUS "-") (.Literal (.number 3))
      (.Literal (.number 1)) (.number 3) (.number 1) NewInterpreter NewInterpreter
      NewInterpreter (by decide) rfl rfl,
    Interpreter.numeric_operands ratFloat (tok .LESS "<") (.Literal (.number 1))
      (.Literal (.number 2)) (.number 1) (.number 2) NewInterpreter NewInterpreter
      NewInterpreter (by decide) rfl rfl,
    Interpreter.numeric_operands ratFloat (tok .STAR "*") (.Literal (.number 1))
      (.Literal (.str "a")) (.number 1) (.str "a") NewInterpreter NewInterpreter
      NewInterpreter (by decide) rfl rfl⟩

/-- C16. Truthiness and logical not. When the operand evaluates to `v`, the evaluation of
`Unary(!, v)` raises nothing and yields true exactly when `v` is nil or the boolean false,
and false for every other value, the number 0 and the empty string included. -/
theorem Interpreter.bang_truthiness (G : GoFloat F) (op : Token F) (e : Expr F)
    (v : Value F) (i i1 : Interpreter F) (hop : op.TokenType = .BANG)
    (he : Interpreter.evaluate G e i = .ok v i1) :
    Interpreter.evaluate G (.Unary op e) i =
      .ok (.bool (match v with
        | .nil => true
        | .bool false => true
        | _ => false)) i1 := by
  simp only [Interpreter.evaluate]
  rw [Exec.bind_ok he]
  unfold Interpreter.unaryOp
  rw [hop]
  cases v with
  | bool b => cases b <;> rfl
  | _ => rfl

/-- C16, at concrete inputs: `!nil` is true, `!0` is false and `!""` is false. -/
theorem Interpreter.bang_truthiness_witness :
    ((tok .BANG "!").TokenType = .BANG ∧
      Interpreter.evaluate ratFloat (.Literal .nil) NewInterpreter = .ok .nil NewInterpreter) ∧
    Interpreter.evaluate ratFloat (.Unary (tok .BANG "!") (.Literal .nil)) NewInterpreter =
      .ok (.bool true) NewInterpreter ∧
    Interpreter.evaluate ratFloat (.Unary (tok .BANG "!") (.Literal (.number 0)))
        NewInterpreter = .ok (.bool false) NewInterpreter ∧
    Interpreter.evaluate ratFloat (.Unary (tok .BANG "!") (.Literal (.str "")))
        NewInterpreter = .ok (.bool false) NewInterpreter :=
  ⟨⟨rfl, rfl⟩,
    Interpreter.bang_truthiness ratFloat (tok .BANG "!") (.Literal .nil) .nil NewInterpreter
      NewInterpreter rfl rfl,
    Interpreter.bang_truthiness ratFloat (tok .BANG "!") (.Literal (.number 0)) (.number 0)
      NewInterpreter NewInterpreter rfl rfl,
    Interpreter.bang_truthiness ratFloat (tok .BANG "!") (.Literal (.str "")) (.str "")
      NewInterpreter NewInterpreter rfl rfl⟩

end Operators

/-! ## The error flag of the scanner -/

/-- The defect behind C11, for every source: the flag that `ScanTokens` returns is
false. -/
theorem Scanner.scanTokens_flag_false {F : Type} (G : GoFloat F) (src : List Char) :
    ∃ (tokens : List (Token F)) (final : Scanner F),
      Scanner.ScanTokens G (NewScanner src) = .ok (tokens, false) final := by
  obtain ⟨b, s1, h1, _, _⟩ := Scanner.scanLoop_spec G src src.length (NewScanner src) false
    (Scanner.Scanned.fresh src) (by show src.length - 0 ≤ src.length; omega)
  refine ⟨s1.tokens ++ [NewToken .EOF "" .nil s1.line],
    { s1 with tokens := s1.tokens ++ [NewToken .EOF "" .nil s1.line] }, ?_⟩
  unfold Scanner.ScanTokens
  rw [Exec.bind_ok (show Exec.get (NewScanner src) = .ok _ _ from rfl),
    Exec.bind_ok (show Scanner.scanLoop G (NewScanner src : Scanner F).source.length false
      (NewScanner src) = .ok b s1 from h1),
    Exec.bind_ok (show Exec.modify _ s1 = .ok () _ from rfl),
    Exec.bind_ok (show Exec.get _ = .ok _ _ from rfl), Exec.pure_apply]

/-- C11. On the source `@` the scanner reports the lexical error
"unexpected character @" on line 1 and returns the flag false: the loop sets its local
`hadErrors` to true, and the `return` statement returns the literal `false`. -/
theorem Scanner.scan_unexpected_flag :
    Scanner.ScanTokens ratFloat (NewScanner "@".data) =
      .ok ([tok .EOF ""], false)
        ⟨"@".data, [tok .EOF ""], 0, 1, 1, [.report 1 "" "unexpected character @"]⟩ ∧
    Scanner.scanLoop ratFloat 1 false (NewScanner "@".data) =
      .ok true ⟨"@".data, [], 0, 1, 1, [.report 1 "" "unexpected character @"]⟩ := by
  decide!

/-! ## Resynchronization -/

/-- C19. Started at the first token of `+ + print 1 ; print 2 ;`, `synchronize` stops with
the cursor at 5, on the second `print`, after the `;`: at the first `print` the `switch`
takes the empty `case lexer.PRINT:`, which does not fall through to the `return` of
`case lexer.RETURN:`, and the loop advances. -/
theorem Parser.synchronize_skips_print :
    Parser.synchronize (10 * resyncTokens.length + 20) (NewParser resyncTokens) =
      .ok () ⟨resyncTokens, 5, []⟩ := by
  decide!

/-! ## Identifiers and keywords -/

section Words

variable {F : Type}

namespace Scanner

theorem isDigit_of_isAlpha (c : Char) (h : isAlpha c = true) : isDigit c = false := by
  simp only [isAlpha, isDigit, Char.le_def, UInt32.le_def, BitVec.le_def, Bool.or_eq_true,
    Bool.and_eq_true, decide_eq_true_eq, Bool.and_eq_false_imp, decide_eq_false_iff_not] at h ⊢
  have e1 : 'a'.val.toBitVec.toNat = 97 := rfl
  have e2 : '9'.val.toBitVec.toNat = 57 := rfl
  have e3 : 'A'.val.toBitVec.toNat = 65 := rfl
  rcases h with (h | h) | h
  · intro _
    omega
  · intro _
    omega
  · subst h
    decide

/-- A letter or an underscore is none of the bytes that `scanToken` tests before
`isDigit` and `isAlpha`. -/
theorem isAlpha_ne_special (c : Char) (h : isAlpha c = true) :
    ∀ x ∈ ['(', ')', Char.ofNat 123, Char.ofNat 125, ',', '.', '-', '+', ';', '*', '!', '=',
      '<', '>', '/', Char.ofNat 10, ' ', Char.ofNat 13, Char.ofNat 9, Char.ofNat 34],
      c ≠ x := by
  intro x hx heq
  subst heq
  have hall : ∀ y ∈ ['(', ')', Char.ofNat 123, Char.ofNat 125, ',', '.', '-', '+', ';', '*',
      '!', '=', '<', '>', '/', Char.ofNat 10, ' ', Char.ofNat 13, Char.ofNat 9, Char.ofNat 34],
      isAlpha y = false := by decide
  rw [hall c hx] at h
  cases h

theorem isAlphaNumeric_ne_newline (c : Char) (h : isAlphaNumeric c = true) :
    c ≠ Char.ofNat 10 := by
  intro heq
  subst heq
  exact absurd h (by decide)

/-- On a word, `identifier` takes the cursor to the end and adds the one token. -/
theorem identifier_word (c : Char) (cs : List Char)
    (hcs : ∀ x ∈ cs, isAlphaNumeric x = true) :
    identifier (⟨c :: cs, [], 0, 1, 1, []⟩ : Scanner F) =
      .ok none ⟨c :: cs,
        [NewToken ((keywords (String.mk (c :: cs))).getD .IDENTIFIER) (String.mk (c :: cs))
          .nil 1], 0, cs.length + 1, 1, []⟩ := by
  obtain ⟨s2, h2, hm2, ht2, hc2⟩ := skipLoop_spec (F := F) (fun s => isAlphaNumeric s.peek)
    isAlphaNumeric_cond ⟨c :: cs, [], 0, 1, 1, []⟩
    (by show 1 ≤ (c :: cs).length; simp)
  have hsrc : s2.source = c :: cs := hm2.source_eq
  have hcur : s2.current = cs.length + 1 := by
    have hle := hm2.current_le
    rw [hsrc] at hle
    have hge : 1 ≤ s2.current := hm2.current_ge
    by_contra hne
    have hlt : s2.current < (c :: cs).length := by
      simp only [List.length_cons] at hle ⊢
      omega
    obtain ⟨x, hx⟩ := getElem?_of_lt (s := s2) (by rw [hsrc]; exact hlt)
    have hp := peek_eq hx
    have hmem : x ∈ cs := by
      rw [hsrc] at hx
      obtain ⟨k, hk⟩ : ∃ k, s2.current = k + 1 := ⟨s2.current - 1, by omega⟩
      rw [hk, List.getElem?_cons_succ] at hx
      exact List.getElem?_mem hx
    have := hcs x hmem
    simp only [hp, this] at hc2
    cases hc2
  have hnl : newlines cs = 0 := by
    unfold newlines
    rw [List.count_eq_zero]
    intro hmem
    exact isAlphaNumeric_ne_newline _ (hcs _ hmem) rfl
  have hline : s2.line = 1 := by
    have h := hm2.line_eq
    rw [hsrc, hcur] at h
    have hd : List.drop (cs.length + 1) (c :: cs) = [] :=
      List.drop_eq_nil_of_le (by simp)
    rw [hd] at h
    have h1 : newlines (List.drop 1 (c :: cs)) = 0 := by
      rw [List.drop_succ_cons, List.drop_zero]
      exact hnl
    have h' : s2.line + newlines ([] : List Char) = 1 + newlines (List.drop 1 (c :: cs)) := h
    rw [h1] at h'
    simpa [newlines] using h'
  have hs2 : s2 = ⟨c :: cs, [], 0, cs.length + 1, 1, []⟩ := by
    obtain ⟨src, toks, st, cur, ln, out⟩ := s2
    have h3 : st = 0 := hm2.start_eq
    have h4 : out = [] := hm2.stdout_eq
    have h5 : toks = [] := ht2
    simp only at hsrc hcur hline
    subst hsrc hcur hline h3 h4 h5
    rfl
  subst hs2
  have hslice : slice 0 (cs.length + 1) (⟨c :: cs, [], 0, cs.length + 1, 1, []⟩ : Scanner F) =
      .ok (String.mk (c :: cs)) ⟨c :: cs, [], 0, cs.length + 1, 1, []⟩ := by
    simp only [slice, List.length_cons, Nat.zero_le, Nat.le_refl, and_self, if_true,
      List.drop_zero, Nat.sub_zero]
    rw [show List.take (cs.length + 1) (c :: cs) = c :: cs from
      List.take_of_length_le (by simp)]
  unfold identifier
  rw [Exec.bind_ok (show Exec.get _ = .ok _ _ from rfl), Exec.bind_ok h2,
    Exec.bind_ok (show Exec.get _ = .ok _ _ from rfl), Exec.bind_ok hslice]
  have hadd : ∀ t : TokenType,
      addToken t (⟨c :: cs, [], 0, cs.length + 1, 1, []⟩ : Scanner F) =
        .ok () ⟨c :: cs, [NewToken t (String.mk (c :: cs)) .nil 1], 0, cs.length + 1, 1, []⟩ := by
    intro t
    unfold addToken addTokenWithLiteral
    rw [Exec.bind_ok (show Exec.get _ = .ok _ _ from rfl), Exec.bind_ok hslice]
    rfl
  cases hk : keywords (String.mk (c :: cs)) with
  | some tokenType =>
    dsimp only
    rw [Exec.bind_ok (hadd tokenType)]
    rfl
  | none =>
    dsimp only
    rw [Exec.bind_ok (hadd .IDENTIFIER)]
    rfl

/-- C18. For every source that is one word, a letter or underscore followed by letters,
digits and underscores, `ScanTokens` yields the one token with that lexeme, on line 1 and
without literal, followed by EOF. The kind of the token is what the table `keywords`
holds for the word, and IDENTIFIER when the word is not a key of the table. -/
theorem scan_word (G : GoFloat F) (c : Char) (cs : List Char) (hc : isAlpha c = true)
    (hcs : ∀ x ∈ cs, isAlphaNumeric x = true) :
    (∃ final : Scanner F,
      ScanTokens G (NewScanner (c :: cs)) =
        .ok ([NewToken ((keywords (String.mk (c :: cs))).getD .IDENTIFIER)
            (String.mk (c :: cs)) .nil 1, NewToken .EOF "" .nil 1], false) final) ∧
    (∀ kind, (String.mk (c :: cs), kind) ∈ keywordTable →
      (keywords (String.mk (c :: cs))).getD .IDENTIFIER = kind) ∧
    (String.mk (c :: cs) ∉ keywordTable.map Prod.fst →
      (keywords (String.mk (c :: cs))).getD .IDENTIFIER = .IDENTIFIER) := by
  refine ⟨?_, ?_, ?_⟩
  · have hsp := isAlpha_ne_special c hc
    have htoken : scanToken G (⟨c :: cs, [], 0, 0, 1, []⟩ : Scanner F) =
        .ok none ⟨c :: cs,
          [NewToken ((keywords (String.mk (c :: cs))).getD .IDENTIFIER) (String.mk (c :: cs))
            .nil 1], 0, cs.length + 1, 1, []⟩ := by
      unfold scanToken
      rw [Exec.bind_ok (advance_ok (c := c) (show (c :: cs)[0]? = some c by simp))]
      rw [if_neg (hsp _ (by simp)), if_neg (hsp _ (by simp)), if_neg (hsp _ (by simp)),
        if_neg (hsp _ (by simp)), if_neg (hsp _ (by simp)), if_neg (hsp _ (by simp)),
        if_neg (hsp _ (by simp)), if_neg (hsp _ (by simp)), if_neg (hsp _ (by simp)),
        if_neg (hsp _ (by simp)), if_neg (hsp _ (by simp)), if_neg (hsp _ (by simp)),
        if_neg (hsp _ (by simp)), if_neg (hsp _ (by simp)), if_neg (hsp _ (by simp)),
        if_neg (hsp _ (by simp)), if_neg (hsp _ (by simp)), if_neg (hsp _ (by simp)),
        if_neg (hsp _ (by simp)), if_neg (hsp _ (by simp)),
        if_neg (by rw [isDigit_of_isAlpha c hc]; simp), if_pos hc,
        Exec.bind_ok (identifier_word c cs hcs)]
      rfl
    have hloop : scanLoop G (cs.length + 1) false (NewScanner (c :: cs)) =
        .ok false ⟨c :: cs,
          [NewToken ((keywords (String.mk (c :: cs))).getD .IDENTIFIER) (String.mk (c :: cs))
            .nil 1], 0, cs.length + 1, 1, []⟩ := by
      have hnot : (NewScanner (c :: cs) : Scanner F).isAtEnd = false := by
        simp [isAtEnd, NewScanner]
      simp only [scanLoop, hnot, Bool.not_false, if_true]
      rw [show ({ NewScanner (c :: cs) with start := (NewScanner (c :: cs) : Scanner F).current }
        : Scanner F) = ⟨c :: cs, [], 0, 0, 1, []⟩ from rfl, htoken]
      exact scanLoop_atEnd G (by show (c :: cs).length ≤ cs.length + 1; simp) _ _
    refine ⟨⟨c :: cs,
      [NewToken ((keywords (String.mk (c :: cs))).getD .IDENTIFIER) (String.mk (c :: cs))
        .nil 1, NewToken .EOF "" .nil 1], 0, cs.length + 1, 1, []⟩, ?_⟩
    unfold ScanTokens
    rw [Exec.bind_ok (show Exec.get (NewScanner (c :: cs)) = .ok _ _ from rfl),
      Exec.bind_ok (show scanLoop G (NewScanner (c :: cs) : Scanner F).source.length false
        (NewScanner (c :: cs)) = .ok false _ from hloop),
      Exec.bind_ok (show Exec.modify _ _ = .ok () _ from rfl),
      Exec.bind_ok (show Exec.get _ = .ok _ _ from rfl), Exec.pure_apply]
    rfl
  · intro kind hmem
    have hall : ∀ p ∈ keywordTable, keywords p.1 = some p.2 := by decide!
    rw [hall _ hmem]
    rfl
  · intro hnot
    have hnone : keywords (String.mk (c :: cs)) = none := by
      unfold keywords
      rw [List.lookup_eq_none_iff]
      intro p hp
      simp only [bne_iff_ne, ne_eq]
      intro heq
      exact hnot (List.mem_map.mpr ⟨p, hp, heq.symm⟩)
    rw [hnone]
    rfl

end Scanner

/-- C18, at concrete inputs: `printx` is one word, scanned as one token whose kind is
IDENTIFIER; `var_` is not a key of the table either, and `print` is. -/
theorem Scanner.scan_word_witness :
    (isAlpha 'p' = true ∧ ∀ x ∈ ['r', 'i', 'n', 't', 'x'], isAlphaNumeric x = true) ∧
    ((∃ final : Scanner ℚ,
        Scanner.ScanTokens ratFloat (NewScanner ('p' :: ['r', 'i', 'n', 't', 'x'])) =
          .ok ([NewToken
              ((keywords (String.mk ('p' :: ['r', 'i', 'n', 't', 'x']))).getD .IDENTIFIER)
              (String.mk ('p' :: ['r', 'i', 'n', 't', 'x'])) .nil 1,
            NewToken .EOF "" .nil 1], false) final) ∧
      (∀ kind, (String.mk ('p' :: ['r', 'i', 'n', 't', 'x']), kind) ∈ keywordTable →
        (keywords (String.mk ('p' :: ['r', 'i', 'n', 't', 'x']))).getD .IDENTIFIER = kind) ∧
      (String.mk ('p' :: ['r', 'i', 'n', 't', 'x']) ∉ keywordTable.map Prod.fst →
        (keywords (String.mk ('p' :: ['r', 'i', 'n', 't', 'x']))).getD .IDENTIFIER =
          .IDENTIFIER)) ∧
    (keywords "printx").getD .IDENTIFIER = .IDENTIFIER ∧
    (keywords "var_").getD .IDENTIFIER = .IDENTIFIER ∧
    (keywords "print").getD .IDENTIFIER = .PRINT :=
  ⟨⟨by decide, by decide⟩,
    Scanner.scan_word ratFloat 'p' ['r', 'i', 'n', 't', 'x'] (by decide) (by decide),
    by decide!, by decide!, by decide!⟩

end Words

/-! ## The parser, one token at a time -/

section ParserTokens

variable {F : Type}

namespace Parser

theorem getElem?_of_drop {p : Parser F} {t : Token F} {more : List (Token F)}
    (h : p.tokens.drop p.current = t :: more) : p.tokens[p.current]? = some t := by
  have h0 := List.getElem?_drop p.tokens p.current 0
  rw [h] at h0
  simpa using h0.symm

theorem drop_succ_of_drop {p : Parser F} {t : Token F} {more : List (Token F)}
    (h : p.tokens.drop p.current = t :: more) : p.tokens.drop (p.current + 1) = more := by
  have h1 : p.tokens.drop (p.current + 1) = (p.tokens.drop p.current).drop 1 := by
    rw [List.drop_drop]
  rw [h1, h]
  rfl

theorem peek_at {p : Parser F} {t : Token F} (h : p.tokens[p.current]? = some t) :
    peek p = .ok t p := by
  simp [peek, h]

theorem isAtEnd_at {p : Parser F} {t : Token F} (h : p.tokens[p.current]? = some t) :
    isAtEnd p = .ok (decide (t.TokenType = .EOF)) p := by
  unfold isAtEnd
  rw [Exec.bind_ok (peek_at h)]
  rfl

theorem previous_next {p : Parser F} {t : Token F} (h : p.tokens[p.current]? = some t) :
    previous { p with current := p.current + 1 } = .ok t { p with current := p.current + 1 } := by
  simp [previous, h]

theorem advance_at {p : Parser F} {t : Token F} (h : p.tokens[p.current]? = some t)
    (hne : t.TokenType ≠ .EOF) :
    advance p = .ok t { p with current := p.current + 1 } := by
  unfold advance
  rw [Exec.bind_ok (isAtEnd_at h)]
  simp only [hne, decide_False, Bool.not_false, if_true]
  rw [Exec.bind_ok (show Exec.modify _ p = .ok () _ from rfl)]
  exact previous_next h

theorem check_at {p : Parser F} {t : Token F} (h : p.tokens[p.current]? = some t)
    (ty : TokenType) :
    check ty p = .ok (decide (t.TokenType ≠ .EOF ∧ t.TokenType = ty)) p := by
  unfold check
  rw [Exec.bind_ok (isAtEnd_at h)]
  by_cases he : t.TokenType = .EOF
  · simp [he, Exec.pure_apply]
  · simp only [he, decide_False, Bool.false_eq_true, if_false]
    rw [Exec.bind_ok (peek_at h)]
    simp [he, Exec.pure_apply]

theorem match_true {p : Parser F} {t : Token F} (h : p.tokens[p.current]? = some t)
    (hne : t.TokenType ≠ .EOF) :
    ∀ ts : List TokenType, t.TokenType ∈ ts →
      match_ ts p = .ok true { p with current := p.current + 1 } := by
  intro ts
  induction ts with
  | nil => intro hm; cases hm
  | cons ty ts ih =>
    intro hm
    simp only [match_]
    rw [Exec.bind_ok (check_at h ty)]
    by_cases hty : t.TokenType = ty
    · simp only [hne, hty ▸ hne, hty, ne_eq, not_false_eq_true, and_self, decide_True, if_true]
      rw [Exec.bind_ok (advance_at h hne)]
      rfl
    · simp only [hty, and_false, decide_False, Bool.false_eq_true, if_false]
      rcases List.mem_cons.mp hm with h1 | h1
      · exact absurd h1 hty
      · exact ih h1

theorem match_false {p : Parser F} {t : Token F} (h : p.tokens[p.current]? = some t) :
    ∀ ts : List TokenType, (t.TokenType ∉ ts ∨ t.TokenType = .EOF) →
      match_ ts p = .ok false p := by
  intro ts
  induction ts with
  | nil => intro _; rfl
  | cons ty ts ih =>
    intro hm
    simp only [match_]
    rw [Exec.bind_ok (check_at h ty)]
    have hcond : ¬ (t.TokenType ≠ .EOF ∧ t.TokenType = ty) := by
      rintro ⟨h1, h2⟩
      rcases hm with hm | hm
      · exact hm (h2 ▸ List.mem_cons_self _ _)
      · exact h1 hm
    simp only [hcond, decide_False, Bool.false_eq_true, if_false]
    apply ih
    rcases hm with hm | hm
    · exact Or.inl (fun hin => hm (List.mem_cons_of_mem _ hin))
    · exact Or.inr hm

end Parser

end ParserTokens

/-! ## Precedence and associativity -/

section Chains

variable {F : Type}

namespace Parser

theorem operand_ne_EOF {t : Token F} (h : isOperand t = true) : t.TokenType ≠ .EOF := by
  intro he
  simp [isOperand, he] at h

/-- On an operand token `primary` returns its node and moves one token on. -/
theorem primary_operand {p : Parser F} {t : Token F} (h : p.tokens[p.current]? = some t)
    (hop : isOperand t = true) (n : Nat) :
    primary (n + 1) p = .ok (operandExpr t) { p with current := p.current + 1 } := by
  have hne := operand_ne_EOF hop
  simp only [isOperand, decide_eq_true_eq, List.mem_cons, List.mem_singleton,
    List.not_mem_nil, or_false] at hop
  simp only [primary]
  rcases hop with hty | hty | hty | hty | hty | hty
  · rw [Exec.bind_ok (match_true h hne _ (by simp [hty]))]
    simp [operandExpr, hty, Exec.pure_apply]
  · rw [Exec.bind_ok (match_false h _ (Or.inl (by simp [hty])))]
    simp only [Bool.false_eq_true, if_false]
    rw [Exec.bind_ok (match_true h hne _ (by simp [hty]))]
    simp [operandExpr, hty, Exec.pure_apply]
  · rw [Exec.bind_ok (match_false h _ (Or.inl (by simp [hty])))]
    simp only [Bool.false_eq_true, if_false]
    rw [Exec.bind_ok (match_false h _ (Or.inl (by simp [hty])))]
    simp only [Bool.false_eq_true, if_false]
    rw [Exec.bind_ok (match_true h hne _ (by simp [hty]))]
    simp [operandExpr, hty, Exec.pure_apply]
  · rw [Exec.bind_ok (match_false h _ (Or.inl (by simp [hty])))]
    simp only [Bool.false_eq_true, if_false]
    rw [Exec.bind_ok (match_false h _ (Or.inl (by simp [hty])))]
    simp only [Bool.false_eq_true, if_false]
    rw [Exec.bind_ok (match_false h _ (Or.inl (by simp [hty])))]
    simp only [Bool.false_eq_true, if_false]
    rw [Exec.bind_ok (match_true h hne _ (by simp [hty]))]
    simp only [if_true]
    rw [Exec.bind_ok (previous_next h)]
    simp [operandExpr, hty, Exec.pure_apply]
  · rw [Exec.bind_ok (match_false h _ (Or.inl (by simp [hty])))]
    simp only [Bool.false_eq_true, if_false]
    rw [Exec.bind_ok (match_false h _ (Or.inl (by simp [hty])))]
    simp only [Bool.false_eq_true, if_false]
    rw [Exec.bind_ok (match_false h _ (Or.inl (by simp [hty])))]
    simp only [Bool.false_eq_true, if_false]
    rw [Exec.bind_ok (match_true h hne _ (by simp [hty]))]
    simp only [if_true]
    rw [Exec.bind_ok (previous_next h)]
    simp [operandExpr, hty, Exec.pure_apply]
  · rw [Exec.bind_ok (match_false h _ (Or.inl (by simp [hty])))]
    simp only [Bool.false_eq_true, if_false]
    rw [Exec.bind_ok (match_false h _ (Or.inl (by simp [hty])))]
    simp only [Bool.false_eq_true, if_false]
    rw [Exec.bind_ok (match_false h _ (Or.inl (by simp [hty])))]
    simp only [Bool.false_eq_true, if_false]
    rw [Exec.bind_ok (match_false h _ (Or.inl (by simp [hty])))]
    simp only [Bool.false_eq_true, if_false]
    rw [Exec.bind_ok (match_true h hne _ (by simp [hty]))]
    simp only [if_true]
    rw [Exec.bind_ok (previous_next h)]
    simp [operandExpr, hty, Exec.pure_apply]

/-- One operand token is a primary expression. -/
theorem tokenOperand_parsed {t : Token F} (hop : isOperand t = true) :
    (tokenOperand t).Parsed 1 := by
  intro p more n hdrop hn
  obtain ⟨m, rfl⟩ : ∃ m, n = m + 1 := ⟨n - 1, by omega⟩
  exact primary_operand (getElem?_of_drop hdrop) hop m

/-- On a unary operator `primary` fails. -/
theorem primary_unaryOperator {p : Parser F} {t : Token F} (h : p.tokens[p.current]? = some t)
    (hty : t.TokenType ∈ [TokenType.BANG, .MINUS]) (n : Nat) :
    ∃ p', primary (n + 1) p =
      .panic (.ptrParseError (NewParseError t "Expect expression.")) p' := by
  have hf : ∀ ts : List TokenType, TokenType.BANG ∉ ts → TokenType.MINUS ∉ ts →
      match_ ts p = .ok false p := by
    intro ts h1 h2
    refine match_false h ts (Or.inl ?_)
    simp only [List.mem_cons, List.mem_singleton, List.not_mem_nil, or_false] at hty
    rcases hty with hty | hty <;> rw [hty] <;> assumption
  simp only [primary]
  rw [Exec.bind_ok (hf _ (by decide) (by decide))]
  simp only [Bool.false_eq_true, if_false]
  rw [Exec.bind_ok (hf _ (by decide) (by decide))]
  simp only [Bool.false_eq_true, if_false]
  rw [Exec.bind_ok (hf _ (by decide) (by decide))]
  simp only [Bool.false_eq_true, if_false]
  rw [Exec.bind_ok (hf _ (by decide) (by decide))]
  simp only [Bool.false_eq_true, if_false]
  rw [Exec.bind_ok (hf _ (by decide) (by decide))]
  simp only [Bool.false_eq_true, if_false]
  rw [Exec.bind_ok (hf _ (by decide) (by decide))]
  simp only [Bool.false_eq_true, if_false]
  rw [Exec.bind_ok (peek_at h), Exec.bind_ok (peek_at h)]
  exact ⟨_, rfl⟩

/-- A primary expression starts with a token, which is no unary operator. -/
theorem parsed_head {k : Nat} {x : Operand F} (hx : x.Parsed k) :
    ∃ t rest, x.tokens = t :: rest ∧ t.TokenType ∉ [TokenType.BANG, .MINUS] := by
  have h := hx ⟨x.tokens, 0, []⟩ [] (k + 1) (by simp) (by omega)
  cases hts : x.tokens with
  | nil =>
    have hpeek : (peek : Exec F (Parser F) (Token F)) ⟨x.tokens, 0, []⟩ =
        .panic .indexOutOfRange ⟨x.tokens, 0, []⟩ := by
      simp [peek, hts]
    simp only [primary, match_, check, isAtEnd] at h
    rw [Exec.bind_panic (Exec.bind_panic (Exec.bind_panic (Exec.bind_panic hpeek)))] at h
    cases h
  | cons t rest =>
    refine ⟨t, rest, rfl, fun hty => ?_⟩
    have h0 : (⟨x.tokens, 0, []⟩ : Parser F).tokens[(⟨x.tokens, 0, []⟩ : Parser F).current]? =
        some t := by
      simp [hts]
    obtain ⟨p', hp⟩ := primary_unaryOperator h0 hty k
    rw [hp] at h
    cases h

/-- On the tokens of a primary expression `unary` returns its tree. -/
theorem unary_parsed {k : Nat} {x : Operand F} (hx : x.Parsed k) {p : Parser F}
    {more : List (Token F)} (hdrop : p.tokens.drop p.current = x.tokens ++ more) {n : Nat}
    (hn : k + 1 ≤ n) :
    unary n p = .ok x.expr { p with current := p.current + x.tokens.length } := by
  obtain ⟨m, rfl⟩ : ∃ m, n = m + 1 := ⟨n - 1, by omega⟩
  obtain ⟨t, rest, hts, hty⟩ := parsed_head hx
  have h : p.tokens[p.current]? = some t := by
    refine getElem?_of_drop (show _ = t :: (rest ++ more) from ?_)
    rw [hdrop, hts]
    rfl
  simp only [unary]
  rw [Exec.bind_ok (match_false h _ (Or.inl hty))]
  simp only [Bool.false_eq_true, if_false]
  exact hx p more m hdrop (by omega)

theorem drop_add_of_drop {p : Parser F} {ts more : List (Token F)}
    (h : p.tokens.drop p.current = ts ++ more) :
    p.tokens.drop (p.current + ts.length) = more := by
  have h1 : p.tokens.drop (p.current + ts.length) = (p.tokens.drop p.current).drop ts.length := by
    rw [List.drop_drop, Nat.add_comm]
  rw [h1, h, List.drop_left]

theorem operandTokens_length : ∀ pairs : List (Token F × Operand F),
    pairs.length ≤ (operandTokens pairs).length := by
  intro pairs
  induction pairs with
  | nil => exact Nat.le_refl _
  | cons pair rest ih =>
    simp only [operandTokens, List.length_cons, List.length_append]
    omega

/-- The loop of `factor` on `op1 p1 ... opn pn` left-nests the operands. -/
theorem factorLoop_chain (k : Nat) : ∀ (pairs : List (Token F × Operand F)),
    (∀ pair ∈ pairs, pair.1.TokenType ∈ [TokenType.SLASH, .STAR] ∧ pair.2.Parsed k) →
    ∀ (left : Expr F) (p : Parser F) (next : Token F) (more : List (Token F)),
      p.tokens.drop p.current = operandTokens pairs ++ next :: more →
      next.TokenType ∉ [TokenType.SLASH, .STAR] →
      ∀ n : Nat, pairs.length + k + 2 ≤ n →
        factorLoop n left p =
          .ok (leftNested left (pairs.map fun pair => (pair.1, pair.2.expr)))
            { p with current := p.current + (operandTokens pairs).length } := by
  intro pairs
  induction pairs with
  | nil =>
    intro _ left p next more hdrop hnext n hn
    obtain ⟨m, rfl⟩ : ∃ m, n = m + 1 := ⟨n - 1, by omega⟩
    simp only [factorLoop]
    rw [Exec.bind_ok (match_false (getElem?_of_drop hdrop) _ (Or.inl hnext))]
    rfl
  | cons pair rest ih =>
    intro hw left p next more hdrop hnext n hn
    obtain ⟨m, rfl⟩ : ∃ m, n = m + 1 := ⟨n - 1, by omega⟩
    obtain ⟨hop, hx⟩ := hw pair (List.mem_cons_self _ _)
    have hdrop0 : p.tokens.drop p.current =
        pair.1 :: (pair.2.tokens ++ (operandTokens rest ++ next :: more)) := by
      rw [hdrop]
      simp [operandTokens]
    have h := getElem?_of_drop hdrop0
    have hne : pair.1.TokenType ≠ .EOF := by
      intro he
      rw [he] at hop
      simp at hop
    simp only [factorLoop, List.length_cons] at hn ⊢
    rw [Exec.bind_ok (match_true h hne _ hop)]
    simp only [if_true]
    rw [Exec.bind_ok (previous_next h)]
    have hdrop1 : ({ p with current := p.current + 1 } : Parser F).tokens.drop
        ({ p with current := p.current + 1 } : Parser F).current =
        pair.2.tokens ++ (operandTokens rest ++ next :: more) :=
      drop_succ_of_drop hdrop0
    rw [Exec.bind_ok (unary_parsed hx hdrop1 (by omega))]
    rw [ih (fun q hq => hw q (List.mem_cons_of_mem _ hq)) _ _ next more
      (drop_add_of_drop hdrop1) hnext m (by omega)]
    simp [leftNested, operandTokens, Nat.add_assoc, Nat.add_comm 1]

/-- On a factor chain `factor` returns its left-nested tree. -/
theorem factor_chain {k : Nat} {x : FactorChain F} (hw : x.WellFormed k) {p : Parser F}
    {next : Token F} {more : List (Token F)}
    (hdrop : p.tokens.drop p.current = x.tokens ++ next :: more)
    (hnext : next.TokenType ∉ [TokenType.SLASH, .STAR]) {n : Nat}
    (hn : x.rest.length + k + 3 ≤ n) :
    factor n p = .ok x.expr { p with current := p.current + x.tokens.length } := by
  obtain ⟨m, rfl⟩ : ∃ m, n = m + 1 := ⟨n - 1, by omega⟩
  have hdrop0 : p.tokens.drop p.current =
      x.first.tokens ++ (operandTokens x.rest ++ next :: more) := by
    rw [hdrop]
    simp [FactorChain.tokens]
  simp only [factor]
  rw [Exec.bind_ok (unary_parsed hw.1 hdrop0 (by omega))]
  rw [factorLoop_chain k x.rest hw.2 _ _ next more (drop_add_of_drop hdrop0) hnext m (by omega)]
  simp [FactorChain.expr, FactorChain.tokens, Nat.add_assoc]

theorem factorChain_length (x : FactorChain F) : x.rest.length ≤ x.tokens.length := by
  have := operandTokens_length x.rest
  simp only [FactorChain.tokens, List.length_append]
  omega

/-- What follows a factor chain inside a term chain is no factor operator. -/
theorem chainTokens_head {k : Nat} {pairs : List (Token F × FactorChain F)}
    (hw : ∀ pair ∈ pairs, pair.1.TokenType ∈ [TokenType.MINUS, .PLUS] ∧ pair.2.WellFormed k)
    {next : Token F} (more : List (Token F))
    (hnext : next.TokenType ∉ [TokenType.MINUS, .PLUS, .SLASH, .STAR]) :
    ∃ t after, chainTokens pairs ++ next :: more = t :: after ∧
      t.TokenType ∉ [TokenType.SLASH, .STAR] := by
  cases pairs with
  | nil =>
    refine ⟨next, more, rfl, fun h => hnext ?_⟩
    simp only [List.mem_cons, List.mem_singleton, List.not_mem_nil, or_false] at h ⊢
    rcases h with h | h <;> simp [h]
  | cons pair rest =>
    refine ⟨pair.1, _, rfl, fun h => ?_⟩
    have hop := (hw pair (List.mem_cons_self _ _)).1
    simp only [List.mem_cons, List.mem_singleton, List.not_mem_nil, or_false] at h hop
    rcases h with h | h <;> rw [h] at hop <;> simp at hop

/-- The loop of `term` on `op1 f1 ... opn fn` left-nests the trees of the factor chains. -/
theorem termLoop_chain (k : Nat) : ∀ (pairs : List (Token F × FactorChain F)),
    (∀ pair ∈ pairs, pair.1.TokenType ∈ [TokenType.MINUS, .PLUS] ∧ pair.2.WellFormed k) →
    ∀ (left : Expr F) (p : Parser F) (next : Token F) (more : List (Token F)),
      p.tokens.drop p.current = chainTokens pairs ++ next :: more →
      next.TokenType ∉ [TokenType.MINUS, .PLUS, .SLASH, .STAR] →
      ∀ n : Nat, (chainTokens pairs).length + k + 3 ≤ n →
        termLoop n left p =
          .ok (leftNested left (pairs.map fun pair => (pair.1, pair.2.expr)))
            { p with current := p.current + (chainTokens pairs).length } := by
  intro pairs
  induction pairs with
  | nil =>
    intro _ left p next more hdrop hnext n hn
    obtain ⟨m, rfl⟩ : ∃ m, n = m + 1 := ⟨n - 1, by omega⟩
    have hnext0 : next.TokenType ∉ [TokenType.MINUS, .PLUS] := by
      intro h
      apply hnext
      simp only [List.mem_cons, List.mem_singleton, List.not_mem_nil, or_false] at h ⊢
      rcases h with h | h <;> simp [h]
    simp only [termLoop]
    rw [Exec.bind_ok (match_false (getElem?_of_drop hdrop) _ (Or.inl hnext0))]
    rfl
  | cons pair rest ih =>
    intro hw left p next more hdrop hnext n hn
    obtain ⟨m, rfl⟩ : ∃ m, n = m + 1 := ⟨n - 1, by omega⟩
    obtain ⟨hop, hx⟩ := hw pair (List.mem_cons_self _ _)
    have hwrest : ∀ q ∈ rest, q.1.TokenType ∈ [TokenType.MINUS, .PLUS] ∧ q.2.WellFormed k :=
      fun q hq => hw q (List.mem_cons_of_mem _ hq)
    have hdrop0 : p.tokens.drop p.current =
        pair.1 :: (pair.2.tokens ++ (chainTokens rest ++ next :: more)) := by
      rw [hdrop]
      simp [chainTokens]
    have h := getElem?_of_drop hdrop0
    have hne : pair.1.TokenType ≠ .EOF := by
      intro he
      rw [he] at hop
      simp at hop
    have hlen := factorChain_length pair.2
    simp only [termLoop, chainTokens, List.length_cons, List.length_append] at hn ⊢
    rw [Exec.bind_ok (match_true h hne _ hop)]
    simp only [if_true]
    rw [Exec.bind_ok (previous_next h)]
    obtain ⟨t, after, hafter, ht⟩ := chainTokens_head hwrest more hnext
    have hdrop1 : ({ p with current := p.current + 1 } : Parser F).tokens.drop
        ({ p with current := p.current + 1 } : Parser F).current =
        pair.2.tokens ++ (chainTokens rest ++ next :: more) :=
      drop_succ_of_drop hdrop0
    have hdrop2 := hdrop1
    rw [hafter] at hdrop2
    rw [Exec.bind_ok (factor_chain hx hdrop2 ht (by omega))]
    rw [ih hwrest _ _ next more (drop_add_of_drop hdrop1) hnext m (by omega)]
    simp [leftNested, Nat.add_assoc, Nat.add_comm 1]

/-- On a term chain `term` returns its left-nested tree. -/
theorem term_chain {k : Nat} {x : TermChain F} (hw : x.WellFormed k) {p : Parser F}
    {next : Token F} {more : List (Token F)}
    (hdrop : p.tokens.drop p.current = x.tokens ++ next :: more)
    (hnext : next.TokenType ∉ [TokenType.MINUS, .PLUS, .SLASH, .STAR]) {n : Nat}
    (hn : x.tokens.length + k + 4 ≤ n) :
    term n p = .ok x.expr { p with current := p.current + x.tokens.length } := by
  obtain ⟨m, rfl⟩ : ∃ m, n = m + 1 := ⟨n - 1, by omega⟩
  have hdrop0 : p.tokens.drop p.current =
      x.first.tokens ++ (chainTokens x.rest ++ next :: more) := by
    rw [hdrop]
    simp [TermChain.tokens]
  have hlen := factorChain_length x.first
  simp only [TermChain.tokens, List.length_append] at hn
  obtain ⟨t, after, hafter, ht⟩ := chainTokens_head hw.2 more hnext
  have hdrop1 := hdrop0
  rw [hafter] at hdrop1
  simp only [term]
  rw [Exec.bind_ok (factor_chain hw.1 hdrop1 ht (by omega))]
  rw [termLoop_chain k x.rest hw.2 _ _ next more (drop_add_of_drop hdrop0) hnext m (by omega)]
  simp [TermChain.expr, TermChain.tokens, Nat.add_assoc]

/-- On a term chain followed by no operator `expression` returns its left-nested tree. -/
theorem expression_chain {k : Nat} {x : TermChain F} (hw : x.WellFormed k) {p : Parser F}
    {next : Token F} {more : List (Token F)}
    (hdrop : p.tokens.drop p.current = x.tokens ++ next :: more)
    (hnext : next.TokenType ∉ continuations) {n : Nat}
    (hn : x.tokens.length + k + 8 ≤ n) :
    expression n p = .ok x.expr { p with current := p.current + x.tokens.length } := by
  have hin : ∀ ts : List TokenType, (∀ ty ∈ ts, ty ∈ continuations) → next.TokenType ∉ ts :=
    fun ts hts h => hnext (hts _ h)
  have hat : ({ p with current := p.current + x.tokens.length } : Parser F).tokens[
      ({ p with current := p.current + x.tokens.length } : Parser F).current]? = some next :=
    getElem?_of_drop (drop_add_of_drop hdrop)
  have hcomparison : ∀ m, x.tokens.length + k + 5 ≤ m →
      comparison m p = .ok x.expr { p with current := p.current + x.tokens.length } := by
    intro m hm
    obtain ⟨j, rfl⟩ : ∃ j, m = j + 1 := ⟨m - 1, by omega⟩
    simp only [comparison]
    rw [Exec.bind_ok (term_chain hw hdrop (hin _ (by decide)) (by omega))]
    obtain ⟨i, rfl⟩ : ∃ i, j = i + 1 := ⟨j - 1, by omega⟩
    simp only [comparisonLoop]
    rw [Exec.bind_ok (match_false hat _ (Or.inl (hin _ (by decide))))]
    rfl
  have hequality : ∀ m, x.tokens.length + k + 6 ≤ m →
      equality m p = .ok x.expr { p with current := p.current + x.tokens.length } := by
    intro m hm
    obtain ⟨j, rfl⟩ : ∃ j, m = j + 1 := ⟨m - 1, by omega⟩
    simp only [equality]
    rw [Exec.bind_ok (hcomparison j (by omega))]
    obtain ⟨i, rfl⟩ : ∃ i, j = i + 1 := ⟨j - 1, by omega⟩
    simp only [equalityLoop]
    rw [Exec.bind_ok (match_false hat _ (Or.inl (hin _ (by decide))))]
    rfl
  obtain ⟨m, rfl⟩ : ∃ m, n = m + 1 := ⟨n - 1, by omega⟩
  simp only [expression]
  obtain ⟨j, rfl⟩ : ∃ j, m = j + 1 := ⟨m - 1, by omega⟩
  simp only [assignment]
  rw [Exec.bind_ok (hequality j (by omega))]
  rw [Exec.bind_ok (match_false hat _ (Or.inl (hin _ (by decide))))]
  rfl

/-- On a token of the expected type `consume` returns it and moves one token on. -/
theorem consume_at {p : Parser F} {t : Token F} (h : p.tokens[p.current]? = some t)
    (hne : t.TokenType ≠ .EOF) {ty : TokenType} (hty : t.TokenType = ty) (message : String) :
    consume ty message p = .ok t { p with current := p.current + 1 } := by
  unfold consume
  rw [Exec.bind_ok (check_at h ty)]
  have hc : decide (t.TokenType ≠ .EOF ∧ t.TokenType = ty) = true :=
    decide_eq_true ⟨hne, hty⟩
  rw [hc, if_pos rfl]
  exact advance_at h hne

/-- A term chain between parentheses is a primary expression. -/
theorem groupOperand_parsed {k : Nat} {x : TermChain F} (hw : x.WellFormed k)
    {left right : Token F} (hl : left.TokenType = .LEFT_PAREN)
    (hr : right.TokenType = .RIGHT_PAREN) :
    (groupOperand left right x).Parsed (x.tokens.length + k + 9) := by
  intro p more n hdrop hn
  obtain ⟨m, rfl⟩ : ∃ m, n = m + 1 := ⟨n - 1, by omega⟩
  have hdrop0 : p.tokens.drop p.current = left :: (x.tokens ++ right :: more) := by
    rw [hdrop]
    simp [groupOperand]
  have h := getElem?_of_drop hdrop0
  have hf : ∀ ts : List TokenType, TokenType.LEFT_PAREN ∉ ts → match_ ts p = .ok false p :=
    fun ts hts => match_false h ts (Or.inl (by rw [hl]; exact hts))
  have hdrop1 : ({ p with current := p.current + 1 } : Parser F).tokens.drop
      ({ p with current := p.current + 1 } : Parser F).current = x.tokens ++ right :: more :=
    drop_succ_of_drop hdrop0
  have hat : (⟨p.tokens, p.current + 1 + x.tokens.length, p.stdout⟩ : Parser F).tokens[
      (⟨p.tokens, p.current + 1 + x.tokens.length, p.stdout⟩ : Parser F).current]? =
      some right :=
    getElem?_of_drop (p := ⟨p.tokens, p.current + 1 + x.tokens.length, p.stdout⟩)
      (drop_add_of_drop hdrop1)
  simp only [primary]
  rw [Exec.bind_ok (hf _ (by decide))]
  simp only [Bool.false_eq_true, if_false]
  rw [Exec.bind_ok (hf _ (by decide))]
  simp only [Bool.false_eq_true, if_false]
  rw [Exec.bind_ok (hf _ (by decide))]
  simp only [Bool.false_eq_true, if_false]
  rw [Exec.bind_ok (hf _ (by decide))]
  simp only [Bool.false_eq_true, if_false]
  rw [Exec.bind_ok (hf _ (by decide))]
  simp only [Bool.false_eq_true, if_false]
  rw [Exec.bind_ok (match_true h (by rw [hl]; decide) _ (by rw [hl]; decide))]
  simp only [if_true]
  rw [Exec.bind_ok (expression_chain hw hdrop1 (by rw [hr]; decide) (by omega))]
  rw [Exec.bind_ok (consume_at hat (by rw [hr]; decide) hr _)]
  simp [groupOperand, Exec.pure_apply, Nat.add_assoc, Nat.add_comm 1]

end Parser

end Chains

section ChainExamples

namespace Parser

theorem parsed_mono {F : Type} {k j : Nat} {x : Operand F} (hx : x.Parsed k) (h : k ≤ j) :
    x.Parsed j :=
  fun p more n hdrop hn => hx p more n hdrop (Nat.le_trans h hn)

theorem sumProductChain_wellFormed : sumProductChain.WellFormed 1 := by
  refine ⟨⟨tokenOperand_parsed rfl, fun pair h => by cases h⟩, fun pair h => ?_⟩
  simp only [sumProductChain, List.mem_singleton] at h
  subst h
  refine ⟨by decide, tokenOperand_parsed rfl, fun pair h => ?_⟩
  simp only [List.mem_singleton] at h
  subst h
  exact ⟨by decide, tokenOperand_parsed rfl⟩

theorem differenceChain_wellFormed : differenceChain.WellFormed 1 := by
  refine ⟨⟨tokenOperand_parsed rfl, fun pair h => by cases h⟩, fun pair h => ?_⟩
  simp only [differenceChain, List.mem_cons, List.mem_singleton, List.not_mem_nil,
    or_false] at h
  rcases h with h | h <;> subst h <;>
    exact ⟨by decide, tokenOperand_parsed rfl, fun pair h => by cases h⟩

theorem sumChain_wellFormed : sumChain.WellFormed 1 := by
  refine ⟨⟨tokenOperand_parsed rfl, fun pair h => by cases h⟩, fun pair h => ?_⟩
  simp only [sumChain, List.mem_singleton] at h
  subst h
  exact ⟨by decide, tokenOperand_parsed rfl, fun pair h => by cases h⟩

theorem groupedChain_wellFormed : groupedChain.WellFormed 13 := by
  refine ⟨⟨groupOperand_parsed sumChain_wellFormed rfl rfl, fun pair h => ?_⟩,
    fun pair h => by cases h⟩
  simp only [groupedChain, List.mem_cons, List.mem_singleton, List.not_mem_nil,
    or_false] at h
  rcases h with h | h <;> subst h <;>
    exact ⟨by decide, parsed_mono (tokenOperand_parsed rfl) (by decide)⟩

end Parser

end ChainExamples

/-- C17. Precedence and left associativity. Let `x` be a sequence `f0 op1 f1 ... opn fn`
whose operators are `-` or `+` and whose members `fi` are sequences `p0 op1 p1 ... opm pm`
of primary operands with operators `/` or `*`; both an `x` with one-operand members (all
operators in `{+, -}`) and an `x` of one member (all operators in `{*, /}`) are such
sequences. When the tokens of `x` stand at the cursor, followed by a token that continues
no expression, `expression` with enough fuel consumes exactly the tokens of `x` and returns
the left-nested tree of `x`, whose operands are the left-nested trees of the members. The
tokens of `1 + 2 * 3` give `Binary(1, +, Binary(2, *, 3))` and those of `1 - 2 - 3` give
`Binary(Binary(1, -, 2), -, 3)`. -/
theorem Parser.chain_left_nested {F : Type} (k : Nat) (x : TermChain F)
    (hw : x.WellFormed k) (p : Parser F) (next : Golox.Token F)
    (more : List (Golox.Token F))
    (hdrop : p.tokens.drop p.current = x.tokens ++ next :: more)
    (hnext : next.TokenType ∉ continuations) (n : Nat) (hn : x.tokens.length + k + 8 ≤ n) :
    Parser.expression n p =
      .ok (leftNested
          (leftNested x.first.first.expr (x.first.rest.map fun pair => (pair.1, pair.2.expr)))
          (x.rest.map fun pair => (pair.1,
            leftNested pair.2.first.expr (pair.2.rest.map fun q => (q.1, q.2.expr)))))
        { p with current := p.current + x.tokens.length } ∧
    (∀ fuel, 14 ≤ fuel → Parser.expression fuel (NewParser sumProductTokens) =
      .ok (.Binary (.Literal (.number 1)) (tok .PLUS "+")
          (.Binary (.Literal (.number 2)) (tok .STAR "*") (.Literal (.number 3))))
        ⟨sumProductTokens, 5, []⟩) ∧
    (∀ fuel, 14 ≤ fuel → Parser.expression fuel (NewParser differenceTokens) =
      .ok (.Binary (.Binary (.Literal (.number 1)) (tok .MINUS "-") (.Literal (.number 2)))
          (tok .MINUS "-") (.Literal (.number 3)))
        ⟨differenceTokens, 5, []⟩) :=
  ⟨Parser.expression_chain hw hdrop hnext hn,
    fun _ hfuel => Parser.expression_chain (p := NewParser sumProductTokens)
      Parser.sumProductChain_wellFormed (by rfl : _ = sumProductChain.tokens ++ tok .EOF "" :: [])
      (by decide) hfuel,
    fun _ hfuel => Parser.expression_chain (p := NewParser differenceTokens)
      Parser.differenceChain_wellFormed (by rfl : _ = differenceChain.tokens ++ tok .EOF "" :: [])
      (by decide) hfuel⟩

/-- C17, at a concrete input: the tokens of `(1 + 2) * 3 / 4` give
`Binary(Binary(Grouping(Binary(1, +, 2)), *, 3), /, 4)`. -/
theorem Parser.chain_left_nested_witness :
    (groupedChain.WellFormed 13 ∧
      (NewParser groupedTokens).tokens.drop (NewParser groupedTokens).current =
        groupedChain.tokens ++ tok .EOF "" :: [] ∧
      (tok .EOF "").TokenType ∉ continuations ∧ groupedChain.tokens.length + 13 + 8 ≤ 30) ∧
    Parser.expression 30 (NewParser groupedTokens) =
      .ok (.Binary
          (.Binary
            (.Grouping (.Binary (.Literal (.number 1)) (tok .PLUS "+") (.Literal (.number 2))))
            (tok .STAR "*") (.Literal (.number 3)))
          (tok .SLASH "/") (.Literal (.number 4)))
        ⟨groupedTokens, 9, []⟩ :=
  ⟨⟨Parser.groupedChain_wellFormed, rfl, by decide, by decide⟩,
    (Parser.chain_left_nested 13 groupedChain Parser.groupedChain_wellFormed
      (NewParser groupedTokens) (tok .EOF "") [] rfl (by decide) 30 (by decide)).1⟩

/-- The scanner turns the sources `1 + 2 * 3` and `1 - 2 - 3` into the token lists of the
examples. -/
theorem scan_chain_sources :
    (Scanner.ScanTokens ratFloat (NewScanner "1 + 2 * 3".data)).observe Scanner.tokens =
      .ok (sumProductTokens, false) sumProductTokens ∧
    (Scanner.ScanTokens ratFloat (NewScanner "1 - 2 - 3".data)).observe Scanner.tokens =
      .ok (differenceTokens, false) differenceTokens := by
  decide!


/-! ## The operators of the parsed trees -/

section Less

variable {F : Type}

namespace Parser

/-- The three ways `match` ends: no token of the list at the cursor, one of them consumed,
or no token at the cursor at all. -/
theorem match_cases (ts : List TokenType) (p : Parser F) :
    match_ ts p = .ok false p ∨
    (∃ t, p.tokens[p.current]? = some t ∧ t.TokenType ∈ ts ∧
      match_ ts p = .ok true { p with current := p.current + 1 }) ∨
    match_ ts p = .panic .indexOutOfRange p := by
  cases h : p.tokens[p.current]? with
  | none =>
    cases ts with
    | nil => exact Or.inl rfl
    | cons ty ts =>
      refine Or.inr (Or.inr ?_)
      have hpeek : peek p = .panic .indexOutOfRange p := by
        simp [peek, h]
      simp only [match_, check, isAtEnd]
      exact Exec.bind_panic (Exec.bind_panic (Exec.bind_panic hpeek))
  | some t =>
    by_cases hm : t.TokenType ∈ ts ∧ t.TokenType ≠ .EOF
    · exact Or.inr (Or.inl ⟨t, rfl, hm.1, match_true h hm.2 ts hm.1⟩)
    · refine Or.inl (match_false h ts ?_)
      by_cases h1 : t.TokenType ∈ ts
      · exact Or.inr (by_contra fun h2 => hm ⟨h1, h2⟩)
      · exact Or.inl h1

/-- A loop step of the grammar: the operator that `previous` returns after a successful
`match` has one of the matched kinds. -/
theorem ensures_matched (ts : List TokenType) {k : Token F → Exec F (Parser F) (Expr F)}
    {other : Exec F (Parser F) (Expr F)} {P : Expr F → Prop}
    (hk : ∀ op, op.TokenType ∈ ts → (k op).Ensures P) (hother : other.Ensures P) :
    (match_ ts >>= fun b => if b = true then previous >>= k else other).Ensures P := by
  constructor
  · intro s e s' h
    rcases match_cases ts s with hm | ⟨t, ht, hty, hm⟩ | hm
    · rw [Exec.bind_ok hm] at h
      exact hother.1 s e s' h
    · rw [Exec.bind_ok hm, if_pos rfl, Exec.bind_ok (previous_next ht)] at h
      exact (hk t hty).1 _ e s' h
    · rw [Exec.bind_panic hm] at h
      cases h
  · intro s a s' h
    rcases match_cases ts s with hm | ⟨t, ht, hty, hm⟩ | hm
    · rw [Exec.bind_ok hm] at h
      exact hother.2 s a s' h
    · rw [Exec.bind_ok hm, if_pos rfl, Exec.bind_ok (previous_next ht)] at h
      exact (hk t hty).2 _ a s' h
    · rw [Exec.bind_panic hm] at h
      cases h

theorem lessFree_binary {l r : Expr F} {op : Token F} {ts : List TokenType}
    (hl : l.LessFree) (hop : op.TokenType ∈ ts) (hts : TokenType.LESS ∉ ts) (hr : r.LessFree) :
    (Expr.Binary l op r).LessFree := by
  intro t ht
  simp only [Expr.binaryOperators, List.mem_append, List.mem_cons] at ht
  rcases ht with ht | ht | ht
  · exact hl t ht
  · rw [ht]
    intro h
    exact hts (h ▸ hop)
  · exact hr t ht

theorem lessFree_leaf {e : Expr F} (h : e.binaryOperators = []) : e.LessFree := by
  intro t ht
  rw [h] at ht
  cases ht

/-- No rule of the grammar returns a tree with a `Binary` node whose operator is `<`. -/
theorem rules_lessFree : ∀ n : Nat,
    (expression n : Exec F (Parser F) (Expr F)).Ensures Expr.LessFree ∧
    (assignment n : Exec F (Parser F) (Expr F)).Ensures Expr.LessFree ∧
    (equality n : Exec F (Parser F) (Expr F)).Ensures Expr.LessFree ∧
    (∀ e : Expr F, e.LessFree → (equalityLoop n e).Ensures Expr.LessFree) ∧
    (comparison n : Exec F (Parser F) (Expr F)).Ensures Expr.LessFree ∧
    (∀ e : Expr F, e.LessFree → (comparisonLoop n e).Ensures Expr.LessFree) ∧
    (term n : Exec F (Parser F) (Expr F)).Ensures Expr.LessFree ∧
    (∀ e : Expr F, e.LessFree → (termLoop n e).Ensures Expr.LessFree) ∧
    (factor n : Exec F (Parser F) (Expr F)).Ensures Expr.LessFree ∧
    (∀ e : Expr F, e.LessFree → (factorLoop n e).Ensures Expr.LessFree) ∧
    (unary n : Exec F (Parser F) (Expr F)).Ensures Expr.LessFree ∧
    (primary n : Exec F (Parser F) (Expr F)).Ensures Expr.LessFree := by
  intro n
  induction n with
  | zero =>
    refine ⟨?_, ?_, ?_, fun e _ => ?_, ?_, fun e _ => ?_, ?_, fun e _ => ?_, ?_,
      fun e _ => ?_, ?_, ?_⟩
    all_goals first
      | (simp only [expression]; exact Exec.ensures_outOfFuel)
      | (simp only [assignment]; exact Exec.ensures_outOfFuel)
      | (simp only [equality]; exact Exec.ensures_outOfFuel)
      | (simp only [equalityLoop]; exact Exec.ensures_outOfFuel)
      | (simp only [comparison]; exact Exec.ensures_outOfFuel)
      | (simp only [comparisonLoop]; exact Exec.ensures_outOfFuel)
      | (simp only [term]; exact Exec.ensures_outOfFuel)
      | (simp only [termLoop]; exact Exec.ensures_outOfFuel)
      | (simp only [factor]; exact Exec.ensures_outOfFuel)
      | (simp only [factorLoop]; exact Exec.ensures_outOfFuel)
      | (simp only [unary]; exact Exec.ensures_outOfFuel)
      | (simp only [primary]; exact Exec.ensures_outOfFuel)
  | succ n ih =>
    obtain ⟨hexpr, hassign, heq, heqL, hcmp, hcmpL, hterm, htermL, hfac, hfacL, hun, hprim⟩ := ih
    refine ⟨?_, ?_, ?_, fun e he => ?_, ?_, fun e he => ?_, ?_, fun e he => ?_, ?_,
      fun e he => ?_, ?_, ?_⟩
    · simp only [expression]
      exact hassign
    · simp only [assignment]
      refine Exec.ensures_bind heq (fun expr hfree => ?_)
      refine Exec.ensures_bind (match_ensures _) (fun b _ => ?_)
      split
      · refine Exec.ensures_bind previous_ensures (fun equals _ => ?_)
        refine Exec.ensures_bind hassign (fun value hvalue => ?_)
        split
        · exact Exec.ensures_pure hvalue
        · exact Exec.ensures_bind (Exec.ensures_modify _)
            (fun _ _ => Exec.ensures_pure hfree)
      · exact Exec.ensures_pure hfree
    · simp only [equality]
      exact Exec.ensures_bind hcmp (fun expr hfree => heqL expr hfree)
    · simp only [equalityLoop]
      exact ensures_matched _
        (fun op hop => Exec.ensures_bind hcmp
          (fun right hr => heqL _ (lessFree_binary he hop (by decide) hr)))
        (Exec.ensures_pure he)
    · simp only [comparison]
      exact Exec.ensures_bind hterm (fun expr hfree => hcmpL expr hfree)
    · simp only [comparisonLoop]
      exact ensures_matched _
        (fun op hop => Exec.ensures_bind hterm
          (fun right hr => hcmpL _ (lessFree_binary he hop (by decide) hr)))
        (Exec.ensures_pure he)
    · simp only [term]
      exact Exec.ensures_bind hfac (fun expr hfree => htermL expr hfree)
    · simp only [termLoop]
      exact ensures_matched _
        (fun op hop => Exec.ensures_bind hfac
          (fun right hr => htermL _ (lessFree_binary he hop (by decide) hr)))
        (Exec.ensures_pure he)
    · simp only [factor]
      exact Exec.ensures_bind hun (fun expr hfree => hfacL expr hfree)
    · simp only [factorLoop]
      exact ensures_matched _
        (fun op hop => Exec.ensures_bind hun
          (fun right hr => hfacL _ (lessFree_binary he hop (by decide) hr)))
        (Exec.ensures_pure he)
    · simp only [unary]
      refine Exec.ensures_bind (match_ensures _) (fun b _ => ?_)
      split
      · refine Exec.ensures_bind previous_ensures (fun operator _ => ?_)
        exact Exec.ensures_bind hun (fun right hr => Exec.ensures_pure hr)
      · exact hprim
    · simp only [primary]
      refine Exec.ensures_bind (match_ensures _) (fun b _ => ?_)
      split
      · exact Exec.ensures_pure (lessFree_leaf rfl)
      refine Exec.ensures_bind (match_ensures _) (fun b _ => ?_)
      split
      · exact Exec.ensures_pure (lessFree_leaf rfl)
      refine Exec.ensures_bind (match_ensures _) (fun b _ => ?_)
      split
      · exact Exec.ensures_pure (lessFree_leaf rfl)
      refine Exec.ensures_bind (match_ensures _) (fun b _ => ?_)
      split
      · exact Exec.ensures_bind previous_ensures
          (fun _ _ => Exec.ensures_pure (lessFree_leaf rfl))
      refine Exec.ensures_bind (match_ensures _) (fun b _ => ?_)
      split
      · exact Exec.ensures_bind previous_ensures
          (fun _ _ => Exec.ensures_pure (lessFree_leaf rfl))
      refine Exec.ensures_bind (match_ensures _) (fun b _ => ?_)
      split
      · refine Exec.ensures_bind hexpr (fun expr hfree => ?_)
        exact Exec.ensures_bind (consume_ensures _ _) (fun _ _ => Exec.ensures_pure hfree)
      · refine Exec.ensures_bind peek_ensures (fun _ _ => ?_)
        refine Exec.ensures_bind peek_ensures (fun _ _ => ?_)
        exact Exec.ensures_bind (Exec.ensures_modify _) (fun _ _ => Exec.ensures_panic_ptr _)

theorem expressionStatement_lessFree (fuel : Nat) :
    (expressionStatement fuel : Exec F (Parser F) (Stmt F)).Ensures
      (fun s => ∀ op ∈ s.binaryOperators, op.TokenType ≠ .LESS) := by
  unfold expressionStatement
  refine Exec.ensures_bind (rules_lessFree fuel).1 (fun e he => ?_)
  refine Exec.ensures_bind (consume_ensures _ _) (fun _ _ => Exec.ensures_pure ?_)
  simpa only [Stmt.binaryOperators] using he

theorem printStatement_lessFree (fuel : Nat) :
    (printStatement fuel : Exec F (Parser F) (Stmt F)).Ensures
      (fun s => ∀ op ∈ s.binaryOperators, op.TokenType ≠ .LESS) := by
  unfold printStatement
  refine Exec.ensures_bind (rules_lessFree fuel).1 (fun e he => ?_)
  refine Exec.ensures_bind (consume_ensures _ _) (fun _ _ => Exec.ensures_pure ?_)
  simpa only [Stmt.binaryOperators] using he

theorem varDeclaration_lessFree (fuel : Nat) :
    (varDeclaration fuel : Exec F (Parser F) (Stmt F)).Ensures
      (fun s => ∀ op ∈ s.binaryOperators, op.TokenType ≠ .LESS) := by
  unfold varDeclaration
  refine Exec.ensures_bind (consume_ensures _ _) (fun name _ => ?_)
  refine Exec.ensures_bind (M := fun o => ∀ e, o = some e → e.LessFree) ?_ (fun o ho => ?_)
  · refine Exec.ensures_bind (match_ensures _) (fun b _ => ?_)
    split
    · refine Exec.ensures_bind (rules_lessFree fuel).1 (fun e he => Exec.ensures_pure ?_)
      intro e' h
      cases h
      exact he
    · refine Exec.ensures_pure ?_
      intro e' h
      cases h
  · refine Exec.ensures_bind (consume_ensures _ _) (fun _ _ => Exec.ensures_pure ?_)
    cases o with
    | none =>
      intro op hop
      simp only [Stmt.binaryOperators] at hop
      cases hop
    | some e => simpa only [Stmt.binaryOperators] using ho e rfl

theorem statement_lessFree (fuel : Nat) :
    (statement fuel : Exec F (Parser F) (Stmt F)).Ensures
      (fun s => ∀ op ∈ s.binaryOperators, op.TokenType ≠ .LESS) := by
  unfold statement
  refine Exec.ensures_bind (match_ensures _) (fun b _ => ?_)
  split
  · exact printStatement_lessFree fuel
  · exact expressionStatement_lessFree fuel

theorem declaration_lessFree (fuel : Nat) (p p' : Parser F) (r : Option (Stmt F))
    (h : declaration fuel p = .ok r p') :
    ∀ stmt, r = some stmt → ∀ op ∈ stmt.binaryOperators, op.TokenType ≠ .LESS := by
  have hbody : (do
      if (← match_ [.VAR]) then
        varDeclaration fuel
      else
        statement fuel : Exec F (Parser F) (Stmt F)).Ensures
        (fun s => ∀ op ∈ s.binaryOperators, op.TokenType ≠ .LESS) := by
    refine Exec.ensures_bind (match_ensures _) (fun b _ => ?_)
    split
    · exact varDeclaration_lessFree fuel
    · exact statement_lessFree fuel
  intro stmt hr
  unfold declaration at h
  split at h
  · rename_i s p1 heq
    simp only [Outcome.ok.injEq] at h
    have hs : s = stmt := Option.some.inj (h.1.trans hr)
    exact hs ▸ hbody.2 p s p1 heq
  · rename_i parseErr p1 heq
    exact absurd heq (hbody.1 p parseErr p1)
  · cases h
  · cases h

theorem ok_of_bind_ok {σ α β : Type} {x : Exec F σ α} {f : α → Exec F σ β} {s s' : σ} {b : β}
    (h : (x >>= f) s = .ok b s') : ∃ a s1, x s = .ok a s1 ∧ f a s1 = .ok b s' := by
  cases hx : x s with
  | ok a s1 =>
    rw [Exec.bind_ok hx] at h
    exact ⟨a, s1, rfl, h⟩
  | panic v s1 =>
    rw [Exec.bind_panic hx] at h
    cases h
  | outOfFuel =>
    rw [Exec.bind_outOfFuel hx] at h
    cases h

theorem parseLoop_lessFree : ∀ (n : Nat) (acc : List (Option (Stmt F))) (p p' : Parser F)
    (r : List (Option (Stmt F))),
    (∀ stmt, some stmt ∈ acc → ∀ op ∈ stmt.binaryOperators, op.TokenType ≠ .LESS) →
    parseLoop n acc p = .ok r p' →
    ∀ stmt, some stmt ∈ r → ∀ op ∈ stmt.binaryOperators, op.TokenType ≠ .LESS := by
  intro n
  induction n with
  | zero =>
    intro acc p p' r _ h
    simp only [parseLoop] at h
    cases h
  | succ n ih =>
    intro acc p p' r hacc h
    simp only [parseLoop] at h
    obtain ⟨b, p1, _, h1⟩ := ok_of_bind_ok h
    cases b with
    | true =>
      simp only [Bool.not_true, Bool.false_eq_true, if_false, Exec.pure_apply,
        Outcome.ok.injEq] at h1
      exact h1.1 ▸ hacc
    | false =>
      simp only [Bool.not_false, if_true] at h1
      obtain ⟨stmt, p2, hd, h2⟩ := ok_of_bind_ok h1
      refine ih _ p2 p' r ?_ h2
      intro s hs
      rcases List.mem_append.mp hs with hs | hs
      · exact hacc s hs
      · exact declaration_lessFree n p1 p2 stmt hd s (List.mem_singleton.mp hs).symm

theorem parse_lessFree (p p' : Parser F) (statements : List (Option (Stmt F))) (flag : Bool)
    (h : Parse p = .ok (statements, flag) p') :
    ∀ stmt, some stmt ∈ statements → ∀ op ∈ stmt.binaryOperators, op.TokenType ≠ .LESS := by
  unfold Parse at h
  obtain ⟨q, p1, hq, h1⟩ := ok_of_bind_ok h
  obtain ⟨r, p2, hr, h2⟩ := ok_of_bind_ok h1
  simp only [Exec.pure_apply, Outcome.ok.injEq, Prod.mk.injEq] at h2
  rw [← h2.1.1]
  exact parseLoop_lessFree _ [] p1 p2 r (fun _ hs => by cases hs) hr

/-- The term chain of the literal `1`. -/
theorem oneChain_wellFormed :
    (⟨⟨tokenOperand (numTok "1" 1), []⟩, []⟩ : TermChain ℚ).WellFormed 1 :=
  ⟨⟨tokenOperand_parsed rfl, fun _ h => by cases h⟩, fun _ h => by cases h⟩

/-- On the tokens of `1 < 2;` the expression is the literal `1`, and the cursor stays on the
`<`. -/
theorem expression_less (fuel : Nat) (hfuel : 10 ≤ fuel) :
    expression fuel (NewParser lessTokens) =
      .ok (.Literal (.number 1)) ⟨lessTokens, 1, []⟩ :=
  expression_chain (p := NewParser lessTokens) oneChain_wellFormed
    (by rfl : _ = [numTok "1" 1] ++ tok .LESS "<" :: [numTok "2" 2, tok .SEMICOLON ";", tok .EOF ""])
    (by decide) hfuel

theorem expressionStatement_less (fuel : Nat) (hfuel : 10 ≤ fuel) :
    expressionStatement fuel (NewParser lessTokens) =
      .panic (.ptrParseError (NewParseError (tok .LESS "<") "Expect ';' after expression."))
        ⟨lessTokens, 1, []⟩ := by
  unfold expressionStatement
  rw [Exec.bind_ok (expression_less fuel hfuel)]
  rfl

end Parser

end Less

/-- C20. Plain `<` is never parsed as a comparison. For every token list and cursor, no
statement that `Parse` returns, and no tree that `expression` returns, holds a `Binary`
node whose operator token has kind LESS. On the tokens of `1 < 2;` the expression is the
literal `1` with the cursor left on the `<`, and the expression statement, as well as
`Parse`, panics with the parse error "Expect ';' after expression." that carries the `<`
token. -/
theorem Parser.less_never_binary {F : Type} (p p' : Parser F)
    (statements : List (Option (Stmt F))) (flag : Bool)
    (h : Parser.Parse p = .ok (statements, flag) p') :
    (∀ stmt, some stmt ∈ statements → ∀ op ∈ stmt.binaryOperators, op.TokenType ≠ .LESS) ∧
    (∀ (fuel : Nat) (q q' : Parser F) (e : Expr F), Parser.expression fuel q = .ok e q' →
      ∀ op ∈ e.binaryOperators, op.TokenType ≠ .LESS) ∧
    (∀ fuel, 10 ≤ fuel → Parser.expression fuel (NewParser lessTokens) =
      .ok (.Literal (.number 1)) ⟨lessTokens, 1, []⟩) ∧
    (∀ fuel, 10 ≤ fuel → Parser.expressionStatement fuel (NewParser lessTokens) =
      .panic (.ptrParseError ⟨tok .LESS "<", "Expect ';' after expression."⟩)
        ⟨lessTokens, 1, []⟩) ∧
    Parser.Parse (NewParser lessTokens) =
      .panic (.ptrParseError ⟨tok .LESS "<", "Expect ';' after expression."⟩)
        ⟨lessTokens, 1, []⟩ :=
  ⟨Parser.parse_lessFree p p' statements flag h,
    fun fuel q q' e he => (Parser.rules_lessFree fuel).1.2 q e q' he,
    Parser.expression_less, Parser.expressionStatement_less, by decide!⟩

/-- C20, at a concrete input: the tokens of `print 1 <= 2 * 3;` parse to one statement whose
`Binary` nodes have the operators `<=` and `*`, neither of kind LESS. -/
theorem Parser.less_never_binary_witness :
    Parser.Parse (NewParser lessEqualTokens) =
      .ok ([some (.Print (.Binary (.Literal (.number 1)) (tok .LESS_EQUAL "<=")
          (.Binary (.Literal (.number 2)) (tok .STAR "*") (.Literal (.number 3)))))], false)
        ⟨lessEqualTokens, 7, []⟩ ∧
    (Stmt.Print (.Binary (.Literal (.number 1)) (tok .LESS_EQUAL "<=")
        (.Binary (.Literal (.number 2)) (tok .STAR "*")
          (.Literal (.number 3))))).binaryOperators =
      [tok .LESS_EQUAL "<=", tok .STAR "*"] ∧
    ∀ stmt, some stmt ∈ [some (Stmt.Print (.Binary (.Literal (.number 1))
        (tok .LESS_EQUAL "<=")
        (.Binary (.Literal (.number 2)) (tok .STAR "*") (.Literal (.number 3)))))] →
      ∀ op ∈ stmt.binaryOperators, op.TokenType ≠ .LESS :=
  ⟨by decide!, by simp [Stmt.binaryOperators, Expr.binaryOperators],
    (Parser.less_never_binary (NewParser lessEqualTokens) ⟨lessEqualTokens, 7, []⟩ _ false
      (by decide!)).1⟩

/-- The scanner turns the sources `1 < 2;` and `print 1 <= 2 * 3;` into the token lists of
the examples. -/
theorem scan_less_sources :
    (Scanner.ScanTokens ratFloat (NewScanner "1 < 2;".data)).observe Scanner.tokens =
      .ok (lessTokens, false) lessTokens ∧
    (Scanner.ScanTokens ratFloat (NewScanner "print 1 <= 2 * 3;".data)).observe
        Scanner.tokens =
      .ok (lessEqualTokens, false) lessEqualTokens := by
  decide!


section Resync

variable {F : Type}

namespace Parser

theorem previous_at {p : Parser F} {t : Token F} (hcur : p.current ≠ 0)
    (h : p.tokens[p.current - 1]? = some t) : previous p = .ok t p := by
  simp [previous, hcur, h]

/-- The defect behind C19, for every token list and cursor: on a statement keyword other
than `return`, not preceded by `;`, the loop of `synchronize` advances and goes on. -/
theorem synchronizeLoop_keyword {p : Parser F} {t prev : Token F}
    (h : p.tokens[p.current]? = some t) (hcur : p.current ≠ 0)
    (hprev : p.tokens[p.current - 1]? = some prev) (hsemi : prev.TokenType ≠ .SEMICOLON)
    (hkw : t.TokenType ∈
      [TokenType.CLASS, .FUN, .VAR, .FOR, .IF, .WHILE, .PRINT]) (n : Nat) :
    synchronizeLoop (n + 1) p = synchronizeLoop n { p with current := p.current + 1 } := by
  have hne : t.TokenType ≠ .EOF := by
    intro he
    rw [he] at hkw
    simp at hkw
  simp only [synchronizeLoop]
  rw [Exec.bind_ok (isAtEnd_at h)]
  simp only [hne, decide_False, Bool.not_false, if_true]
  rw [Exec.bind_ok (previous_at hcur hprev)]
  simp only [hsemi, if_false]
  rw [Exec.bind_ok (peek_at h)]
  simp only [List.mem_cons, List.mem_singleton, List.not_mem_nil, or_false] at hkw
  rcases hkw with hty | hty | hty | hty | hty | hty | hty <;>
    · simp only [hty]
      rw [Exec.bind_ok (advance_at h hne)]

end Parser

end Resync

/-! ## Progress and bounds of the parser -/

section Bounds

variable {F : Type}

namespace Parser

theorem valid_peek {p : Parser F} (hv : p.Valid) : ∃ t, p.tokens[p.current]? = some t :=
  ⟨_, List.getElem?_eq_getElem hv.2.1⟩

/-- Moving over a token that is not EOF keeps the cursor in bounds. -/
theorem valid_next {p : Parser F} {t : Token F} (hv : p.Valid)
    (h : p.tokens[p.current]? = some t) (hne : t.TokenType ≠ .EOF) :
    ({ p with current := p.current + 1 } : Parser F).Valid := by
  obtain ⟨⟨eof, hlast, heof⟩, hlt, hbefore⟩ := hv
  refine ⟨⟨eof, hlast, heof⟩, ?_, ?_⟩
  · show p.current + 1 < p.tokens.length
    by_contra hcon
    have hcur : p.tokens.length - 1 = p.current := by omega
    rw [List.getLast?_eq_getElem?, hcur, h] at hlast
    cases hlast
    exact hne heof
  · intro i t' hi ht'
    have hi' : i < p.current + 1 := hi
    by_cases hic : i < p.current
    · exact hbefore i t' hic ht'
    · have hieq : i = p.current := by omega
      have ht2 : p.tokens[i]? = some t' := ht'
      rw [hieq, h] at ht2
      cases ht2
      exact hne

theorem valid_stdout {p : Parser F} (hv : p.Valid) (out : List (Event F)) :
    ({ p with stdout := out } : Parser F).Valid := hv

theorem from_refl {p : Parser F} (hv : p.Valid) : From p p := ⟨rfl, Nat.le_refl _, hv⟩

theorem from_trans {p q r : Parser F} (h1 : From p q) (h2 : From q r) : From p r :=
  ⟨h2.1.trans h1.1, Nat.le_trans h1.2.1 h2.2.1, h2.2.2⟩

theorem from_next {p q : Parser F} {t : Token F} (h : From p q)
    (ht : q.tokens[q.current]? = some t) (hne : t.TokenType ≠ .EOF) :
    From p { q with current := q.current + 1 } :=
  ⟨h.1, Nat.le_trans h.2.1 (Nat.le_succ _), valid_next h.2.2 ht hne⟩

theorem from_stdout {p q : Parser F} (h : From p q) (out : List (Event F)) :
    From p { q with stdout := out } := h

theorem remaining_le {p q : Parser F} (h : From p q) : q.remaining ≤ p.remaining := by
  have h1 := congrArg List.length h.1
  have h2 := h.2.1
  unfold remaining
  omega

theorem remaining_next {p q : Parser F} (h : From p q) :
    ({ q with current := q.current + 1 } : Parser F).remaining + 1 ≤ p.remaining := by
  have h1 := congrArg List.length h.1
  have h2 := h.2.1
  have h3 : q.current < q.tokens.length := h.2.2.2.1
  show q.tokens.length - (q.current + 1) + 1 ≤ p.tokens.length - p.current
  omega

theorem runs_of_eq {α : Type} {x y : Exec F (Parser F) α} {p : Parser F}
    {Q : α → Parser F → Prop} {Fl : Parser F → Prop} {S : Prop} (h : x p = y p)
    (hy : Runs y p Q Fl S) : Runs x p Q Fl S := by
  unfold Runs at hy ⊢
  rw [h]
  exact hy

theorem runs_pure {α : Type} {a : α} {p : Parser F} {Q : α → Parser F → Prop}
    {Fl : Parser F → Prop} {S : Prop} (h : Q a p) :
    Runs (Pure.pure a : Exec F (Parser F) α) p Q Fl S := h

theorem runs_outOfFuel {α : Type} {p : Parser F} {Q : α → Parser F → Prop}
    {Fl : Parser F → Prop} {S : Prop} (h : S) :
    Runs (fun _ => .outOfFuel : Exec F (Parser F) α) p Q Fl S := h

theorem runs_weaken {α : Type} {x : Exec F (Parser F) α} {p : Parser F}
    {Q Q' : α → Parser F → Prop} {Fl Fl' : Parser F → Prop} {S S' : Prop}
    (h : Runs x p Q Fl S) (hq : ∀ a p', Q a p' → Q' a p') (hf : ∀ p', Fl p' → Fl' p')
    (hs : S → S') : Runs x p Q' Fl' S' := by
  unfold Runs at h ⊢
  cases hx : x p with
  | ok a p' =>
    rw [hx] at h
    exact hq a p' h
  | panic v p' =>
    rw [hx] at h
    exact ⟨h.1, hf p' h.2⟩
  | outOfFuel =>
    rw [hx] at h
    exact hs h

theorem runs_bind {α β : Type} {x : Exec F (Parser F) α} {f : α → Exec F (Parser F) β}
    {p : Parser F} {Q : α → Parser F → Prop} {R : β → Parser F → Prop} {Fl : Parser F → Prop}
    {S : Prop} (hx : Runs x p Q Fl S) (hf : ∀ a p', Q a p' → Runs (f a) p' R Fl S) :
    Runs (x >>= f) p R Fl S := by
  unfold Runs at hx
  cases h : x p with
  | ok a p' =>
    rw [h] at hx
    have := hf a p' hx
    unfold Runs at this ⊢
    rw [Exec.bind_ok h]
    exact this
  | panic v p' =>
    rw [h] at hx
    unfold Runs
    rw [Exec.bind_panic h]
    exact hx
  | outOfFuel =>
    rw [h] at hx
    unfold Runs
    rw [Exec.bind_outOfFuel h]
    exact hx

/-- A call that runs from `q` runs from any state that `q` comes from. -/
theorem runs_from {α : Type} {x : Exec F (Parser F) α} {p q : Parser F} {S S' : Prop}
    (h : Runs x q (fun _ => From q) (From q) S) (hpq : From p q) (hs : S → S') :
    Runs x q (fun _ => From p) (From p) S' :=
  runs_weaken h (fun _ _ hq => from_trans hpq hq) (fun _ hq => from_trans hpq hq) hs

/-- The two ways `match` ends on a valid parser. -/
theorem match_valid {p : Parser F} (hv : p.Valid) (ts : List TokenType) :
    match_ ts p = .ok false p ∨
    ∃ t, p.tokens[p.current]? = some t ∧ t.TokenType ∈ ts ∧ t.TokenType ≠ .EOF ∧
      match_ ts p = .ok true { p with current := p.current + 1 } := by
  obtain ⟨t, ht⟩ := valid_peek hv
  by_cases hm : t.TokenType ∈ ts ∧ t.TokenType ≠ .EOF
  · exact Or.inr ⟨t, ht, hm.1, hm.2, match_true ht hm.2 ts hm.1⟩
  · refine Or.inl (match_false ht ts ?_)
    by_cases h1 : t.TokenType ∈ ts
    · exact Or.inr (by_contra fun h2 => hm ⟨h1, h2⟩)
    · exact Or.inl h1

/-- A step `if p.match(...) { ... } else ...` on a valid parser. -/
theorem runs_match {α : Type} {p : Parser F} (hv : p.Valid) (ts : List TokenType)
    {x other : Exec F (Parser F) α} {R : α → Parser F → Prop} {Fl : Parser F → Prop}
    {S : Prop}
    (hx : ∀ t, p.tokens[p.current]? = some t → t.TokenType ∈ ts → t.TokenType ≠ .EOF →
      Runs x { p with current := p.current + 1 } R Fl S)
    (hother : Runs other p R Fl S) :
    Runs (match_ ts >>= fun b => if b = true then x else other) p R Fl S := by
  rcases match_valid hv ts with hm | ⟨t, ht, hty, hne, hm⟩
  · refine runs_of_eq (y := other) ?_ hother
    rw [Exec.bind_ok hm]
    rfl
  · unfold Runs
    rw [Exec.bind_ok hm, if_pos rfl]
    exact hx t ht hty hne

/-- A step `if p.match(...) { operator := p.previous(); ... } else ...` on a valid
parser. -/
theorem runs_matched {α : Type} {p : Parser F} (hv : p.Valid) (ts : List TokenType)
    {k : Token F → Exec F (Parser F) α} {other : Exec F (Parser F) α}
    {R : α → Parser F → Prop} {Fl : Parser F → Prop} {S : Prop}
    (hk : ∀ t, p.tokens[p.current]? = some t → t.TokenType ∈ ts → t.TokenType ≠ .EOF →
      Runs (k t) { p with current := p.current + 1 } R Fl S)
    (hother : Runs other p R Fl S) :
    Runs (match_ ts >>= fun b => if b = true then previous >>= k else other) p R Fl S := by
  refine runs_match hv ts (fun t ht hty hne => ?_) hother
  refine runs_of_eq (y := k t) ?_ (hk t ht hty hne)
  rw [Exec.bind_ok (previous_next ht)]

/-- On a valid parser `consume` moves over one token or panics with its parse error. -/
theorem runs_consume {p : Parser F} (hv : p.Valid) (ty : TokenType) (message : String)
    {S : Prop} :
    Runs (consume ty message) p
      (fun _ p' => ∃ t, p.tokens[p.current]? = some t ∧ t.TokenType ≠ .EOF ∧
        p' = { p with current := p.current + 1 })
      (fun p' => p' = p) S := by
  obtain ⟨t, ht⟩ := valid_peek hv
  by_cases hc : t.TokenType ≠ .EOF ∧ t.TokenType = ty
  · unfold Runs
    rw [consume_at ht hc.1 hc.2 message]
    exact ⟨t, ht, hc.1, rfl⟩
  · unfold Runs consume
    rw [Exec.bind_ok (check_at ht ty)]
    simp only [hc, decide_False, Bool.false_eq_true, if_false]
    rw [Exec.bind_ok (peek_at ht)]
    exact ⟨⟨_, rfl⟩, rfl⟩

/-- On a valid parser `consume` moves on from any state the parser comes from. -/
theorem runs_consume_from {p q : Parser F} (hq : From p q) (ty : TokenType)
    (message : String) {S : Prop} :
    Runs (consume ty message) q (fun _ r => From p r ∧ q.current < r.current) (From p) S := by
  refine runs_weaken (runs_consume hq.2.2 ty message) (fun _ r hr => ?_)
    (fun r hr => (hr ▸ hq : From p r)) (fun h => h)
  obtain ⟨t, ht, hne, hr⟩ := hr
  rw [hr]
  exact ⟨from_next hq ht hne, Nat.lt_succ_self _⟩

/-- A loop step of the grammar: an operator, a right operand, and the loop again. -/
theorem runs_loopStep {p : Parser F} (hv : p.Valid) (ts : List TokenType)
    (operand : Exec F (Parser F) (Expr F)) (loop : Expr F → Exec F (Parser F) (Expr F))
    (e : Expr F) {S : Prop}
    (hoperand : ∀ q : Parser F, q.Valid → q.remaining + 1 ≤ p.remaining →
      Runs operand q (fun _ => From q) (From q) S)
    (hloop : ∀ (e' : Expr F) (q : Parser F), q.Valid → q.remaining + 1 ≤ p.remaining →
      Runs (loop e') q (fun _ => From q) (From q) S) :
    Runs (match_ ts >>= fun b => if b = true then
        previous >>= fun operator => operand >>= fun right => loop (.Binary e operator right)
      else Pure.pure e) p (fun _ => From p) (From p) S := by
  refine runs_matched hv ts (fun t ht hty hne => ?_) (runs_pure (from_refl hv))
  have hnext := from_next (from_refl hv) ht hne
  have hrem := remaining_next (from_refl hv)
  refine runs_bind
    (runs_weaken (hoperand _ hnext.2.2 hrem) (fun _ _ h => h) (fun _ h => from_trans hnext h)
      (fun h => h))
    (fun right q hq => ?_)
  exact runs_from
    (hloop _ q hq.2.2 (Nat.le_trans (Nat.succ_le_succ (remaining_le hq)) hrem))
    (from_trans hnext hq) (fun h => h)

/-- A rule of the grammar: a first operand, then the loop. -/
theorem runs_rule {p : Parser F} (operand : Exec F (Parser F) (Expr F))
    (loop : Expr F → Exec F (Parser F) (Expr F)) {S : Prop}
    (hoperand : Runs operand p (fun _ => From p) (From p) S)
    (hloop : ∀ (e : Expr F) (q : Parser F), q.Valid → q.remaining ≤ p.remaining →
      Runs (loop e) q (fun _ => From q) (From q) S) :
    Runs (operand >>= loop) p (fun _ => From p) (From p) S :=
  runs_bind hoperand
    (fun e q hq => runs_from (hloop e q hq.2.2 (remaining_le hq)) hq (fun h => h))

theorem runs_starved {α : Type} {x : Exec F (Parser F) α} {p : Parser F}
    {Q : α → Parser F → Prop} {Fl : Parser F → Prop} {S S' : Prop} (h : Runs x p Q Fl S)
    (hs : S → S') : Runs x p Q Fl S' :=
  runs_weaken h (fun _ _ hq => hq) (fun _ hf => hf) hs

/-- What every rule of the grammar does on a valid parser, at any fuel: it returns or
panics with a `*ParseError`, with the cursor not moved back and in bounds, and it runs out
of fuel only below a bound that is linear in the number of tokens from the cursor on. -/
theorem rules_run : ∀ n : Nat,
    (∀ p : Parser F, p.Valid →
      Runs (expression n) p (fun _ => From p) (From p) (n < 8 + 8 * p.remaining)) ∧
    (∀ p : Parser F, p.Valid →
      Runs (assignment n) p (fun _ => From p) (From p) (n < 7 + 8 * p.remaining)) ∧
    (∀ p : Parser F, p.Valid →
      Runs (equality n) p (fun _ => From p) (From p) (n < 6 + 8 * p.remaining)) ∧
    (∀ (e : Expr F) (p : Parser F), p.Valid →
      Runs (equalityLoop n e) p (fun _ => From p) (From p) (n < 1 + 8 * p.remaining)) ∧
    (∀ p : Parser F, p.Valid →
      Runs (comparison n) p (fun _ => From p) (From p) (n < 5 + 8 * p.remaining)) ∧
    (∀ (e : Expr F) (p : Parser F), p.Valid →
      Runs (comparisonLoop n e) p (fun _ => From p) (From p) (n < 1 + 8 * p.remaining)) ∧
    (∀ p : Parser F, p.Valid →
      Runs (term n) p (fun _ => From p) (From p) (n < 4 + 8 * p.remaining)) ∧
    (∀ (e : Expr F) (p : Parser F), p.Valid →
      Runs (termLoop n e) p (fun _ => From p) (From p) (n < 1 + 8 * p.remaining)) ∧
    (∀ p : Parser F, p.Valid →
      Runs (factor n) p (fun _ => From p) (From p) (n < 3 + 8 * p.remaining)) ∧
    (∀ (e : Expr F) (p : Parser F), p.Valid →
      Runs (factorLoop n e) p (fun _ => From p) (From p) (n < 1 + 8 * p.remaining)) ∧
    (∀ p : Parser F, p.Valid →
      Runs (unary n) p (fun _ => From p) (From p) (n < 2 + 8 * p.remaining)) ∧
    (∀ p : Parser F, p.Valid →
      Runs (primary n) p (fun _ => From p) (From p) (n < 1 + 8 * p.remaining)) := by
  intro n
  induction n with
  | zero =>
    refine ⟨fun p _ => ?_, fun p _ => ?_, fun p _ => ?_, fun e p _ => ?_, fun p _ => ?_,
      fun e p _ => ?_, fun p _ => ?_, fun e p _ => ?_, fun p _ => ?_, fun e p _ => ?_,
      fun p _ => ?_, fun p _ => ?_⟩
    all_goals first
      | (simp only [expression]; exact runs_outOfFuel (by omega))
      | (simp only [assignment]; exact runs_outOfFuel (by omega))
      | (simp only [equality]; exact runs_outOfFuel (by omega))
      | (simp only [equalityLoop]; exact runs_outOfFuel (by omega))
      | (simp only [comparison]; exact runs_outOfFuel (by omega))
      | (simp only [comparisonLoop]; exact runs_outOfFuel (by omega))
      | (simp only [term]; exact runs_outOfFuel (by omega))
      | (simp only [termLoop]; exact runs_outOfFuel (by omega))
      | (simp only [factor]; exact runs_outOfFuel (by omega))
      | (simp only [factorLoop]; exact runs_outOfFuel (by omega))
      | (simp only [unary]; exact runs_outOfFuel (by omega))
      | (simp only [primary]; exact runs_outOfFuel (by omega))
  | succ n ih =>
    obtain ⟨hexpr, hassign, heq, heqL, hcmp, hcmpL, hterm, htermL, hfac, hfacL, hun, hprim⟩ := ih
    refine ⟨?_, ?_, ?_, ?_, ?_, ?_, ?_, ?_, ?_, ?_, ?_, ?_⟩
    · intro p hv
      simp only [expression]
      exact runs_starved (hassign p hv) (by omega)
    · intro p hv
      simp only [assignment]
      refine runs_bind (runs_starved (heq p hv) (by omega)) (fun expr q hq => ?_)
      refine runs_matched hq.2.2 _ (fun t ht hty hne => ?_) (runs_pure hq)
      have hnext := from_next hq ht hne
      have hrem := remaining_next hq
      refine runs_bind (runs_from (hassign _ hnext.2.2) hnext (by omega))
        (fun value r hr => ?_)
      split
      · exact runs_pure hr
      · exact runs_bind (Q := fun _ => From p) (from_stdout hr _) (fun _ _ h => runs_pure h)
    · intro p hv
      simp only [equality]
      exact runs_rule _ _ (runs_starved (hcmp p hv) (by omega))
        (fun e q hq hrem => runs_starved (heqL e q hq) (by omega))
    · intro e p hv
      simp only [equalityLoop]
      exact runs_loopStep hv _ _ _ e
        (fun q hq hrem => runs_starved (hcmp q hq) (by omega))
        (fun e' q hq hrem => runs_starved (heqL e' q hq) (by omega))
    · intro p hv
      simp only [comparison]
      exact runs_rule _ _ (runs_starved (hterm p hv) (by omega))
        (fun e q hq hrem => runs_starved (hcmpL e q hq) (by omega))
    · intro e p hv
      simp only [comparisonLoop]
      exact runs_loopStep hv _ _ _ e
        (fun q hq hrem => runs_starved (hterm q hq) (by omega))
        (fun e' q hq hrem => runs_starved (hcmpL e' q hq) (by omega))
    · intro p hv
      simp only [term]
      exact runs_rule _ _ (runs_starved (hfac p hv) (by omega))
        (fun e q hq hrem => runs_starved (htermL e q hq) (by omega))
    · intro e p hv
      simp only [termLoop]
      exact runs_loopStep hv _ _ _ e
        (fun q hq hrem => runs_starved (hfac q hq) (by omega))
        (fun e' q hq hrem => runs_starved (htermL e' q hq) (by omega))
    · intro p hv
      simp only [factor]
      exact runs_rule _ _ (runs_starved (hun p hv) (by omega))
        (fun e q hq hrem => runs_starved (hfacL e q hq) (by omega))
    · intro e p hv
      simp only [factorLoop]
      exact runs_loopStep hv _ _ _ e
        (fun q hq hrem => runs_starved (hun q hq) (by omega))
        (fun e' q hq hrem => runs_starved (hfacL e' q hq) (by omega))
    · intro p hv
      simp only [unary]
      refine runs_matched hv _ (fun t ht hty hne => ?_)
        (runs_starved (hprim p hv) (by omega))
      have hnext := from_next (from_refl hv) ht hne
      have hrem := remaining_next (from_refl hv)
      exact runs_bind (runs_from (hun _ hnext.2.2) hnext (by omega))
        (fun right r hr => runs_pure hr)
    · intro p hv
      have hstep : ∀ t, p.tokens[p.current]? = some t → t.TokenType ≠ .EOF →
          From p { p with current := p.current + 1 } :=
        fun t ht hne => from_next (from_refl hv) ht hne
      simp only [primary]
      refine runs_match hv _ (fun t ht _ hne => runs_pure (hstep t ht hne)) ?_
      refine runs_match hv _ (fun t ht _ hne => runs_pure (hstep t ht hne)) ?_
      refine runs_match hv _ (fun t ht _ hne => runs_pure (hstep t ht hne)) ?_
      refine runs_match hv _ (fun t ht _ hne => ?_) ?_
      · refine runs_of_eq (y := Pure.pure (Expr.Literal t.Literal)) ?_
          (runs_pure (hstep t ht hne))
        rw [Exec.bind_ok (previous_next ht)]
      refine runs_match hv _ (fun t ht _ hne => ?_) ?_
      · refine runs_of_eq (y := Pure.pure (Expr.Variable t)) ?_
          (runs_pure (hstep t ht hne))
        rw [Exec.bind_ok (previous_next ht)]
      refine runs_match hv _ (fun t ht _ hne => ?_) ?_
      · have hnext := hstep t ht hne
        have hrem := remaining_next (from_refl hv)
        refine runs_bind (runs_from (hexpr _ hnext.2.2) hnext (by omega))
          (fun expr q hq => ?_)
        refine runs_bind (runs_consume_from hq _ _) (fun _ r hr => runs_pure hr.1)
      · obtain ⟨t, ht⟩ := valid_peek hv
        unfold Runs
        rw [Exec.bind_ok (peek_at ht), Exec.bind_ok (peek_at ht)]
        exact ⟨⟨_, rfl⟩, from_stdout (from_refl hv) _⟩

/-- A step `if !p.isAtEnd() { ... } else ...` on a valid parser. -/
theorem runs_atEnd {α : Type} {p : Parser F} (hv : p.Valid)
    {x other : Exec F (Parser F) α} {R : α → Parser F → Prop} {Fl : Parser F → Prop}
    {S : Prop}
    (hx : ∀ t, p.tokens[p.current]? = some t → t.TokenType ≠ .EOF → Runs x p R Fl S)
    (hother : ∀ t, p.tokens[p.current]? = some t → t.TokenType = .EOF →
      Runs other p R Fl S) :
    Runs (isAtEnd >>= fun b => if (!b) = true then x else other) p R Fl S := by
  obtain ⟨t, ht⟩ := valid_peek hv
  by_cases he : t.TokenType = .EOF
  · refine runs_of_eq (y := other) ?_ (hother t ht he)
    rw [Exec.bind_ok (isAtEnd_at ht)]
    simp [he]
  · refine runs_of_eq (y := x) ?_ (hx t ht he)
    rw [Exec.bind_ok (isAtEnd_at ht)]
    simp [he]

theorem runs_expressionStatement (fuel : Nat) {p : Parser F} (hv : p.Valid) :
    Runs (expressionStatement fuel) p (fun _ p' => From p p' ∧ p.current < p'.current)
      (From p) (fuel < 8 + 8 * p.remaining) := by
  unfold expressionStatement
  refine runs_bind ((rules_run fuel).1 p hv) (fun expr q hq => ?_)
  exact runs_bind (runs_consume_from hq _ _)
    (fun _ r hr => runs_pure ⟨hr.1, Nat.lt_of_le_of_lt hq.2.1 hr.2⟩)

theorem runs_printStatement (fuel : Nat) {p : Parser F} (hv : p.Valid) :
    Runs (printStatement fuel) p (fun _ p' => From p p' ∧ p.current < p'.current)
      (From p) (fuel < 8 + 8 * p.remaining) := by
  unfold printStatement
  refine runs_bind ((rules_run fuel).1 p hv) (fun expr q hq => ?_)
  exact runs_bind (runs_consume_from hq _ _)
    (fun _ r hr => runs_pure ⟨hr.1, Nat.lt_of_le_of_lt hq.2.1 hr.2⟩)

theorem runs_varDeclaration (fuel : Nat) {p : Parser F} (hv : p.Valid) :
    Runs (varDeclaration fuel) p (fun _ p' => From p p' ∧ p.current < p'.current)
      (From p) (fuel < 8 + 8 * p.remaining) := by
  unfold varDeclaration
  refine runs_bind (runs_consume_from (from_refl hv) _ _) (fun name q hq => ?_)
  refine runs_bind (Q := fun _ r => From p r ∧ p.current < r.current) ?_ (fun init r hr => ?_)
  · refine runs_match hq.1.2.2 _ (fun t ht _ hne => ?_) (runs_pure hq)
    have hnext := from_next hq.1 ht hne
    have hrem := remaining_next hq.1
    refine runs_bind (Q := fun _ r => From p r ∧ p.current < r.current)
      (runs_weaken ((rules_run fuel).1 _ hnext.2.2) (fun _ r hr => ⟨from_trans hnext hr, ?_⟩)
        (fun r hr => from_trans hnext hr) (by omega))
      (fun e r hr => runs_pure hr)
    have h1 : q.current + 1 ≤ r.current := hr.2.1
    have h2 := hq.2
    omega
  · exact runs_bind (runs_consume_from hr.1 _ _)
      (fun _ r2 h2 => runs_pure ⟨h2.1, Nat.lt_trans hr.2 h2.2⟩)

theorem runs_statement (fuel : Nat) {p : Parser F} (hv : p.Valid) :
    Runs (statement fuel) p (fun _ p' => From p p' ∧ p.current < p'.current)
      (From p) (fuel < 8 + 8 * p.remaining) := by
  unfold statement
  refine runs_match hv _ (fun t ht _ hne => ?_) (runs_expressionStatement fuel hv)
  have hnext := from_next (from_refl hv) ht hne
  have hrem := remaining_next (from_refl hv)
  refine runs_weaken (runs_printStatement fuel hnext.2.2)
    (fun _ r hr => ⟨from_trans hnext hr.1, ?_⟩) (fun r hr => from_trans hnext hr) (by omega)
  have h1 : p.current + 1 < r.current := hr.2
  omega

/-- What `declaration` does on a valid parser, at any fuel: when it returns, the cursor has
moved on by at least one token. -/
theorem runs_declaration (fuel : Nat) {p : Parser F} (hv : p.Valid) :
    Runs (declaration fuel) p (fun _ p' => From p p' ∧ p.current < p'.current)
      (From p) (fuel < 8 + 8 * p.remaining) := by
  have hbody : Runs (do
      if (← match_ [.VAR]) then
        varDeclaration fuel
      else
        statement fuel : Exec F (Parser F) (Stmt F)) p
      (fun _ p' => From p p' ∧ p.current < p'.current) (From p)
      (fuel < 8 + 8 * p.remaining) := by
    refine runs_match hv _ (fun t ht _ hne => ?_) (runs_statement fuel hv)
    have hnext := from_next (from_refl hv) ht hne
    have hrem := remaining_next (from_refl hv)
    refine runs_weaken (runs_varDeclaration fuel hnext.2.2)
      (fun _ r hr => ⟨from_trans hnext hr.1, ?_⟩) (fun r hr => from_trans hnext hr) (by omega)
    have h1 : p.current + 1 < r.current := hr.2
    omega
  unfold Runs at hbody ⊢
  unfold declaration
  split at hbody
  · rename_i a p' heq
    rw [heq]
    exact hbody
  · rename_i v p' heq
    obtain ⟨⟨e, rfl⟩, hf⟩ := hbody
    rw [heq]
    exact ⟨⟨e, rfl⟩, hf⟩
  · rename_i heq
    rw [heq]
    exact hbody

/-- What the loop of `Parse` does on a valid parser, at any fuel: when it returns, the
cursor is on an EOF token. -/
theorem runs_parseLoop : ∀ (n : Nat) (acc : List (Option (Stmt F))) (p : Parser F), p.Valid →
    Runs (parseLoop n acc) p
      (fun _ p' => From p p' ∧ ∃ t, p'.tokens[p'.current]? = some t ∧ t.TokenType = .EOF)
      (From p) (n < 9 + 8 * p.remaining) := by
  intro n
  induction n with
  | zero =>
    intro acc p _
    simp only [parseLoop]
    exact runs_outOfFuel (by omega)
  | succ n ih =>
    intro acc p hv
    simp only [parseLoop]
    refine runs_atEnd hv (fun t ht hne => ?_)
      (fun t ht he => runs_pure ⟨from_refl hv, t, ht, he⟩)
    refine runs_bind (runs_starved (runs_declaration n hv) (by omega)) (fun stmt q hq => ?_)
    have hrem : q.remaining + 1 ≤ p.remaining := by
      have h1 := congrArg List.length hq.1.1
      have h2 := hq.2
      have h3 : q.current < q.tokens.length := hq.1.2.2.2.1
      unfold remaining
      omega
    exact runs_weaken (ih _ q hq.1.2.2) (fun _ r hr => ⟨from_trans hq.1 hr.1, hr.2⟩)
      (fun r hr => from_trans hq.1 hr) (by omega)

/-- On a valid parser `Parse` ends within its fuel. -/
theorem runs_Parse {p : Parser F} (hv : p.Valid) :
    Runs Parse p
      (fun _ p' => From p p' ∧ ∃ t, p'.tokens[p'.current]? = some t ∧ t.TokenType = .EOF)
      (From p) False := by
  unfold Parse
  refine runs_of_eq
    (y := parseLoop (10 * p.tokens.length + 20) [] >>= fun statements =>
      Pure.pure (statements, false)) ?_ ?_
  · rw [Exec.bind_ok (show Exec.get p = .ok p p from rfl)]
  · refine runs_bind (runs_starved (runs_parseLoop _ [] p hv) ?_)
      (fun statements q hq => runs_pure hq)
    unfold remaining
    omega

end Parser

end Bounds

/-- C21. Parser progress and bounds. For every token list whose last token is EOF, `Parse`
on a fresh parser ends within its fuel: it returns, with the cursor on an EOF token, or it
panics with a `*ParseError`; it raises no other panic, so no index of `peek` or `previous`
is outside the token list. From every state over these tokens whose cursor is in bounds (an
index of the list with no EOF token before it), `declaration` and `expression` at any fuel
return or panic with a `*ParseError`, or run out of fuel below a bound linear in the number
of tokens left; they leave the cursor in bounds and not moved back, and a `declaration`
that returns has moved the cursor on by at least one token. -/
theorem Parser.parse_in_bounds {F : Type} (tokens : List (Golox.Token F))
    (hlast : EndsInEOF tokens) :
    Parser.Runs Parser.Parse (NewParser tokens)
      (fun _ p' => p'.tokens = tokens ∧ p'.InBounds ∧
        ∃ t, p'.tokens[p'.current]? = some t ∧ t.TokenType = .EOF)
      (fun p' => p'.tokens = tokens ∧ p'.InBounds) False ∧
    (∀ (fuel : Nat) (p : Parser F), p.tokens = tokens → p.InBounds →
      Parser.Runs (Parser.declaration fuel) p
        (fun _ p' => p'.tokens = tokens ∧ p'.InBounds ∧ p.current < p'.current)
        (fun p' => p'.tokens = tokens ∧ p'.InBounds ∧ p.current ≤ p'.current)
        (fuel < 8 + 8 * (tokens.length - p.current))) ∧
    (∀ (fuel : Nat) (p : Parser F), p.tokens = tokens → p.InBounds →
      Parser.Runs (Parser.expression fuel) p
        (fun _ p' => p'.tokens = tokens ∧ p'.InBounds ∧ p.current ≤ p'.current)
        (fun p' => p'.tokens = tokens ∧ p'.InBounds ∧ p.current ≤ p'.current)
        (fuel < 8 + 8 * (tokens.length - p.current))) := by
  have hnonempty : 0 < tokens.length := by
    obtain ⟨t, ht, _⟩ := hlast
    cases tokens with
    | nil => cases ht
    | cons _ _ => exact Nat.succ_pos _
  have hfresh : (NewParser tokens).Valid := ⟨hlast, hnonempty, fun i t hi _ => by cases hi⟩
  refine ⟨?_, ?_, ?_⟩
  · exact Parser.runs_weaken (Parser.runs_Parse hfresh)
      (fun _ p' h => ⟨h.1.1, h.1.2.2.2, h.2⟩) (fun p' h => ⟨h.1, h.2.2.2⟩) (fun h => h)
  · intro fuel p hp hb
    have hv : p.Valid := ⟨hp ▸ hlast, hb⟩
    refine Parser.runs_weaken (Parser.runs_declaration fuel hv)
      (fun _ p' h => ⟨h.1.1.trans hp, h.1.2.2.2, h.2⟩)
      (fun p' h => ⟨h.1.trans hp, h.2.2.2, h.2.1⟩) (fun h => ?_)
    rw [← hp]
    exact h
  · intro fuel p hp hb
    have hv : p.Valid := ⟨hp ▸ hlast, hb⟩
    refine Parser.runs_weaken ((Parser.rules_run fuel).1 p hv)
      (fun _ p' h => ⟨h.1.trans hp, h.2.2.2, h.2.1⟩)
      (fun p' h => ⟨h.1.trans hp, h.2.2.2, h.2.1⟩) (fun h => ?_)
    rw [← hp]
    exact h

/-- C21, at a concrete input: the tokens of `print 1; print 2;` end in EOF; `Parse` returns
the two statements with the cursor at 6, on the EOF token, and the first call of
`declaration` moves the cursor from 0 to 3. -/
theorem Parser.parse_in_bounds_witness :
    EndsInEOF printTwiceTokens ∧
    (Parser.Runs Parser.Parse (NewParser printTwiceTokens)
      (fun _ p' => p'.tokens = printTwiceTokens ∧ p'.InBounds ∧
        ∃ t, p'.tokens[p'.current]? = some t ∧ t.TokenType = .EOF)
      (fun p' => p'.tokens = printTwiceTokens ∧ p'.InBounds) False) ∧
    Parser.Parse (NewParser printTwiceTokens) =
      .ok ([some (.Print (.Literal (.number 1))), some (.Print (.Literal (.number 2)))], false)
        ⟨printTwiceTokens, 6, []⟩ ∧
    Parser.declaration 64 (NewParser printTwiceTokens) =
      .ok (some (.Print (.Literal (.number 1)))) ⟨printTwiceTokens, 3, []⟩ :=
  ⟨⟨tok .EOF "", rfl, rfl⟩,
    (Parser.parse_in_bounds printTwiceTokens ⟨tok .EOF "", rfl, rfl⟩).1,
    by decide!, by decide!⟩


end Golox
